import Mathlib

/-!
Verification development for the gotoon repository: a shallow embedding of the
TOON text codec (encoder.go, decoder.go, toon.go) together with proofs about
the encoder, the decoder, and their round-trip behaviour.

Go strings are modelled as lists of characters (`GoStr`); the Go standard
library string functions the codec uses (strings.TrimSpace, strings.Split,
strings.SplitN, strings.Contains, strings.ContainsAny, strings.ReplaceAll,
strconv.ParseInt, strconv.ParseUint, strconv.ParseFloat, strconv.ParseBool)
are given executable models below.  Machine integers are modelled as `Int`
and `Nat` with the int64/uint64 ranges made explicit in the parsers.
-/

namespace GoToon

/-- Go strings, modelled as lists of characters. -/
abbrev GoStr := List Char

/-- Unicode white space as relevant to strings.TrimSpace on ASCII input:
space, tab, newline, carriage return, vertical tab and form feed. -/
def isSpaceChar (c : Char) : Bool :=
  c = ' ' || c = '\t' || c = '\n' || c = '\r' || c.toNat = 11 || c.toNat = 12

/-- Models strings.TrimSpace restricted to the left end. -/
def trimLeftG (s : GoStr) : GoStr := s.dropWhile isSpaceChar

/-- Models strings.TrimSpace restricted to the right end. -/
def trimRightG (s : GoStr) : GoStr := (s.reverse.dropWhile isSpaceChar).reverse

/-- Models strings.TrimSpace: white space removed from both ends. -/
def trimSpaceG (s : GoStr) : GoStr := trimRightG (trimLeftG s)

/-- A line the decoder skips everywhere: blank after trimming, or a comment
line (trimmed text starting with a number sign), as in decoder.go hasMore
and skipEmptyLines. -/
def skippableLine (l : GoStr) : Bool :=
  match trimSpaceG l with
  | [] => true
  | c :: _ => c = '#'

/-- Models strings.ContainsAny: does s hold any character of chars? -/
def containsAnyG (s chars : GoStr) : Bool := s.any (fun c => chars.contains c)

/-- Models strings.Split with a one-character separator (the only shape the
codec uses).  Split of the empty string is one empty piece, as in Go. -/
def splitOnCharG (c : Char) : GoStr → List GoStr
  | [] => [[]]
  | x :: rest =>
    match splitOnCharG c rest with
    | [] => [[]]
    | h :: t => if x = c then [] :: h :: t else (x :: h) :: t

/-- Models strings.SplitN(s, sep, 2) with a one-character separator: the text
before the first occurrence and the text after it, or none when the
separator does not occur (in Go: a one-element slice). -/
def splitFirstG (c : Char) : GoStr → Option (GoStr × GoStr)
  | [] => none
  | x :: rest =>
    if x = c then some ([], rest)
    else (splitFirstG c rest).map (fun p => (x :: p.1, p.2))

/-- Number of leading space characters of a line (decoder.go getIndent). -/
def indentOfG (l : GoStr) : Nat := (l.takeWhile (fun c => c = ' ')).length

/-- A run of n spaces (encoder.go writeIndent). -/
def spacesG (n : Nat) : GoStr := List.replicate n ' '

/-- Delimiter-joined concatenation, as the encoder's first-written-flag
loops produce it (equivalently strings.Join). -/
def joinDelimG (sep : GoStr) : List GoStr → GoStr
  | [] => []
  | [x] => x
  | x :: rest => x ++ sep ++ joinDelimG sep rest

/-- Base-10 value of a digit string (helper for the strconv models). -/
def digitsToNatG (s : GoStr) : Nat := s.foldl (fun a c => a * 10 + (c.toNat - 48)) 0

/-- Base-10 digit string of a natural number, by fuel-bounded structural
recursion so that it evaluates in the kernel; the fuel n + 1 always
suffices since a number has at most as many digits as its value plus one. -/
def natToDigitsAux : Nat → Nat → GoStr
  | 0, _ => []
  | fuel + 1, n =>
    if n < 10 then [Char.ofNat (48 + n)]
    else natToDigitsAux fuel (n / 10) ++ [Char.ofNat (48 + n % 10)]

/-- Base-10 digit string of a natural number (helper for fmt %d). -/
def natToDigitsG (n : Nat) : GoStr := natToDigitsAux (n + 1) n

/-- An ASCII decimal digit (Go checks the byte range directly). -/
def isDigitG (c : Char) : Bool := 48 ≤ c.toNat && c.toNat ≤ 57

/-- Models fmt.Sprintf("%d", i) for a signed integer. -/
def intToGoStr (i : Int) : GoStr :=
  if i < 0 then '-' :: natToDigitsG i.natAbs else natToDigitsG i.natAbs

/-- Models strconv.ParseInt(s, 10, 64): optional sign, one or more decimal
digits, value within the int64 range; underscores are not permitted at
base 10.  Errors are modelled as none. -/
def parseIntG (s : GoStr) : Option Int :=
  let ds := if s.head? = some '-' ∨ s.head? = some '+' then s.tail else s
  if ds = [] then none
  else if ds.all isDigitG then
    let v : Int :=
      if s.head? = some '-' then -(digitsToNatG ds : Int) else (digitsToNatG ds : Int)
    if -(2 ^ 63) ≤ v ∧ v ≤ 2 ^ 63 - 1 then some v else none
  else none

/-- Models strconv.ParseUint(s, 10, 64): one or more decimal digits, no sign,
value within the uint64 range. -/
def parseUintG (s : GoStr) : Option Nat :=
  if s = [] then none
  else if s.all isDigitG then
    let v := digitsToNatG s
    if v ≤ 2 ^ 64 - 1 then some v else none
  else none

/-- Models strconv.ParseBool: the exact set of accepted literals. -/
def parseBoolG (s : GoStr) : Option Bool :=
  if s = "1".toList || s = "t".toList || s = "T".toList || s = "TRUE".toList
      || s = "true".toList || s = "True".toList then some true
  else if s = "0".toList || s = "f".toList || s = "F".toList || s = "FALSE".toList
      || s = "false".toList || s = "False".toList then some false
  else none

/-- A Go float64 result of strconv.ParseFloat, idealized: a finite value is
kept as the exact decimal mantissa and power-of-ten exponent of the literal
(denoting mantissa times ten to the exp10), instead of the nearest binary64
Go would round to; no claim in this development depends on that rounding,
and no two differently-written floats are ever compared. -/
inductive GoFloat where
  | finite (mantissa : Int) (exp10 : Int)
  | inf (neg : Bool)
  | nan
  deriving DecidableEq, Repr

/-- Models strconv.ParseFloat(s, 64) on its decimal grammar: optional sign,
digits with an optional fraction, an optional decimal exponent, and the
special spellings of infinity and NaN (case-insensitive; NaN takes no
sign, infinity may).  Hexadecimal floats and underscore separators, which
Go also accepts, are not modelled; no claim here depends on them. -/
def parseFloatG (s : GoStr) : Option GoFloat :=
  if (s.map Char.toLower) = "nan".toList then some .nan
  else
    let signRest : Bool × GoStr :=
      match s with
      | '-' :: rest => (true, rest)
      | '+' :: rest => (false, rest)
      | _ => (false, s)
    let neg := signRest.1
    let rest := signRest.2
    let low := rest.map Char.toLower
    if low = "inf".toList || low = "infinity".toList then some (.inf neg)
    else
      let ip := rest.takeWhile isDigitG
      let r1 := rest.dropWhile isDigitG
      let fracTail : Option (GoStr × GoStr) :=
        match r1 with
        | '.' :: r => some (r.takeWhile isDigitG, r.dropWhile isDigitG)
        | _ => some ([], r1)
      match fracTail with
      | none => none
      | some (fp, r2) =>
        if ip = [] ∧ fp = [] then none
        else
          let expOpt : Option Int :=
            match r2 with
            | [] => some 0
            | c :: r3 =>
              if c = 'e' ∨ c = 'E' then
                match r3 with
                | '-' :: ds => if ds ≠ [] ∧ ds.all isDigitG then some (-(digitsToNatG ds : Int)) else none
                | '+' :: ds => if ds ≠ [] ∧ ds.all isDigitG then some (digitsToNatG ds : Int) else none
                | ds => if ds ≠ [] ∧ ds.all isDigitG then some (digitsToNatG ds : Int) else none
              else none
          match expOpt with
          | none => none
          | some e =>
            let mant : Int := (digitsToNatG (ip ++ fp) : Int)
            some (.finite (if neg then -mant else mant) (e - fp.length))

/-- Models strings.ReplaceAll(s, quote, backslash-quote): every double quote
gains a preceding backslash (encoder.go writePrimitiveValue). -/
def escapeQuotesG : GoStr → GoStr
  | [] => []
  | c :: rest => if c = '"' then '\\' :: '"' :: escapeQuotesG rest else c :: escapeQuotesG rest

/-- Models strings.ReplaceAll(s, backslash-quote, quote): leftmost-first,
non-overlapping replacement (decoder.go setPrimitiveValue). -/
def unescapeQuotesG : GoStr → GoStr
  | [] => []
  | [c] => [c]
  | c1 :: c2 :: rest =>
    if c1 = '\\' ∧ c2 = '"' then '"' :: unescapeQuotesG rest
    else c1 :: unescapeQuotesG (c2 :: rest)

/-! ## Field schema resolver and options (toon.go, shared getFieldName) -/

/-- A struct field of the Go type being encoded or decoded: its Go name and
its toon and json struct tags (the empty string models an absent tag,
exactly as reflect.StructTag.Get reports it).  Unexported fields are
skipped by every function of the codec and are not modelled. -/
structure StructField where
  fname : GoStr
  tagToon : GoStr
  tagJson : GoStr
  deriving DecidableEq, Repr

/-- Models getFieldName (decoder.go; encoder.go has an identical method):
the toon tag up to its first comma if present, else the json tag up to its
first comma, else the field name with its first character lower-cased. -/
def getFieldName (f : StructField) : GoStr :=
  if f.tagToon ≠ [] then (splitOnCharG ',' f.tagToon).headD []
  else if f.tagJson ≠ [] then (splitOnCharG ',' f.tagJson).headD []
  else
    match f.fname with
    | [] => []
    | c :: rest => Char.toLower c :: rest

/-- Models MarshalOptions (toon.go). -/
structure MarshalOptions where
  indent : Nat
  delimiter : GoStr
  useTabular : Bool
  deriving DecidableEq, Repr

/-- Models DefaultMarshalOptions (toon.go): two-space indent, comma, tabular. -/
def DefaultMarshalOptions : MarshalOptions :=
  { indent := 2, delimiter := ",".toList, useTabular := true }

/-- The errors of the codec that the claims can observe.  The encoder never
constructs any of these (see the C8 theorems); the decoder produces
conversion errors from the strconv models, the tabular-requires-struct
error, and the unsupported-kind error of setPrimitiveValue.  outOfFuel is
an artefact of the fuel-indexed decoder model only. -/
inductive GoErr where
  | conversion (target : String) (text : GoStr)
  | tabularRequiresStruct
  | unsupportedSet (kind : String)
  | outOfFuel
  deriving DecidableEq, Repr

/-! ## Encoder values (the reflect.Value shapes encoder.go dispatches on)

Pointer and interface wrappers around non-nil values are dereferenced by
every encoder function before inspection, so they are modelled as absent:
a value stands for its final dereferenced form, and enil stands for a nil
pointer or nil interface.  Map entries are listed in the iteration order
reflect.Value.MapKeys happens to produce, which Go leaves unspecified and
randomizes; that order is therefore an explicit input of the model (see
the C6 theorem).  eother carries the fmt %v rendering of a value of a kind
the codec cannot classify (function, channel, ...).  Fields of a floating
kind are not modelled: their %g shortest-round-trip rendering is
floating-point behaviour outside this embedding. -/

/-- The element kind of a Go slice (after pointer dereference), which
encodeSlice (encoder.go) switches on. -/
inductive EKind where
  | kStruct
  | kMap
  | kPrim
  deriving DecidableEq, Repr

/-- Encoder-side Go values. -/
inductive EVal where
  | estr (s : GoStr)
  | eint (i : Int)
  | euint (n : Nat)
  | ebool (b : Bool)
  | enil
  | estruct (fields : List (StructField × EVal))
  | emap (entries : List (GoStr × EVal))
  | eslice (elemKind : EKind) (xs : List EVal)
  | eother (rendered : GoStr)

/-- Decidable equality for Except results (used to evaluate the codec on
concrete inputs in witnesses and counterexamples). -/
instance exceptDecEq {ε α : Type} [DecidableEq ε] [DecidableEq α] : DecidableEq (Except ε α)
  | .error e, .error f =>
    match decEq e f with
    | isTrue h => isTrue (by rw [h])
    | isFalse h => isFalse (by intro hh; injection hh; contradiction)
  | .error _, .ok _ => isFalse (by intro hh; cases hh)
  | .ok _, .error _ => isFalse (by intro hh; cases hh)
  | .ok a, .ok b =>
    match decEq a b with
    | isTrue h => isTrue (by rw [h])
    | isFalse h => isFalse (by intro hh; injection hh; contradiction)

/-- Models encoder.go writePrimitiveValue.  The final default case of the
source is fmt %v formatting: a value of an unclassifiable kind carries its
%v rendering in the eother constructor.  A composite value reaching the
default case is rendered as the empty string here; the source only sends
composites to writePrimitiveValue from list items with nested fields, a
path no claim exercises. -/
def writePrimitiveValue : EVal → GoStr
  | .enil => "null".toList
  | .estr s =>
    if containsAnyG s ",|\t\n".toList then ('"' :: escapeQuotesG s) ++ ['"'] else s
  | .eint i => intToGoStr i
  | .euint n => natToDigitsG n
  | .ebool b => if b then "true".toList else "false".toList
  | .eother r => r
  | .estruct _ => []
  | .emap _ => []
  | .eslice _ _ => []

/-- Models encoder.go getStructFieldNames on the fields of a struct value:
resolved names in declaration order, names resolving to the dash sentinel
dropped. -/
def structFieldNamesOf : List (StructField × EVal) → List GoStr
  | [] => []
  | (f, _) :: rest =>
    let n := getFieldName f
    if n = "-".toList then structFieldNamesOf rest else n :: structFieldNamesOf rest

/-- Does this field value have a composite kind (struct, slice, array, map)?
Field kinds are read off the field values, which is faithful because a Go
slice fixes its element struct type: scalar constructors are scalar kinds,
enil is a pointer kind (not composite in the source check), eother is a
function or channel kind (not composite either). -/
def isCompositeKind : EVal → Bool
  | .estruct _ => true
  | .emap _ => true
  | .eslice _ _ => true
  | _ => false

/-- Models encoder.go isUniformStructSlice: a non-empty slice whose first
element is a (non-nil) struct none of whose fields has a composite kind. -/
def isUniformStructSlice (xs : List EVal) : Bool :=
  match xs with
  | [] => false
  | first :: _ =>
    match first with
    | .estruct fs => fs.all (fun p => !isCompositeKind p.2)
    | _ => false

/-- Models encoder.go writeStructAsRow via its first-written flag: resolved
field values joined by the delimiter, dash-named fields skipped. -/
def rowFieldsE (opts : MarshalOptions) : List (StructField × EVal) → Bool → GoStr
  | [], _ => []
  | (f, fv) :: rest, first =>
    if getFieldName f = "-".toList then rowFieldsE opts rest first
    else
      (if first then [] else opts.delimiter) ++ writePrimitiveValue fv ++ rowFieldsE opts rest false

/-- Models encoder.go writeStructAsRow.  A non-struct argument is impossible
in the source (guarded by isUniformStructSlice) and renders as nothing. -/
def writeStructAsRow (opts : MarshalOptions) : EVal → GoStr
  | .estruct fs => rowFieldsE opts fs true
  | _ => []

/-- Models encoder.go encodePrimitive: indent, optional key with a colon and
space, the rendered value, a newline. -/
def encodePrimitiveE (opts : MarshalOptions) (v : EVal) (depth : Nat) (key : GoStr) : GoStr :=
  spacesG (depth * opts.indent)
    ++ (if key ≠ [] then key ++ ": ".toList else [])
    ++ writePrimitiveValue v ++ ['\n']

/-- Models encoder.go encodePrimitiveSlice: key, bracketed length, colon and
space, delimiter-joined rendered elements (only called on non-empty
slices; encodeSlice returns earlier for length zero). -/
def encodePrimitiveSliceE (opts : MarshalOptions) (xs : List EVal) (depth : Nat) (key : GoStr) : GoStr :=
  spacesG (depth * opts.indent) ++ key
    ++ ('[' :: natToDigitsG xs.length) ++ (']' :: ':' :: ' ' :: [])
    ++ joinDelimG opts.delimiter (xs.map writePrimitiveValue) ++ ['\n']

/-- Models encoder.go encodeTabularSlice: header with bracketed length and
brace-wrapped column list, then one indented row per element.  The empty
and nil-first-element early returns of the source are unreachable from
encodeSlice but modelled; a non-struct first element is impossible
(guarded by isUniformStructSlice). -/
def encodeTabularSliceE (opts : MarshalOptions) (xs : List EVal) (depth : Nat) (key : GoStr) : GoStr :=
  match xs with
  | [] => []
  | first :: _ =>
    match first with
    | .estruct ffs =>
      let cols := structFieldNamesOf ffs
      spacesG (depth * opts.indent) ++ key
        ++ ('[' :: natToDigitsG xs.length) ++ (']' :: '{' :: [])
        ++ joinDelimG ",".toList cols ++ ('}' :: ':' :: '\n' :: [])
        ++ (xs.map (fun e =>
              spacesG ((depth + 1) * opts.indent) ++ writeStructAsRow opts e ++ ['\n'])).flatten
    | _ => []

/-- Models encoder.go encodeListItem: first resolved field inline after the
dash, subsequent fields on their own indented lines. -/
def encodeListItemE (opts : MarshalOptions) : List (StructField × EVal) → Nat → Bool → GoStr
  | [], _, _ => []
  | (f, fv) :: rest, depth, first =>
    let name := getFieldName f
    if name = "-".toList then encodeListItemE opts rest depth first
    else
      (if first then [] else spacesG (depth * opts.indent))
        ++ name ++ (':' :: ' ' :: []) ++ writePrimitiveValue fv ++ ['\n']
        ++ encodeListItemE opts rest depth false

/-- Models encoder.go encodeListItemMap, the mapping analogue of
encodeListItem. -/
def encodeListItemMapE (opts : MarshalOptions) : List (GoStr × EVal) → Nat → Bool → GoStr
  | [], _, _ => []
  | (k, v) :: rest, depth, first =>
    (if first then [] else spacesG (depth * opts.indent))
      ++ k ++ (':' :: ' ' :: []) ++ writePrimitiveValue v ++ ['\n']
      ++ encodeListItemMapE opts rest depth false

/-- Models encoder.go encodeListSlice: header with bracketed length, then one
dash item per element.  On a nil element the source writes null and then
loops forever (the continue in its dereference loop never advances);
the model writes null once and moves on, a divergence no claim touches. -/
def encodeListSliceE (opts : MarshalOptions) (xs : List EVal) (depth : Nat) (key : GoStr) : GoStr :=
  spacesG (depth * opts.indent) ++ key
    ++ ('[' :: natToDigitsG xs.length) ++ (']' :: ':' :: '\n' :: [])
    ++ (xs.map (fun elem =>
          spacesG ((depth + 1) * opts.indent) ++ ('-' :: ' ' :: []) ++
          match elem with
          | .enil => "null\n".toList
          | .estruct fs => encodeListItemE opts fs (depth + 2) true
          | .emap es => encodeListItemMapE opts es (depth + 2) true
          | v => writePrimitiveValue v ++ ['\n'])).flatten

/-- Models encoder.go encodeSlice: empty slices become a bare zero-length
header; otherwise dispatch on the element kind, preferring the tabular
form for uniform struct slices when enabled.  (No case of encodeSlice
re-enters encodeValue: struct and map elements are rendered by the
non-recursive encodeListItem helpers, as in the source.) -/
def encodeSliceE (opts : MarshalOptions) (k : EKind) (xs : List EVal) (depth : Nat)
    (key : GoStr) : Except GoErr GoStr :=
  if xs.length = 0 then
    .ok (if key ≠ [] then spacesG (depth * opts.indent) ++ key ++ "[0]:\n".toList else [])
  else
    match k with
    | .kStruct =>
      if opts.useTabular && isUniformStructSlice xs then .ok (encodeTabularSliceE opts xs depth key)
      else .ok (encodeListSliceE opts xs depth key)
    | .kMap => .ok (encodeListSliceE opts xs depth key)
    | .kPrim => .ok (encodePrimitiveSliceE opts xs depth key)

mutual

/-- Models encoder.go encodeValue: nil wrappers render as a null field, then
dispatch on kind.  The key-header prologues of encodeStruct and encodeMap
(optional key line, one deeper indent) are written inline in the struct
and map cases here; their field and entry loops are the two functions
below.  (The invalid-value early return of the source is for a top-level
untyped nil only and is not modelled.) -/
def encodeValueE (opts : MarshalOptions) : EVal → Nat → GoStr → Except GoErr GoStr
  | .enil, depth, key =>
    .ok (if key ≠ [] then spacesG (depth * opts.indent) ++ key ++ ": null\n".toList else [])
  | .estruct fs, depth, key =>
    (match encodeStructFieldsE opts fs (if key ≠ [] then depth + 1 else depth) with
     | .ok body =>
       .ok ((if key ≠ [] then spacesG (depth * opts.indent) ++ key ++ ":\n".toList else []) ++ body)
     | .error e => .error e)
  | .emap es, depth, key =>
    (match encodeMapEntriesE opts es (if key ≠ [] then depth + 1 else depth) with
     | .ok body =>
       .ok ((if key ≠ [] then spacesG (depth * opts.indent) ++ key ++ ":\n".toList else []) ++ body)
     | .error e => .error e)
  | .eslice k xs, depth, key => encodeSliceE opts k xs depth key
  | v, depth, key => .ok (encodePrimitiveE opts v depth key)

/-- The field loop of encoder.go encodeStruct: dash-resolved fields skipped,
each other field encoded with its resolved name. -/
def encodeStructFieldsE (opts : MarshalOptions) : List (StructField × EVal) → Nat → Except GoErr GoStr
  | [], _ => .ok []
  | (f, v) :: rest, depth =>
    let name := getFieldName f
    if name = "-".toList then encodeStructFieldsE opts rest depth
    else
      match encodeValueE opts v depth name with
      | .error e => .error e
      | .ok s =>
        match encodeStructFieldsE opts rest depth with
        | .error e => .error e
        | .ok r => .ok (s ++ r)

/-- The entry loop of encoder.go encodeMap. -/
def encodeMapEntriesE (opts : MarshalOptions) : List (GoStr × EVal) → Nat → Except GoErr GoStr
  | [], _ => .ok []
  | (k, v) :: rest, depth =>
    match encodeValueE opts v depth k with
    | .error e => .error e
    | .ok s =>
      match encodeMapEntriesE opts rest depth with
      | .error e => .error e
      | .ok r => .ok (s ++ r)

end

/-- Models MarshalWithOptions (toon.go). -/
def MarshalWithOptions (v : EVal) (opts : MarshalOptions) : Except GoErr GoStr :=
  encodeValueE opts v 0 []

/-- Models Marshal (toon.go): encoding with the default options. -/
def Marshal (v : EVal) : Except GoErr GoStr :=
  MarshalWithOptions v DefaultMarshalOptions

/-! ## Decoder: target types and decoded values (decoder.go)

The decoder is type-directed: it walks a target Go type built from struct
fields, slices, maps, pointers, interfaces and scalar kinds, and fills in a
decoded value.  A decoded struct is the list of its field values in
declaration order; a nil slice, map or pointer is distinguished from an
allocated one by an Option; an interface target can hold any decoded value,
with dnull as the zero (nil) interface. -/

/-- The Go types decoding can target.  Float fields appear for completeness
of setPrimitiveValue (their parsed values are the idealized GoFloat). -/
inductive GoType where
  | tstr
  | tint
  | tuint
  | tbool
  | tfloat
  | tstruct (fields : List (StructField × GoType))
  | tslice (elem : GoType)
  | tmap (key : GoType) (elem : GoType)
  | tptr (elem : GoType)
  | tiface

/-- Decoded Go values. -/
inductive DVal where
  | dstr (s : GoStr)
  | dint (i : Int)
  | duint (n : Nat)
  | dbool (b : Bool)
  | dfloat (f : GoFloat)
  | dnull
  | dstruct (fields : List DVal)
  | dslice (xs : Option (List DVal))
  | dmap (entries : Option (List (DVal × DVal)))
  | dptr (p : Option DVal)

mutual

/-- The zero value of a Go type: empty string, zero numbers, false, nil
slices, maps and pointers, nil interface, and a struct of zero fields. -/
def zeroVal : GoType → DVal
  | .tstr => .dstr []
  | .tint => .dint 0
  | .tuint => .duint 0
  | .tbool => .dbool false
  | .tfloat => .dfloat (.finite 0 0)
  | .tstruct fs => .dstruct (zeroFields fs)
  | .tslice _ => .dslice none
  | .tmap _ _ => .dmap none
  | .tptr _ => .dptr none
  | .tiface => .dnull

/-- Zero values of a field list, in declaration order. -/
def zeroFields : List (StructField × GoType) → List DVal
  | [] => []
  | (_, t) :: rest => zeroVal t :: zeroFields rest

end

/-- The field type at an index of a field list (total for convenience; every
use is in range by construction). -/
def typeAt (fs : List (StructField × GoType)) (i : Nat) : GoType :=
  match fs.get? i with
  | some p => p.2
  | none => .tstr

/-- Models the fieldMap of decodeStruct and decodeStructFromListItem
(decoder.go): resolved name to field index, built by ascending assignment
so a later duplicate name wins, names resolving to the dash sentinel
excluded. -/
def fieldIndex : List (StructField × GoType) → GoStr → Option Nat
  | [], _ => none
  | (f, _) :: rest, key =>
    match fieldIndex rest key with
    | some j => some (j + 1)
    | none =>
      if getFieldName f ≠ "-".toList ∧ getFieldName f = key then some 0 else none

/-- Models the fieldMap of decodeTabularArray (decoder.go), which, unlike the
struct one, does not exclude dash-resolved names. -/
def fieldIndexTab : List (StructField × GoType) → GoStr → Option Nat
  | [], _ => none
  | (f, _) :: rest, key =>
    match fieldIndexTab rest key with
    | some j => some (j + 1)
    | none => if getFieldName f = key then some 0 else none

/-- The trim-and-unquote prologue of setPrimitiveValue (decoder.go): trim
white space; if the result has length at least two and starts and ends
with a double quote, strip one quote from each end and unescape
backslash-quote pairs. -/
def normalizeToken (s0 : GoStr) : GoStr :=
  let s1 := trimSpaceG s0
  if 2 ≤ s1.length ∧ s1.head? = some '"' ∧ s1.getLast? = some '"'
  then unescapeQuotesG (s1.drop 1).dropLast
  else s1

/-- The interface branch of setPrimitiveValue (decoder.go): ordered
inference null, then integer, then float, then boolean, else string. -/
def inferAny (s : GoStr) : DVal :=
  if s = "null".toList then .dnull
  else
    match parseIntG s with
    | some i => .dint i
    | none =>
      match parseFloatG s with
      | some f => .dfloat f
      | none =>
        match parseBoolG s with
        | some b => .dbool b
        | none => .dstr s

/-- Models setPrimitiveValue (decoder.go): normalize the token, then assign
by target kind; parse failures for typed targets are conversion errors.
The pointer branch allocates a zero pointee when nil and recurses with the
already-normalized text, as the source does.  The default case (struct,
slice, map targets) is the unsupported-type error of the source. -/
def setPrimitiveValue : GoType → DVal → GoStr → Except GoErr DVal
  | t, cur, s0 =>
    let s := normalizeToken s0
    match t, cur with
    | .tstr, _ => .ok (.dstr s)
    | .tint, _ =>
      (match parseIntG s with
       | some i => .ok (.dint i)
       | none => .error (.conversion "int" s))
    | .tuint, _ =>
      (match parseUintG s with
       | some u => .ok (.duint u)
       | none => .error (.conversion "uint" s))
    | .tfloat, _ =>
      (match parseFloatG s with
       | some f => .ok (.dfloat f)
       | none => .error (.conversion "float" s))
    | .tbool, _ =>
      (match parseBoolG s with
       | some b => .ok (.dbool b)
       | none => .error (.conversion "bool" s))
    | .tiface, _ => .ok (inferAny s)
    | .tptr et, cur =>
      let inner :=
        match cur with
        | .dptr (some p) => p
        | _ => zeroVal et
      (match setPrimitiveValue et inner s with
       | .ok r => .ok (.dptr (some r))
       | .error e => .error e)
    | .tstruct _, _ => .error (.unsupportedSet "struct")
    | .tslice _, _ => .error (.unsupportedSet "slice")
    | .tmap _ _, _ => .error (.unsupportedSet "map")

/-! ## Decoder: the array declaration grammar (decoder.go)

parseArrayDeclaration matches the anchored, lazy regular expression
caret (.+?) bracket (digits) (optional delimiter hint) closebracket
(optional brace-wrapped column list) against the key: the lazy group tries
each opening bracket preceded by at least one character, left to right,
and trailing text after the match is permitted.  extractKeyFromArray
matches caret (.+?) bracket, i.e. cuts at the first bracket preceded by at
least one character - which can disagree with the bracket
parseArrayDeclaration matched, a quirk kept faithfully. -/

/-- Parse the text following one candidate opening bracket: one or more
digits, an optional delimiter hint character, the closing bracket, then
optionally a brace-wrapped non-empty column list; trailing text is
allowed.  Returns the declared length and the raw column text. -/
def bracketTail (rem : GoStr) : Option (Nat × Option GoStr) :=
  let ds := rem.takeWhile isDigitG
  let r2 := rem.dropWhile isDigitG
  if ds = [] then none
  else
    let after : Option GoStr :=
      match r2 with
      | ']' :: r3 => some r3
      | c :: ']' :: r3 => if c = ',' ∨ c = '	' ∨ c = '|' then some r3 else none
      | _ => none
    match after with
    | none => none
    | some r3 =>
      let content : Option GoStr :=
        match r3 with
        | '{' :: r4 =>
          let cs := r4.takeWhile (fun c => c ≠ '}')
          if cs ≠ [] ∧ r4.dropWhile (fun c => c ≠ '}') ≠ [] then some cs else none
        | _ => none
      some (digitsToNatG ds, content)

/-- Scan the key for the leftmost opening bracket, preceded by at least one
character, whose tail parses; the flag records whether a character has
been consumed already. -/
def parseArrayScan : GoStr → Bool → Option (Nat × Option GoStr)
  | [], _ => none
  | c :: rest, b =>
    if c = '[' ∧ b = true then
      match bracketTail rest with
      | some r => some r
      | none => parseArrayScan rest true
    else parseArrayScan rest true

/-- Models parseArrayDeclaration (decoder.go): none when the key is not an
array declaration; otherwise the declared length and the column names
(split on commas and trimmed; empty when no brace group matched). -/
def parseArrayDeclaration (key : GoStr) : Option (Nat × List GoStr) :=
  match parseArrayScan key false with
  | none => none
  | some (n, content) =>
    let fieldNames :=
      match content with
      | none => []
      | some cs => (splitOnCharG ',' cs).map trimSpaceG
    some (n, fieldNames)

/-- The prefix of the key before the first opening bracket that has at least
one character before it, or none when there is no such bracket. -/
def extractKeyScan : GoStr → Option GoStr
  | [] => none
  | c :: rest =>
    if c = '[' then some []
    else (extractKeyScan rest).map (fun p => c :: p)

/-- Models extractKeyFromArray (decoder.go): the key text before its first
opening bracket (the bracket must have at least one preceding character);
the key itself when the pattern does not match. -/
def extractKeyFromArray (key : GoStr) : GoStr :=
  match key with
  | [] => []
  | c :: rest =>
    match extractKeyScan rest with
    | some pre => c :: pre
    | none => key

/-! ## Decoder: line cursor and the recursive descent (decoder.go)

The decoder state is the list of lines (the input split on newlines) and a
cursor position; every function takes and returns the cursor explicitly.
The mutually recursive loops below take an explicit fuel argument and
recurse structurally on it so that every run evaluates in the kernel; each
loop iteration and each nested call costs one unit, Unmarshal passes a fuel
that dominates every run on its input, and running out of fuel is a model
artefact no reachable execution hits (the per-claim lemmas prove the runs
they need complete). -/

/-- Models hasMore (decoder.go): a non-blank, non-comment line at or after
the cursor. -/
def hasMoreD (lines : List GoStr) (pos : Nat) : Bool :=
  (lines.drop pos).any (fun l => !skippableLine l)

/-- Models currentLine (decoder.go): empty past the end. -/
def currentLineD (lines : List GoStr) (pos : Nat) : GoStr := lines.getD pos []

/-- The loop of skipEmptyLines (decoder.go), with explicit fuel (the line
count bounds the iterations). -/
def skipEmptyAux : Nat → List GoStr → Nat → Nat
  | 0, _, pos => pos
  | n + 1, lines, pos =>
    if pos < lines.length ∧ skippableLine (currentLineD lines pos) then
      skipEmptyAux n lines (pos + 1)
    else pos

/-- Models skipEmptyLines (decoder.go): advance the cursor past blank and
comment lines. -/
def skipEmptyD (lines : List GoStr) (pos : Nat) : Nat :=
  skipEmptyAux (lines.length + 1) lines pos

/-- The delimiter-inference split shared by decodeInlineArray and
decodeTabularArray (decoder.go): split on tab if a tab occurs, else on
pipe if a pipe occurs, else on comma. -/
def splitRowG (s : GoStr) : List GoStr :=
  if s.contains '\t' then splitOnCharG '\t' s
  else if s.contains '|' then splitOnCharG '|' s
  else splitOnCharG ',' s

/-- Does the trimmed line start a list item (strings.HasPrefix with a dash
and a space, decoder.go decodeSlice)? -/
def startsDashSpace : GoStr → Bool
  | '-' :: ' ' :: _ => true
  | _ => false

/-- The element loop of decodeInlineArray (decoder.go): trim each piece,
skip empty pieces, coerce each remaining piece into a fresh zero element. -/
def inlineParts (et : GoType) : List GoStr → Except GoErr (List DVal)
  | [] => .ok []
  | p :: rest =>
    let part := trimSpaceG p
    if part = [] then inlineParts et rest
    else
      match setPrimitiveValue et (zeroVal et) part with
      | .ok v =>
        (match inlineParts et rest with
         | .ok vs => .ok (v :: vs)
         | .error e => .error e)
      | .error e => .error e

/-- Models decodeInlineArray (decoder.go) on the declared value text of a
slice field: infer the delimiter, split, coerce the non-empty pieces. -/
def decodeInlineD (et : GoType) (value : GoStr) : Except GoErr (List DVal) :=
  inlineParts et (splitRowG value)

/-- The column-assignment loop of decodeTabularArray (decoder.go): the j-th
declared column name receives the j-th row value when present, columns
beyond the row and names absent from the element type are skipped. -/
def tabularAssign (efs : List (StructField × GoType)) (vals : List DVal)
    (values : List GoStr) (j : Nat) : List GoStr → Except GoErr (List DVal)
  | [] => .ok vals
  | fn :: rest =>
    match values.get? j with
    | none => tabularAssign efs vals values (j + 1) rest
    | some rawVal =>
      match fieldIndexTab efs fn with
      | none => tabularAssign efs vals values (j + 1) rest
      | some i =>
        match setPrimitiveValue (typeAt efs i) (vals.getD i (.dstr [])) (trimSpaceG rawVal) with
        | .ok v => tabularAssign efs (vals.set i v) values (j + 1) rest
        | .error e => .error e

/-- The row loop of decodeTabularArray (decoder.go), recursing on the number
of rows still to read: read up to that many non-blank lines as rows, split
each on the inferred delimiter, assign columns by name into a fresh zero
element.  (The inner low-indent check of the source only skips blank
lines, which skipEmptyLines has already passed, so it is dead; it is
modelled nonetheless.) -/
def decodeTabularRows (efs : List (StructField × GoType)) (fieldNames : List GoStr)
    (indent : Nat) (lines : List GoStr) : Nat → Nat → Except GoErr (List DVal × Nat)
  | 0, pos => .ok ([], pos)
  | n + 1, pos =>
    if ¬ hasMoreD lines pos then .ok ([], pos)
    else
      let pos1 := skipEmptyD lines pos
      if ¬ hasMoreD lines pos1 then .ok ([], pos1)
      else
        let line := currentLineD lines pos1
        if indentOfG line ≤ indent ∧ trimSpaceG line = [] then
          decodeTabularRows efs fieldNames indent lines n (pos1 + 1)
        else
          let values := splitRowG (trimSpaceG line)
          match tabularAssign efs (zeroFields efs) values 0 fieldNames with
          | .error e => .error e
          | .ok elemVals =>
            match decodeTabularRows efs fieldNames indent lines n (pos1 + 1) with
            | .ok (rest, p) => .ok (.dstruct elemVals :: rest, p)
            | .error e => .error e

mutual

/-- Models decodeValue (decoder.go): skip blank lines and stop (leaving the
target untouched) when nothing non-blank remains; otherwise dispatch on
the target kind.  A nil pointer is allocated before recursing; an
interface target decodes as a fresh string-to-any map; the default scalar
case consumes one line and coerces its trimmed text. -/
def decodeValueD : Nat → GoType → DVal → List GoStr → Nat → Nat → Except GoErr (DVal × Nat)
  | 0, _, _, _, _, _ => .error .outOfFuel
  | fuel + 1, t, cur, lines, pos, expectedIndent =>
    let pos1 := skipEmptyD lines pos
    if ¬ hasMoreD lines pos1 then .ok (cur, pos1)
    else
      match t with
      | .tstruct fs =>
        let vals :=
          match cur with
          | .dstruct vs => vs
          | _ => zeroFields fs
        (match decodeStructLoopD fuel fs vals expectedIndent lines pos1 with
         | .ok (vs, p) => .ok (.dstruct vs, p)
         | .error e => .error e)
      | .tmap kt et =>
        let entries :=
          match cur with
          | .dmap (some es) => es
          | _ => []
        (match decodeMapLoopD fuel kt et entries expectedIndent lines pos1 with
         | .ok (es, p) => .ok (.dmap (some es), p)
         | .error e => .error e)
      | .tslice et =>
        (match decodeSliceLoopD fuel et [] expectedIndent lines pos1 with
         | .ok (xs, p) => .ok (.dslice (some xs), p)
         | .error e => .error e)
      | .tptr et =>
        let inner :=
          match cur with
          | .dptr (some p) => p
          | _ => zeroVal et
        (match decodeValueD fuel et inner lines pos1 expectedIndent with
         | .ok (r, p) => .ok (.dptr (some r), p)
         | .error e => .error e)
      | .tiface =>
        (match decodeMapLoopD fuel .tstr .tiface [] expectedIndent lines pos1 with
         | .ok (es, p) => .ok (.dmap (some es), p)
         | .error e => .error e)
      | t =>
        let pos2 := skipEmptyD lines pos1
        if ¬ hasMoreD lines pos2 then .ok (cur, pos2)
        else
          let trimmed := trimSpaceG (currentLineD lines pos2)
          (match setPrimitiveValue t cur trimmed with
           | .ok v => .ok (v, pos2 + 1)
           | .error e => .error e)
  termination_by structural fuel => fuel

/-- The line loop of decodeStruct (decoder.go): stop at the end of input or
at a line indented less than a positive expected indent; skip lines
without a colon and lines whose (possibly array-stripped) key names no
field; otherwise dispatch to array decoding, nested decoding (empty value)
or scalar assignment, and continue with the updated field values. -/
def decodeStructLoopD : Nat → List (StructField × GoType) → List DVal → Nat → List GoStr → Nat → Except GoErr (List DVal × Nat)
  | 0, _, _, _, _, _ => .error .outOfFuel
  | fuel + 1, fs, vals, expectedIndent, lines, pos =>
    if ¬ hasMoreD lines pos then .ok (vals, pos)
    else
      let pos1 := skipEmptyD lines pos
      if ¬ hasMoreD lines pos1 then .ok (vals, pos1)
      else
        let line := currentLineD lines pos1
        let indent := indentOfG line
        if expectedIndent > 0 ∧ indent < expectedIndent then .ok (vals, pos1)
        else
          match splitFirstG ':' (trimSpaceG line) with
          | none => decodeStructLoopD fuel fs vals expectedIndent lines (pos1 + 1)
          | some (rawKey, rawValue) =>
            let key0 := trimSpaceG rawKey
            let value := trimSpaceG rawValue
            let arr := parseArrayDeclaration key0
            let key := if arr.isSome then extractKeyFromArray key0 else key0
            match fieldIndex fs key with
            | none => decodeStructLoopD fuel fs vals expectedIndent lines (pos1 + 1)
            | some i =>
              match arr with
              | some (len, fieldNames) =>
                (match decodeArrayFieldD fuel (typeAt fs i) (vals.getD i (.dstr []))
                    len fieldNames value indent lines (pos1 + 1) with
                 | .ok (v, p) => decodeStructLoopD fuel fs (vals.set i v) expectedIndent lines p
                 | .error e => .error e)
              | none =>
                if value = [] then
                  (match decodeValueD fuel (typeAt fs i) (vals.getD i (.dstr []))
                      lines (pos1 + 1) (indent + 2) with
                   | .ok (v, p) => decodeStructLoopD fuel fs (vals.set i v) expectedIndent lines p
                   | .error e => .error e)
                else
                  (match setPrimitiveValue (typeAt fs i) (vals.getD i (.dstr [])) value with
                   | .ok v => decodeStructLoopD fuel fs (vals.set i v) expectedIndent lines (pos1 + 1)
                   | .error e => .error e)
  termination_by structural fuel => fuel

/-- Models decodeArrayField (decoder.go): declared column names select the
tabular form (struct slice elements required), a non-empty value text the
inline form, and otherwise the list form via decodeValue one level deeper.
(On a non-slice target the inline and tabular paths of the source would
panic on Type.Elem; the model returns the tabular error in both shapes, a
divergence no claim touches.) -/
def decodeArrayFieldD : Nat → GoType → DVal → Nat → List GoStr → GoStr → Nat → List GoStr → Nat → Except GoErr (DVal × Nat)
  | 0, _, _, _, _, _, _, _, _ => .error .outOfFuel
  | fuel + 1, t, cur, len, fieldNames, value, indent, lines, pos =>
    if fieldNames ≠ [] then
      match t with
      | .tslice (.tstruct efs) =>
        (match decodeTabularRows efs fieldNames indent lines len pos with
         | .ok (rows, p) => .ok (.dslice (some rows), p)
         | .error e => .error e)
      | _ => .error .tabularRequiresStruct
    else if value ≠ [] then
      match t with
      | .tslice et =>
        (match decodeInlineD et value with
         | .ok xs => .ok (.dslice (some xs), pos)
         | .error e => .error e)
      | _ => .error .tabularRequiresStruct
    else
      decodeValueD fuel t cur lines pos (indent + 2)
  termination_by structural fuel => fuel

/-- The line loop of decodeMap (decoder.go): every keyed line becomes an
entry, the key coerced into the key type, the value decoded like a struct
field; entries are appended in file order (reflect SetMapIndex semantics:
a repeated key would shadow the earlier binding on lookup; no claim
inspects that, so the model keeps both in order). -/
def decodeMapLoopD : Nat → GoType → GoType → List (DVal × DVal) → Nat → List GoStr → Nat → Except GoErr (List (DVal × DVal) × Nat)
  | 0, _, _, _, _, _, _ => .error .outOfFuel
  | fuel + 1, kt, et, entries, expectedIndent, lines, pos =>
    if ¬ hasMoreD lines pos then .ok (entries, pos)
    else
      let pos1 := skipEmptyD lines pos
      if ¬ hasMoreD lines pos1 then .ok (entries, pos1)
      else
        let line := currentLineD lines pos1
        let indent := indentOfG line
        if expectedIndent > 0 ∧ indent < expectedIndent then .ok (entries, pos1)
        else
          match splitFirstG ':' (trimSpaceG line) with
          | none => decodeMapLoopD fuel kt et entries expectedIndent lines (pos1 + 1)
          | some (rawKey, rawValue) =>
            let keyStr := trimSpaceG rawKey
            let valueStr := trimSpaceG rawValue
            match setPrimitiveValue kt (zeroVal kt) keyStr with
            | .error e => .error e
            | .ok key =>
              if valueStr = [] then
                match decodeValueD fuel et (zeroVal et) lines (pos1 + 1) (indent + 2) with
                | .ok (elem, p) =>
                  decodeMapLoopD fuel kt et (entries ++ [(key, elem)]) expectedIndent lines p
                | .error e => .error e
              else
                match setPrimitiveValue et (zeroVal et) valueStr with
                | .ok elem =>
                  decodeMapLoopD fuel kt et (entries ++ [(key, elem)]) expectedIndent lines (pos1 + 1)
                | .error e => .error e
  termination_by structural fuel => fuel

/-- The item loop of decodeSlice (decoder.go): consume dash-prefixed lines
(stopping at the end of input, at a line indented less than a positive
expected indent, or at a line without the dash prefix); a struct element
parses its first field from the item text and its remaining fields from
deeper lines, any other element coerces the item text directly; each
element is appended. -/
def decodeSliceLoopD : Nat → GoType → List DVal → Nat → List GoStr → Nat → Except GoErr (List DVal × Nat)
  | 0, _, _, _, _, _ => .error .outOfFuel
  | fuel + 1, et, acc, expectedIndent, lines, pos =>
    if ¬ hasMoreD lines pos then .ok (acc, pos)
    else
      let pos1 := skipEmptyD lines pos
      if ¬ hasMoreD lines pos1 then .ok (acc, pos1)
      else
        let line := currentLineD lines pos1
        if expectedIndent > 0 ∧ indentOfG line < expectedIndent then .ok (acc, pos1)
        else
          let trimmed := trimSpaceG line
          if ¬ startsDashSpace trimmed then .ok (acc, pos1)
          else
            let itemContent := trimSpaceG (trimmed.drop 2)
            match et with
            | .tstruct efs =>
              if (splitFirstG ':' itemContent).isSome then
                match decodeListItemD fuel efs (zeroFields efs) itemContent
                    (indentOfG line + 2) lines (pos1 + 1) with
                | .ok (vals, p) =>
                  decodeSliceLoopD fuel et (acc ++ [.dstruct vals]) expectedIndent lines p
                | .error e => .error e
              else
                decodeSliceLoopD fuel et (acc ++ [.dstruct (zeroFields efs)]) expectedIndent lines (pos1 + 1)
            | _ =>
              match setPrimitiveValue et (zeroVal et) itemContent with
              | .ok v => decodeSliceLoopD fuel et (acc ++ [v]) expectedIndent lines (pos1 + 1)
              | .error e => .error e
  termination_by structural fuel => fuel

/-- Models decodeStructFromListItem (decoder.go): the item text is the first
key-value pair; subsequent lines at the expected indent supply further
pairs until the indent drops or a line has no colon; unknown keys are
ignored. -/
def decodeListItemD : Nat → List (StructField × GoType) → List DVal → GoStr → Nat → List GoStr → Nat → Except GoErr (List DVal × Nat)
  | 0, _, _, _, _, _, _ => .error .outOfFuel
  | fuel + 1, efs, vals, firstLine, expectedIndent, lines, pos =>
    let firstRes : Except GoErr (List DVal) :=
      match splitFirstG ':' firstLine with
      | none => .ok vals
      | some (rawKey, rawValue) =>
        let key := trimSpaceG rawKey
        let value := trimSpaceG rawValue
        match fieldIndex efs key with
        | none => .ok vals
        | some i =>
          match setPrimitiveValue (typeAt efs i) (vals.getD i (.dstr [])) value with
          | .ok v => .ok (vals.set i v)
          | .error e => .error e
    match firstRes with
    | .error e => .error e
    | .ok vals1 => decodeListItemLoopD fuel efs vals1 expectedIndent lines pos

/-- The follow-up line loop of decodeStructFromListItem (decoder.go). -/
def decodeListItemLoopD : Nat → List (StructField × GoType) → List DVal → Nat → List GoStr → Nat → Except GoErr (List DVal × Nat)
  | 0, _, _, _, _, _ => .error .outOfFuel
  | fuel + 1, efs, vals, expectedIndent, lines, pos =>
    if ¬ hasMoreD lines pos then .ok (vals, pos)
    else
      let pos1 := skipEmptyD lines pos
      if ¬ hasMoreD lines pos1 then .ok (vals, pos1)
      else
        let line := currentLineD lines pos1
        if indentOfG line < expectedIndent then .ok (vals, pos1)
        else
          match splitFirstG ':' (trimSpaceG line) with
          | none => .ok (vals, pos1)
          | some (rawKey, rawValue) =>
            let key := trimSpaceG rawKey
            let value := trimSpaceG rawValue
            match fieldIndex efs key with
            | none => decodeListItemLoopD fuel efs vals expectedIndent lines (pos1 + 1)
            | some i =>
              match setPrimitiveValue (typeAt efs i) (vals.getD i (.dstr [])) value with
              | .ok v => decodeListItemLoopD fuel efs (vals.set i v) expectedIndent lines (pos1 + 1)
              | .error e => .error e
  termination_by structural fuel => fuel
end

mutual

/-- An upper bound on the nesting depth of a target type (fuel budgeting for
Unmarshal). -/
def typeDepthG : GoType → Nat
  | .tstruct fs => 1 + typeDepthFields fs
  | .tslice et => 1 + typeDepthG et
  | .tmap kt et => 1 + max (typeDepthG kt) (typeDepthG et)
  | .tptr et => 1 + typeDepthG et
  | _ => 1

/-- Depth bound over a field list. -/
def typeDepthFields : List (StructField × GoType) → Nat
  | [] => 0
  | (_, t) :: rest => max (typeDepthG t) (typeDepthFields rest)

end

/-- Models Unmarshal (toon.go) into a valid, non-nil pointer target: split
the input on newlines and decode into the zero value of the target type.
(The non-pointer and nil-pointer error returns of the source concern
invalid targets outside this model.)  The fuel dominates every run: each
unit of fuel spent either consumes an input line or descends into the
target type, so lines-plus-two times depth-plus-four suffices. -/
def Unmarshal (data : GoStr) (t : GoType) : Except GoErr DVal :=
  let lines := splitOnCharG '\n' data
  match decodeValueD ((lines.length + 2) * (typeDepthG t + 4)) t (zeroVal t) lines 0 0 with
  | .ok (v, _) => .ok v
  | .error e => .error e

/-- Shorthand for a struct field carrying only a toon tag, as every struct of
the repository's tests does. -/
def sfT (goName tag : String) : StructField :=
  { fname := goName.toList, tagToon := tag.toList, tagJson := [] }

/-- The decoded counterpart of an encoder-side scalar (the value a faithful
round trip must produce). -/
def dOfScalar : EVal → DVal
  | .estr s => .dstr s
  | .eint i => .dint i
  | .euint n => .duint n
  | .ebool b => .dbool b
  | _ => .dnull

/-- The round-trip-safe scalars: a field of this type and value encodes to a
token that decodes back to the same value.  Strings must be non-empty,
unchanged by trimming, free of the delimiter characters comma, pipe, tab
and newline (so the encoder emits them verbatim and no splitting or
line-breaking interferes), and not wrapped in double quotes (so the
decoder does not strip them); integers must fit int64, unsigned integers
uint64; booleans are always safe.  Floats are outside the embedding. -/
def scalarRT : GoType → EVal → Prop
  | .tstr, .estr s =>
    s ≠ [] ∧ trimSpaceG s = s ∧ containsAnyG s ",|\t\n".toList = false ∧
      ¬ (2 ≤ s.length ∧ s.head? = some '"' ∧ s.getLast? = some '"')
  | .tint, .eint i => -(2 ^ 63) ≤ i ∧ i ≤ 2 ^ 63 - 1
  | .tuint, .euint n => n ≤ 2 ^ 64 - 1
  | .tbool, .ebool _ => True
  | _, _ => False

/-- The scalars that survive the flat-record (keyed line) round trip, a
strictly larger class than scalarRT: a string field may contain the
delimiter characters comma, pipe and tab, because the encoder then
quote-wraps the token and setPrimitiveValue strips the quotes back off -
only a newline (which breaks the line structure) is excluded outright;
a delimiter-free string must be non-empty, trim-stable and not itself
quote-wrapped, exactly as in scalarRT.  Integer, unsigned and boolean
fields are as in scalarRT. -/
def flatScalarRT : GoType → EVal → Prop
  | .tstr, .estr s =>
    '\n' ∉ s ∧
      (containsAnyG s [',', '|', '\t'] = true ∨
        (s ≠ [] ∧ trimSpaceG s = s ∧
          ¬ (2 ≤ s.length ∧ s.head? = some '"' ∧ s.getLast? = some '"')))
  | .tint, .eint i => -(2 ^ 63) ≤ i ∧ i ≤ 2 ^ 63 - 1
  | .tuint, .euint n => n ≤ 2 ^ 64 - 1
  | .tbool, .ebool _ => True
  | _, _ => False

/-- The record and column shapes used by the decoder validation examples. -/
def personT : GoType :=
  .tstruct [(sfT "Name" "name", .tstr), (sfT "Age" "age", .tint), (sfT "Email" "email", .tstr)]

/-- A two-field record type used throughout the tabular examples. -/
def hikeT : GoType := .tstruct [(sfT "ID" "id", .tint), (sfT "Name" "name", .tstr)]

/-- The resolved field names for which encoder and decoder agree on the line
grammar: non-empty, unchanged by trimming, free of colon (the key-value
separator), bracket (the array-declaration opener), and newline, not
starting a comment, and not the dash omission sentinel. -/
def fieldNameOK (name : GoStr) : Prop :=
  name ≠ [] ∧ trimSpaceG name = name ∧ ':' ∉ name ∧ '[' ∉ name ∧ '\n' ∉ name ∧
    name.head? ≠ some '#' ∧ name ≠ "-".toList

/-- Encoder-side scalar values (the kinds encodeValue sends to
encodePrimitive). -/
def isScalarE : EVal → Prop
  | .estr _ => True
  | .eint _ => True
  | .euint _ => True
  | .ebool _ => True
  | _ => False

/-- Sequential field assignment, as the decoder's struct loop performs it:
each pair sets the field at its index to the decoded scalar. -/
def setScalars (vals : List DVal) : List (Nat × EVal) → List DVal
  | [] => vals
  | (i, v) :: rest => setScalars (vals.set i (dOfScalar v)) rest

/-- A list paired with its positions starting at k (bookkeeping for the
struct-loop induction). -/
def enumQuads (k : Nat) : List (StructField × GoType × EVal) → List (Nat × StructField × GoType × EVal)
  | [] => []
  | p :: rest => (k, p) :: enumQuads (k + 1) rest

/-- The resolved column names for which the tabular header grammar and the
decoder's brace parsing agree: well-formed field names additionally free
of the comma that separates columns and of the closing brace that ends the
column group. -/
def tabularNameOK (name : GoStr) : Prop :=
  fieldNameOK name ∧ ',' ∉ name ∧ '\x7d' ∉ name

/-! ## Groundwork: white space, trimming, splitting -/

theorem trimLeftG_cons_of_nonspace {c : Char} (s : GoStr) (h : isSpaceChar c = false) :
    trimLeftG (c :: s) = c :: s := by
  simp [trimLeftG, List.dropWhile_cons, h]

theorem trimRightG_concat_of_nonspace {c : Char} (s : GoStr) (h : isSpaceChar c = false) :
    trimRightG (s ++ [c]) = s ++ [c] := by
  simp [trimRightG, List.dropWhile_cons, h]

theorem trimLeftG_length_le (s : GoStr) : (trimLeftG s).length ≤ s.length :=
  (List.dropWhile_sublist _).length_le

theorem trimRightG_length_le (s : GoStr) : (trimRightG s).length ≤ s.length := by
  have h : List.Sublist (s.reverse.dropWhile isSpaceChar) s.reverse := List.dropWhile_sublist _
  simpa [trimRightG] using h.length_le

/-- A string whose first and last characters are not white space is fixed by
TrimSpace. -/
theorem trimSpaceG_eq_self_of_ends {c d : Char} {mid : GoStr}
    (hc : isSpaceChar c = false) (hd : isSpaceChar d = false)
    (h : ∃ m, c :: mid = m ++ [d]) : trimSpaceG (c :: mid) = c :: mid := by
  obtain ⟨m, hm⟩ := h
  rw [trimSpaceG, trimLeftG_cons_of_nonspace _ hc, hm, trimRightG_concat_of_nonspace _ hd]

/-- TrimSpace drops a leading space. -/
theorem trimSpaceG_cons_space (s : GoStr) : trimSpaceG (' ' :: s) = trimSpaceG s := by
  simp [trimSpaceG, trimLeftG, List.dropWhile_cons, isSpaceChar]

/-- A singleton non-space character is fixed by TrimSpace. -/
theorem trimSpaceG_singleton_of_nonspace {c : Char} (hc : isSpaceChar c = false) :
    trimSpaceG [c] = [c] :=
  trimSpaceG_eq_self_of_ends hc hc ⟨[], rfl⟩

/-- Splitting on the first colon cuts a colon-free prefix exactly there. -/
theorem splitFirstG_append {c : Char} (a b : GoStr) (ha : c ∉ a) :
    splitFirstG c (a ++ c :: b) = some (a, b) := by
  induction a with
  | nil => simp [splitFirstG]
  | cons x xs ih =>
    have hx : x ≠ c := fun hh => ha (hh ▸ List.mem_cons_self x xs)
    have hxs : c ∉ xs := fun hh => ha (List.mem_cons_of_mem _ hh)
    simp [splitFirstG, hx, ih hxs]

/-- Splitting a delimiter-free string yields the whole string. -/
theorem splitOnCharG_of_not_mem {c : Char} (s : GoStr) (h : c ∉ s) :
    splitOnCharG c s = [s] := by
  induction s with
  | nil => simp [splitOnCharG]
  | cons x xs ih =>
    have hx : x ≠ c := fun hh => h (hh ▸ List.mem_cons_self x xs)
    have hxs : c ∉ xs := fun hh => h (List.mem_cons_of_mem _ hh)
    simp [splitOnCharG, ih hxs, hx]

/-- Splitting after a delimiter-free prefix splits the prefix onto the first
piece. -/
theorem splitOnCharG_append_of_not_mem {c : Char} (a b : GoStr) (ha : c ∉ a) :
    splitOnCharG c (a ++ b) =
      (a ++ (splitOnCharG c b).headD []) :: (splitOnCharG c b).tail := by
  induction a with
  | nil =>
    cases hb : splitOnCharG c b with
    | nil =>
      exfalso
      cases b with
      | nil => simp [splitOnCharG] at hb
      | cons y ys =>
        rw [splitOnCharG] at hb
        revert hb
        cases splitOnCharG c ys with
        | nil => simp
        | cons h2 t2 => by_cases hy : y = c <;> simp [hy]
    | cons h1 t1 => simp [hb]
  | cons x xs ih =>
    have hx : x ≠ c := fun hh => ha (hh ▸ List.mem_cons_self x xs)
    have hxs : c ∉ xs := fun hh => ha (List.mem_cons_of_mem _ hh)
    rw [List.cons_append, splitOnCharG, ih hxs]
    simp [hx]

/-- Joining delimiter-free pieces and splitting again is the identity. -/
theorem splitOnCharG_joinDelimG {c : Char} (ts : List GoStr) (hne : ts ≠ [])
    (hfree : ∀ t ∈ ts, c ∉ t) :
    splitOnCharG c (joinDelimG [c] ts) = ts := by
  induction ts with
  | nil => exact absurd rfl hne
  | cons t rest ih =>
    cases rest with
    | nil =>
      simpa [joinDelimG] using splitOnCharG_of_not_mem t (hfree t (List.mem_cons_self _ _))
    | cons u us =>
      have ht : c ∉ t := hfree t (List.mem_cons_self _ _)
      have hrest : ∀ x ∈ u :: us, c ∉ x := fun x hx => hfree x (List.mem_cons_of_mem _ hx)
      have ihr := ih (by simp) hrest
      rw [joinDelimG, List.append_assoc, splitOnCharG_append_of_not_mem _ _ ht]
      simp [splitOnCharG, ihr]
      exact fun h => List.noConfusion h

/-! ## Groundwork: decimal digits and the strconv round trips -/

theorem char_digit_spec (m : Nat) (hm : m < 10) :
    (Char.ofNat (48 + m)).toNat = 48 + m ∧ isDigitG (Char.ofNat (48 + m)) = true := by
  interval_cases m <;> exact ⟨by decide, by decide⟩

theorem digitsToNatG_append_one (a : GoStr) (c : Char) :
    digitsToNatG (a ++ [c]) = 10 * digitsToNatG a + (c.toNat - 48) := by
  simp [digitsToNatG, List.foldl_append, Nat.mul_comm]

theorem isDigitG_toNat {c : Char} (h : isDigitG c = true) :
    48 ≤ c.toNat ∧ c.toNat ≤ 57 := by
  simpa [isDigitG] using h

theorem natToDigitsAux_spec :
    ∀ fuel n, n < fuel →
      digitsToNatG (natToDigitsAux fuel n) = n ∧ natToDigitsAux fuel n ≠ [] ∧
        ∀ c ∈ natToDigitsAux fuel n, isDigitG c = true
  | 0, _, h => absurd h (by omega)
  | fuel + 1, n, h => by
    rw [natToDigitsAux]
    by_cases h10 : n < 10
    · obtain ⟨hv, hd⟩ := char_digit_spec n h10
      simp only [if_pos h10]
      refine ⟨?_, by simp, ?_⟩
      · simp only [digitsToNatG, List.foldl_cons, List.foldl_nil, hv]
        omega
      · intro c hc
        simp only [List.mem_singleton] at hc
        simpa [hc] using hd
    · have hdiv : n / 10 < fuel := by
        have hx : n / 10 < n := Nat.div_lt_self (by omega) (by omega)
        omega
      obtain ⟨ihv, ihne, ihd⟩ := natToDigitsAux_spec fuel (n / 10) hdiv
      have hm : n % 10 < 10 := Nat.mod_lt _ (by omega)
      obtain ⟨hv, hd⟩ := char_digit_spec (n % 10) hm
      simp only [if_neg h10]
      refine ⟨?_, by simp, ?_⟩
      · rw [digitsToNatG_append_one, ihv, hv]
        omega
      · intro c hc
        rcases List.mem_append.1 hc with hc | hc
        · exact ihd c hc
        · simp only [List.mem_singleton] at hc
          simpa [hc] using hd

theorem natToDigitsG_spec (n : Nat) :
    digitsToNatG (natToDigitsG n) = n ∧ natToDigitsG n ≠ [] ∧
      ∀ c ∈ natToDigitsG n, isDigitG c = true :=
  natToDigitsAux_spec (n + 1) n (by omega)

/-- A decimal digit is none of the characters the codec treats specially. -/
theorem digit_char_props {c : Char} (h : isDigitG c = true) :
    isSpaceChar c = false ∧ c ≠ ':' ∧ c ≠ '[' ∧ c ≠ ',' ∧ c ≠ '|' ∧ c ≠ '\t' ∧
      c ≠ '\n' ∧ c ≠ '"' ∧ c ≠ '#' ∧ c ≠ '-' ∧ c ≠ '+' := by
  obtain ⟨hl, hr⟩ := isDigitG_toNat h
  have hnum : ∀ d : Char, d.toNat < 48 ∨ 57 < d.toNat → c ≠ d := by
    intro d hd hcd
    rw [hcd] at hl hr
    omega
  refine ⟨?_, hnum _ (by decide), hnum _ (by decide), hnum _ (by decide), hnum _ (by decide),
    hnum _ (by decide), hnum _ (by decide), hnum _ (by decide), hnum _ (by decide),
    hnum _ (by decide), hnum _ (by decide)⟩
  have hsp : ∀ d : Char, c = d → d.toNat < 48 ∨ 57 < d.toNat → False := by
    intro d hcd hd
    rw [hcd] at hl hr
    omega
  simp only [isSpaceChar, Bool.or_eq_false_iff, decide_eq_false_iff_not]
  refine ⟨⟨⟨⟨⟨?_, ?_⟩, ?_⟩, ?_⟩, ?_⟩, ?_⟩
  · exact fun hh => hsp _ hh (by decide)
  · exact fun hh => hsp _ hh (by decide)
  · exact fun hh => hsp _ hh (by decide)
  · exact fun hh => hsp _ hh (by decide)
  · omega
  · omega

theorem parseIntG_intToGoStr (i : Int) (h1 : -(2 ^ 63) ≤ i) (h2 : i ≤ 2 ^ 63 - 1) :
    parseIntG (intToGoStr i) = some i := by
  obtain ⟨hval, hne, hdig⟩ := natToDigitsG_spec i.natAbs
  have hall : ((natToDigitsG i.natAbs).all isDigitG) = true := List.all_eq_true.2 hdig
  by_cases hneg : i < 0
  · have hi : intToGoStr i = '-' :: natToDigitsG i.natAbs := by simp [intToGoStr, hneg]
    rw [hi]
    simp only [parseIntG]
    have hC : (('-' :: natToDigitsG i.natAbs).head? = some '-' ∨
        ('-' :: natToDigitsG i.natAbs).head? = some '+') := Or.inl (by simp)
    have hC2 : ('-' :: natToDigitsG i.natAbs).head? = some '-' := by simp
    simp only [if_pos hC, List.tail_cons, if_neg hne, hall, if_true, if_pos hC2]
    rw [if_pos]
    · simp only [hval, Option.some.injEq]
      omega
    · simp only [hval]
      constructor <;> omega
  · have hd0 : ∀ c ∈ natToDigitsG i.natAbs, c ≠ '-' ∧ c ≠ '+' := fun c hc =>
      ⟨(digit_char_props (hdig c hc)).2.2.2.2.2.2.2.2.2.1,
       (digit_char_props (hdig c hc)).2.2.2.2.2.2.2.2.2.2⟩
    have hi : intToGoStr i = natToDigitsG i.natAbs := by simp [intToGoStr, hneg]
    have hhead : ¬ ((natToDigitsG i.natAbs).head? = some '-' ∨
        (natToDigitsG i.natAbs).head? = some '+') := by
      cases hds : natToDigitsG i.natAbs with
      | nil => exact absurd hds hne
      | cons c cs =>
        have hcc := hd0 c (by rw [hds]; exact List.mem_cons_self _ _)
        simp [hcc.1, hcc.2]
    have hh2 : ¬ (natToDigitsG i.natAbs).head? = some '-' := fun hh => hhead (Or.inl hh)
    rw [hi]
    simp only [parseIntG]
    simp only [if_neg hhead, if_neg hne, hall, if_true, if_neg hh2]
    rw [if_pos]
    · simp only [hval, Option.some.injEq]
      omega
    · simp only [hval]
      constructor <;> omega

theorem parseUintG_natToDigitsG (n : Nat) (h : n ≤ 2 ^ 64 - 1) :
    parseUintG (natToDigitsG n) = some n := by
  obtain ⟨hval, hne, hdig⟩ := natToDigitsG_spec n
  rw [parseUintG]
  have hall : ((natToDigitsG n).all isDigitG) = true := List.all_eq_true.2 hdig
  rw [if_neg (by simpa using hne), if_pos hall, hval, if_pos h]

/-! ## Groundwork: quoting, escaping, token normalization -/

theorem escapeQuotesG_head_ne (s : GoStr) : (escapeQuotesG s).head? ≠ some '"' := by
  cases s with
  | nil => simp [escapeQuotesG]
  | cons c t =>
    by_cases hc : c = '"' <;> simp [escapeQuotesG, hc]

/-- Unescaping inverts escaping: ReplaceAll of backslash-quote to quote
undoes ReplaceAll of quote to backslash-quote, on every string. -/
theorem unescape_escape (s : GoStr) : unescapeQuotesG (escapeQuotesG s) = s := by
  induction s with
  | nil => rfl
  | cons c t ih =>
    by_cases hc : c = '"'
    · subst hc
      simp only [escapeQuotesG, if_pos rfl]
      simp [unescapeQuotesG, ih]
    · simp only [escapeQuotesG, if_neg hc]
      cases hesc : escapeQuotesG t with
      | nil =>
        rw [unescapeQuotesG]
        cases t with
        | nil => rfl
        | cons x xs =>
          exfalso
          revert hesc
          by_cases hx : x = '"' <;> simp [escapeQuotesG, hx]
      | cons e es =>
        have hne : ¬ (c = '\\' ∧ e = '"') := by
          rintro ⟨-, he⟩
          exact escapeQuotesG_head_ne t (by rw [hesc, he]; simp)
        rw [unescapeQuotesG, if_neg hne, ← hesc, ih]

theorem getLast?_concat_one (l : GoStr) (c : Char) : (l ++ [c]).getLast? = some c := by
  simp

/-- The left-to-right direction of trim stability: a trim-stable non-empty
string has a non-space first character. -/
theorem head_nonspace_of_trimSpaceG_eq {s : GoStr} (h : trimSpaceG s = s) :
    ∀ c, s.head? = some c → isSpaceChar c = false := by
  intro c hc
  by_contra hsp
  have hsp2 : isSpaceChar c = true := by
    cases hx : isSpaceChar c
    · exact absurd hx hsp
    · rfl
  cases s with
  | nil => simp at hc
  | cons a t =>
    have ha : a = c := by simpa using hc
    subst ha
    have h1 : trimLeftG (a :: t) = trimLeftG t := by
      simp [trimLeftG, List.dropWhile_cons, hsp2]
    have h2 : (trimSpaceG (a :: t)).length ≤ t.length := by
      rw [trimSpaceG, h1]
      exact le_trans (trimRightG_length_le _) (trimLeftG_length_le _)
    rw [h] at h2
    simp only [List.length_cons] at h2
    omega

/-- With a non-space head, TrimSpace reduces to the right trim. -/
theorem trimSpaceG_eq_trimRight_of_head {s : GoStr}
    (h : ∀ c, s.head? = some c → isSpaceChar c = false) : trimSpaceG s = trimRightG s := by
  cases s with
  | nil => rfl
  | cons a t =>
    rw [trimSpaceG, trimLeftG_cons_of_nonspace _ (h a rfl)]

/-- The right-to-left direction of trim stability: a trim-stable non-empty
string has a non-space last character. -/
theorem last_nonspace_of_trimSpaceG_eq {s : GoStr} (h : trimSpaceG s = s) :
    ∀ c, s.getLast? = some c → isSpaceChar c = false := by
  intro c hc
  by_contra hsp
  have hsp2 : isSpaceChar c = true := by
    cases hx : isSpaceChar c
    · exact absurd hx hsp
    · rfl
  have hhead := head_nonspace_of_trimSpaceG_eq h
  rw [trimSpaceG_eq_trimRight_of_head hhead] at h
  have hrev : s.reverse.head? = some c := by
    rw [List.head?_reverse]
    exact hc
  cases hs : s.reverse with
  | nil =>
    rw [hs] at hrev
    simp at hrev
  | cons a t =>
    have ha : a = c := by
      rw [hs] at hrev
      simpa using hrev
    subst ha
    have h1 : (trimRightG s).length ≤ t.length := by
      rw [trimRightG, hs, List.dropWhile_cons, hsp2]
      have hsub : List.Sublist (t.dropWhile isSpaceChar) t := List.dropWhile_sublist _
      simpa using hsub.length_le
    rw [h] at h1
    have h2 : s.length = t.length + 1 := by
      have := congrArg List.length hs
      simpa using this
    omega

/-- A string with a non-space head and a non-space last character is fixed
by TrimSpace (the usable form of trim stability). -/
theorem trimSpaceG_eq_self_of_safe {s : GoStr} (hne : s ≠ [])
    (hh : ∀ c, s.head? = some c → isSpaceChar c = false)
    (hl : ∀ c, s.getLast? = some c → isSpaceChar c = false) : trimSpaceG s = s := by
  rw [trimSpaceG_eq_trimRight_of_head hh]
  obtain ⟨m, d, hmd⟩ : ∃ m d, s = m ++ [d] := by
    cases hs : s.reverse with
    | nil =>
      exfalso
      apply hne
      simpa using congrArg List.reverse hs
    | cons a t =>
      exact ⟨t.reverse, a, by simpa using congrArg List.reverse hs⟩
  have hd : isSpaceChar d = false := hl d (by rw [hmd]; exact getLast?_concat_one m d)
  rw [hmd]
  exact trimRightG_concat_of_nonspace m hd

/-- The normalization of a produced quoted token recovers the original
string: trimming keeps it, the quote test fires, stripping returns the
escaped body, and unescaping undoes the escaping. -/
theorem normalizeToken_quoted (s : GoStr) :
    normalizeToken (('"' :: escapeQuotesG s) ++ ['"']) = s := by
  have htrim : trimSpaceG (('"' :: escapeQuotesG s) ++ ['"']) = ('"' :: escapeQuotesG s) ++ ['"'] := by
    refine trimSpaceG_eq_self_of_safe (by simp) ?_ ?_
    · intro c hc
      have hcq : '"' = c := by simpa using hc
      rw [← hcq]
      decide
    · intro c hc
      rw [getLast?_concat_one] at hc
      have hcq : '"' = c := by simpa using hc
      rw [← hcq]
      decide
  rw [normalizeToken]
  simp only [htrim]
  rw [if_pos]
  · rw [List.cons_append, List.drop_succ_cons, List.drop_zero, List.dropLast_concat,
      unescape_escape]
  · refine ⟨by simp, by simp, ?_⟩
    rw [getLast?_concat_one]

/-- Normalizing a trim-stable token that is not quote-wrapped leaves it
unchanged. -/
theorem normalizeToken_plain {s : GoStr} (h1 : trimSpaceG s = s)
    (h2 : ¬ (2 ≤ s.length ∧ s.head? = some '"' ∧ s.getLast? = some '"')) :
    normalizeToken s = s := by
  rw [normalizeToken]
  simp only [h1]
  rw [if_neg h2]

/-- A line whose trimmed form starts with anything but a number sign is not
skippable. -/
theorem skippable_false_of_trimmed {l t : GoStr} {c : Char} (h : trimSpaceG l = c :: t)
    (hc : c ≠ '#') : skippableLine l = false := by
  simp [skippableLine, h, hc]

/-! ## Groundwork: the decoder's line cursor -/

theorem currentLineD_of_drop {lines : List GoStr} {pos : Nat} {l : GoStr} {rest : List GoStr}
    (h : lines.drop pos = l :: rest) : currentLineD lines pos = l := by
  have h0 : lines[pos]? = some l := by
    have := List.getElem?_drop lines pos 0
    rw [h] at this
    simpa using this.symm
  simp [currentLineD, List.getD, h0]

theorem drop_succ_of_drop {lines : List GoStr} {pos : Nat} {l : GoStr} {rest : List GoStr}
    (h : lines.drop pos = l :: rest) : lines.drop (pos + 1) = rest := by
  have : lines.drop (pos + 1) = (lines.drop pos).drop 1 := by
    rw [List.drop_drop]
  rw [this, h]
  rfl

theorem hasMoreD_true_of_current {lines : List GoStr} {pos : Nat} {l : GoStr}
    {rest : List GoStr} (h : lines.drop pos = l :: rest) (hl : skippableLine l = false) :
    hasMoreD lines pos = true := by
  simp [hasMoreD, h, hl]

theorem hasMoreD_false_of_all {lines : List GoStr} {pos : Nat}
    (h : ∀ l ∈ lines.drop pos, skippableLine l = true) : hasMoreD lines pos = false := by
  simp only [hasMoreD, List.any_eq_false, Bool.not_eq_true]
  intro l hl
  simp [h l hl]

theorem skipEmptyD_eq_self {lines : List GoStr} {pos : Nat} {l : GoStr} {rest : List GoStr}
    (h : lines.drop pos = l :: rest) (hl : skippableLine l = false) :
    skipEmptyD lines pos = pos := by
  rw [skipEmptyD, skipEmptyAux]
  rw [if_neg]
  rintro ⟨-, hsk⟩
  rw [currentLineD_of_drop h, hl] at hsk
  exact Bool.false_ne_true hsk

theorem skippableLine_nil : skippableLine ([] : GoStr) = true := rfl

/-! ## Groundwork: the scalar token round trip -/

theorem mem_of_head?_some {l : GoStr} {c : Char} (h : l.head? = some c) : c ∈ l := by
  cases l <;> simp_all

theorem mem_of_getLast?_some {l : GoStr} {c : Char} (h : l.getLast? = some c) : c ∈ l := by
  rw [← List.head?_reverse] at h
  have := mem_of_head?_some h
  simpa using this

theorem trimSpaceG_eq_self_of_all {r : GoStr} (hne : r ≠ [])
    (hall : ∀ c ∈ r, isSpaceChar c = false) : trimSpaceG r = r :=
  trimSpaceG_eq_self_of_safe hne (fun c hc => hall c (mem_of_head?_some hc))
    (fun c hc => hall c (mem_of_getLast?_some hc))

theorem setPrimitiveValue_tstr (cur : DVal) (s0 : GoStr) :
    setPrimitiveValue .tstr cur s0 = .ok (.dstr (normalizeToken s0)) := by
  cases cur <;> rfl

theorem setPrimitiveValue_tint (cur : DVal) (s0 : GoStr) :
    setPrimitiveValue .tint cur s0 =
      (match parseIntG (normalizeToken s0) with
       | some i => .ok (.dint i)
       | none => .error (.conversion "int" (normalizeToken s0))) := by
  cases cur <;> rfl

theorem setPrimitiveValue_tuint (cur : DVal) (s0 : GoStr) :
    setPrimitiveValue .tuint cur s0 =
      (match parseUintG (normalizeToken s0) with
       | some u => .ok (.duint u)
       | none => .error (.conversion "uint" (normalizeToken s0))) := by
  cases cur <;> rfl

theorem setPrimitiveValue_tbool (cur : DVal) (s0 : GoStr) :
    setPrimitiveValue .tbool cur s0 =
      (match parseBoolG (normalizeToken s0) with
       | some b => .ok (.dbool b)
       | none => .error (.conversion "bool" (normalizeToken s0))) := by
  cases cur <;> rfl

theorem setPrimitiveValue_tfloat (cur : DVal) (s0 : GoStr) :
    setPrimitiveValue .tfloat cur s0 =
      (match parseFloatG (normalizeToken s0) with
       | some f => .ok (.dfloat f)
       | none => .error (.conversion "float" (normalizeToken s0))) := by
  cases cur <;> rfl

theorem setPrimitiveValue_tiface (cur : DVal) (s0 : GoStr) :
    setPrimitiveValue .tiface cur s0 = .ok (inferAny (normalizeToken s0)) := by
  cases cur <;> rfl

/-- Character inventory of a rendered signed integer. -/
theorem intToGoStr_chars (i : Int) :
    ∀ c ∈ intToGoStr i, isDigitG c = true ∨ c = '-' := by
  intro c hc
  obtain ⟨-, -, hdig⟩ := natToDigitsG_spec i.natAbs
  by_cases hneg : i < 0
  · rw [intToGoStr, if_pos hneg] at hc
    rcases List.mem_cons.1 hc with hc | hc
    · exact Or.inr hc
    · exact Or.inl (hdig c hc)
  · rw [intToGoStr, if_neg hneg] at hc
    exact Or.inl (hdig c hc)

theorem int_token_char_nice {i : Int} {c : Char} (hc : c ∈ intToGoStr i) :
    isSpaceChar c = false ∧ c ≠ '"' ∧ c ≠ ',' ∧ c ≠ '|' ∧ c ≠ '\t' ∧ c ≠ '\n' := by
  rcases intToGoStr_chars i c hc with hd | hd
  · obtain ⟨hsp, -, -, h1, h2, h3, h4, h5, -⟩ := digit_char_props hd
    exact ⟨hsp, h5, h1, h2, h3, h4⟩
  · subst hd
    refine ⟨by decide, by decide, by decide, by decide, by decide, by decide⟩

/-- Rendered round-trip-safe scalars are non-empty, trim-stable, delimiter-
free tokens. -/
theorem writePrim_token_props (t : GoType) (v : EVal) (h : scalarRT t v) :
    writePrimitiveValue v ≠ [] ∧
      trimSpaceG (writePrimitiveValue v) = writePrimitiveValue v ∧
      containsAnyG (writePrimitiveValue v) ",|\t\n".toList = false := by
  cases t <;> cases v <;> try exact False.elim h
  case tstr.estr s =>
    obtain ⟨hne, htrim, hfree, -⟩ := h
    have hfree2 : containsAnyG s [',', '|', '\t', '\n'] = false := by simpa using hfree
    have hw : writePrimitiveValue (.estr s) = s := by
      simp [writePrimitiveValue, hfree2]
    rw [hw]
    exact ⟨hne, htrim, hfree⟩
  case tint.eint i =>
    have hw : writePrimitiveValue (.eint i) = intToGoStr i := rfl
    rw [hw]
    have hne : intToGoStr i ≠ [] := by
      obtain ⟨-, hne, -⟩ := natToDigitsG_spec i.natAbs
      rw [intToGoStr]
      split
      · simp
      · exact hne
    refine ⟨hne, trimSpaceG_eq_self_of_all hne
      (fun c hc => (int_token_char_nice hc).1), ?_⟩
    simp only [containsAnyG, List.any_eq_false, Bool.not_eq_true]
    intro c hc
    obtain ⟨-, -, h1, h2, h3, h4⟩ := int_token_char_nice hc
    simp [List.contains, h1, h2, h3, h4]
  case tuint.euint n =>
    have hw : writePrimitiveValue (.euint n) = natToDigitsG n := rfl
    rw [hw]
    obtain ⟨-, hne, hdig⟩ := natToDigitsG_spec n
    refine ⟨hne, trimSpaceG_eq_self_of_all hne
      (fun c hc => (digit_char_props (hdig c hc)).1), ?_⟩
    simp only [containsAnyG, List.any_eq_false, Bool.not_eq_true]
    intro c hc
    obtain ⟨-, -, -, h1, h2, h3, h4, -⟩ := digit_char_props (hdig c hc)
    simp [List.contains, h1, h2, h3, h4]
  case tbool.ebool b =>
    cases b <;> exact ⟨by decide, by decide, by decide⟩

/-- The token of a round-trip-safe scalar decodes back to exactly the value
it was rendered from, whatever the current field value. -/
theorem setPrim_writePrim (t : GoType) (v : EVal) (h : scalarRT t v) (cur : DVal) :
    setPrimitiveValue t cur (writePrimitiveValue v) = .ok (dOfScalar v) := by
  cases t <;> cases v <;> try exact False.elim h
  case tstr.estr s =>
    obtain ⟨hne, htrim, hfree, hquote⟩ := h
    have hfree2 : containsAnyG s [',', '|', '\t', '\n'] = false := by simpa using hfree
    have hw : writePrimitiveValue (.estr s) = s := by
      simp [writePrimitiveValue, hfree2]
    rw [hw, setPrimitiveValue_tstr, normalizeToken_plain htrim hquote]
    rfl
  case tint.eint i =>
    obtain ⟨h1, h2⟩ := h
    have hw : writePrimitiveValue (.eint i) = intToGoStr i := rfl
    have hne : intToGoStr i ≠ [] ∧ trimSpaceG (intToGoStr i) = intToGoStr i :=
      ⟨(writePrim_token_props .tint (.eint i) ⟨h1, h2⟩).1,
       (writePrim_token_props .tint (.eint i) ⟨h1, h2⟩).2.1⟩
    have hnq : ¬ (2 ≤ (intToGoStr i).length ∧ (intToGoStr i).head? = some '"' ∧
        (intToGoStr i).getLast? = some '"') := by
      rintro ⟨-, hh, -⟩
      exact (int_token_char_nice (mem_of_head?_some hh)).2.1 rfl
    rw [hw, setPrimitiveValue_tint, normalizeToken_plain hne.2 hnq,
      parseIntG_intToGoStr i h1 h2]
    rfl
  case tuint.euint n =>
    have hw : writePrimitiveValue (.euint n) = natToDigitsG n := rfl
    obtain ⟨-, hne, hdig⟩ := natToDigitsG_spec n
    have htr : trimSpaceG (natToDigitsG n) = natToDigitsG n :=
      (writePrim_token_props .tuint (.euint n) h).2.1
    have hnq : ¬ (2 ≤ (natToDigitsG n).length ∧ (natToDigitsG n).head? = some '"' ∧
        (natToDigitsG n).getLast? = some '"') := by
      rintro ⟨-, hh, -⟩
      exact (digit_char_props (hdig _ (mem_of_head?_some hh))).2.2.2.2.2.2.2.1 rfl
    rw [hw, setPrimitiveValue_tuint, normalizeToken_plain htr hnq,
      parseUintG_natToDigitsG n h]
    rfl
  case tbool.ebool b =>
    cases b
    · rw [setPrimitiveValue_tbool]
      rfl
    · rw [setPrimitiveValue_tbool]
      rfl

/-! ## Groundwork: joined tokens and the encoded array header -/

theorem not_mem_of_containsAnyG_false {s chars : GoStr} {c : Char}
    (h : containsAnyG s chars = false) (hc : c ∈ chars) : c ∉ s := by
  intro hcs
  simp only [containsAnyG, List.any_eq_false, Bool.not_eq_true] at h
  have h2 := h c hcs
  have h3 : chars.contains c = true := List.elem_eq_true_of_mem hc
  rw [h2] at h3
  exact Bool.noConfusion h3

theorem getLast?_append_right {l l2 : GoStr} (h : l2 ≠ []) :
    (l ++ l2).getLast? = l2.getLast? :=
  List.getLast?_append_of_ne_nil _ h

theorem joinDelimG_cons_cons (sep t u : GoStr) (us : List GoStr) :
    joinDelimG sep (t :: u :: us) = t ++ sep ++ joinDelimG sep (u :: us) := rfl

theorem joinDelimG_ne_nil {sep : GoStr} {t : GoStr} {rest : List GoStr} (ht : t ≠ []) :
    joinDelimG sep (t :: rest) ≠ [] := by
  cases rest with
  | nil => simpa [joinDelimG] using ht
  | cons u us =>
    rw [joinDelimG_cons_cons]
    simp [ht]

theorem joinDelimG_head? {sep : GoStr} {t : GoStr} {rest : List GoStr} (ht : t ≠ []) :
    (joinDelimG sep (t :: rest)).head? = t.head? := by
  cases rest with
  | nil => rfl
  | cons u us =>
    rw [joinDelimG_cons_cons]
    cases t with
    | nil => exact absurd rfl ht
    | cons c cs => rfl

theorem joinDelimG_getLast? {sep : GoStr} :
    ∀ {ts : List GoStr}, ts ≠ [] → (∀ t ∈ ts, t ≠ []) →
      ∃ t ∈ ts, (joinDelimG sep ts).getLast? = t.getLast?
  | [], hne, _ => absurd rfl hne
  | [t], _, _ => ⟨t, List.mem_singleton_self t, rfl⟩
  | t :: u :: us, _, hts => by
    obtain ⟨w, hw, hlast⟩ := joinDelimG_getLast? (by simp)
      (fun x hx => hts x (List.mem_cons_of_mem _ hx))
    refine ⟨w, List.mem_cons_of_mem _ hw, ?_⟩
    rw [joinDelimG_cons_cons, List.append_assoc,
      getLast?_append_right (by
        intro hcontra
        exact joinDelimG_ne_nil (hts u (by simp)) (by
          rcases List.append_eq_nil.1 hcontra with ⟨-, h2⟩
          exact h2)),
      getLast?_append_right (joinDelimG_ne_nil (hts u (by simp)))]
    exact hlast

theorem not_mem_joinDelimG {sep : GoStr} {c : Char} :
    ∀ {ts : List GoStr}, c ∉ sep → (∀ t ∈ ts, c ∉ t) → c ∉ joinDelimG sep ts
  | [], _, _ => by simp [joinDelimG]
  | [t], _, hts => by simpa [joinDelimG] using hts t (by simp)
  | t :: u :: us, hsep, hts => by
    have ih : c ∉ joinDelimG sep (u :: us) :=
      not_mem_joinDelimG hsep (fun x hx => hts x (List.mem_cons_of_mem _ hx))
    rw [joinDelimG_cons_cons]
    simp only [List.mem_append, not_or]
    exact ⟨⟨hts t (by simp), hsep⟩, ih⟩

theorem takeWhile_append_stop {p : Char → Bool} {ds : GoStr} {x : Char} (r : GoStr)
    (hds : ∀ c ∈ ds, p c = true) (hx : p x = false) :
    (ds ++ x :: r).takeWhile p = ds ∧ (ds ++ x :: r).dropWhile p = x :: r := by
  induction ds with
  | nil => simp [List.takeWhile_cons, List.dropWhile_cons, hx]
  | cons d dt ih =>
    have hd : p d = true := hds d (by simp)
    obtain ⟨ih1, ih2⟩ := ih (fun c hc => hds c (List.mem_cons_of_mem _ hc))
    simp [List.takeWhile_cons, List.dropWhile_cons, hd, ih1, ih2]

/-- The bracket tail of an encoder-produced header: digits then the closing
bracket (no hint, no brace group, no trailing text). -/
theorem bracketTail_digits (N : Nat) :
    bracketTail (natToDigitsG N ++ [']']) = some (N, none) := by
  obtain ⟨hval, hne, hdig⟩ := natToDigitsG_spec N
  obtain ⟨htake, hdrop⟩ := takeWhile_append_stop ([] : GoStr) (fun c hc => hdig c hc)
    (show isDigitG ']' = false by decide)
  rw [bracketTail]
  simp only [htake, hdrop]
  rw [if_neg (by simpa using hne)]
  simp [hval]

theorem parseArrayScan_cons_other {c : Char} {rest : GoStr} {b : Bool}
    (h : ¬ (c = '[' ∧ b = true)) :
    parseArrayScan (c :: rest) b = parseArrayScan rest true := by
  rw [parseArrayScan, if_neg h]

/-- Scanning an encoder-produced header key: the bracket-free key name is
skipped and the first bracket's tail parses. -/
theorem parseArrayScan_header {tail : GoStr} {res : Nat × Option GoStr}
    (htail : bracketTail tail = some res) :
    ∀ (name : GoStr) (b : Bool), '[' ∉ name → (name ≠ [] ∨ b = true) →
      parseArrayScan (name ++ '[' :: tail) b = some res
  | [], b, _, hne => by
    have hb : b = true := by
      rcases hne with h | h
      · exact absurd rfl h
      · exact h
    subst hb
    rw [List.nil_append, parseArrayScan, if_pos ⟨rfl, rfl⟩, htail]
  | c :: cs, b, hnb, _ => by
    have hc : c ≠ '[' := fun hh => hnb (hh ▸ List.mem_cons_self c cs)
    rw [List.cons_append, parseArrayScan_cons_other (by rintro ⟨h1, -⟩; exact hc h1)]
    exact parseArrayScan_header htail cs true
      (fun hh => hnb (List.mem_cons_of_mem _ hh)) (Or.inr rfl)

/-- The array declaration of an encoder-produced inline header. -/
theorem parseArrayDeclaration_inline (name : GoStr) (N : Nat) (hnb : '[' ∉ name)
    (hne : name ≠ []) :
    parseArrayDeclaration (name ++ '[' :: (natToDigitsG N ++ [']'])) = some (N, []) := by
  rw [parseArrayDeclaration,
    parseArrayScan_header (bracketTail_digits N) name false hnb (Or.inl hne)]

theorem extractKeyScan_through {tail : GoStr} :
    ∀ {cs : GoStr}, '[' ∉ cs → extractKeyScan (cs ++ '[' :: tail) = some cs
  | [], _ => by rw [List.nil_append, extractKeyScan, if_pos rfl]
  | c :: cs, hnb => by
    have hc : c ≠ '[' := fun hh => hnb (hh ▸ List.mem_cons_self c cs)
    rw [List.cons_append, extractKeyScan, if_neg hc,
      extractKeyScan_through (fun hh => hnb (List.mem_cons_of_mem _ hh))]
    rfl

/-- The key extracted from an encoder-produced header is the field name. -/
theorem extractKeyFromArray_header (name tail : GoStr) (hnb : '[' ∉ name)
    (hne : name ≠ []) : extractKeyFromArray (name ++ '[' :: tail) = name := by
  cases name with
  | nil => exact absurd rfl hne
  | cons c cs =>
    have hcs : '[' ∉ cs := fun hh => hnb (List.mem_cons_of_mem _ hh)
    rw [List.cons_append, extractKeyFromArray, extractKeyScan_through hcs]

/-! ## Groundwork: the encoder on flat scalar records -/

theorem isScalarE_of_scalarRT {t : GoType} {v : EVal} (h : scalarRT t v) : isScalarE v := by
  cases t <;> cases v <;> first | exact False.elim h | trivial

theorem encodeValueE_scalar (opts : MarshalOptions) {v : EVal} (h : isScalarE v)
    (depth : Nat) (key : GoStr) :
    encodeValueE opts v depth key = .ok (encodePrimitiveE opts v depth key) := by
  cases v <;> first | exact False.elim h | rfl

theorem encodePrimitiveE_keyed (opts : MarshalOptions) (v : EVal) {key : GoStr}
    (hk : key ≠ []) :
    encodePrimitiveE opts v 0 key = key ++ ':' :: ' ' :: (writePrimitiveValue v ++ ['\n']) := by
  rw [encodePrimitiveE, if_pos hk]
  simp [spacesG]

/-- The field loop of the encoder on a flat scalar record: one keyed line
per field. -/
theorem encodeStructFieldsE_flat (opts : MarshalOptions) :
    ∀ (fvs : List (StructField × EVal)),
      (∀ p ∈ fvs, getFieldName p.1 ≠ "-".toList ∧ getFieldName p.1 ≠ [] ∧ isScalarE p.2) →
      encodeStructFieldsE opts fvs 0
        = .ok ((fvs.map fun p =>
            getFieldName p.1 ++ ':' :: ' ' :: (writePrimitiveValue p.2 ++ ['\n'])).flatten)
  | [], _ => rfl
  | (f, v) :: rest, h => by
    obtain ⟨hdash, hne, hsc⟩ := h (f, v) (List.mem_cons_self _ _)
    have ih := encodeStructFieldsE_flat opts rest
      (fun p hp => h p (List.mem_cons_of_mem _ hp))
    rw [encodeStructFieldsE]
    simp only [if_neg hdash]
    rw [encodeValueE_scalar opts hsc 0 (getFieldName f), ih,
      encodePrimitiveE_keyed opts v hne]
    simp

/-- MarshalWithOptions on a flat scalar record is the concatenation of its
field lines. -/
theorem marshal_flat (opts : MarshalOptions) (fvs : List (StructField × EVal))
    (h : ∀ p ∈ fvs, getFieldName p.1 ≠ "-".toList ∧ getFieldName p.1 ≠ [] ∧ isScalarE p.2) :
    MarshalWithOptions (.estruct fvs) opts
      = .ok ((fvs.map fun p =>
          getFieldName p.1 ++ ':' :: ' ' :: (writePrimitiveValue p.2 ++ ['\n'])).flatten) := by
  rw [MarshalWithOptions]
  rw [show encodeValueE opts (.estruct fvs) 0 []
      = (match encodeStructFieldsE opts fvs 0 with
         | .ok body => .ok ((if ([] : GoStr) ≠ [] then spacesG (0 * opts.indent) ++ [] ++ ":\n".toList else []) ++ body)
         | .error e => .error e) from rfl]
  rw [encodeStructFieldsE_flat opts fvs h]
  simp

/-! ## Groundwork: document splitting and sequential assignment -/

theorem splitOnCharG_ne_nil (c : Char) : ∀ s : GoStr, splitOnCharG c s ≠ []
  | [] => by simp [splitOnCharG]
  | x :: rest => by
    rw [splitOnCharG]
    cases h : splitOnCharG c rest with
    | nil => simp
    | cons a b => by_cases hx : x = c <;> simp [hx]

theorem splitOnCharG_cons_self (c : Char) (t : GoStr) :
    splitOnCharG c (c :: t) = [] :: splitOnCharG c t := by
  rw [splitOnCharG]
  cases h : splitOnCharG c t with
  | nil => exact absurd h (splitOnCharG_ne_nil c t)
  | cons a b => simp

/-- Splitting a newline-terminated document on newlines: the content lines
followed by one empty piece. -/
theorem split_newline_doc :
    ∀ (ls : List GoStr), (∀ l ∈ ls, '\n' ∉ l) →
      splitOnCharG '\n' ((ls.map fun l => l ++ ['\n']).flatten) = ls ++ [[]]
  | [], _ => rfl
  | l :: rest, h => by
    have ih := split_newline_doc rest (fun x hx => h x (List.mem_cons_of_mem _ hx))
    have hl : '\n' ∉ l := h l (List.mem_cons_self _ _)
    simp only [List.map_cons, List.flatten_cons, List.append_assoc, List.singleton_append]
    rw [splitOnCharG_append_of_not_mem _ _ hl, splitOnCharG_cons_self, ih]
    simp

theorem setScalars_length (L : List (Nat × EVal)) :
    ∀ vals : List DVal, (setScalars vals L).length = vals.length := by
  induction L with
  | nil => intro vals; rfl
  | cons q rest ih =>
    intro vals
    obtain ⟨i, v⟩ := q
    rw [setScalars, ih]
    simp

theorem setScalars_getElem_not_mem {j : Nat} :
    ∀ (L : List (Nat × EVal)) (vals : List DVal), j ∉ L.map Prod.fst →
      (setScalars vals L)[j]? = vals[j]?
  | [], vals, _ => rfl
  | (i, v) :: rest, vals, h => by
    simp only [List.map_cons] at h
    have hij : i ≠ j := fun hh => h (hh ▸ List.mem_cons_self _ _)
    have hrest : j ∉ rest.map Prod.fst := fun hc => h (List.mem_cons_of_mem _ hc)
    rw [setScalars, setScalars_getElem_not_mem rest _ hrest]
    exact List.getElem?_set_ne hij

theorem setScalars_getElem_mem {j : Nat} {v : EVal} :
    ∀ (L : List (Nat × EVal)) (vals : List DVal), (L.map Prod.fst).Nodup →
      (j, v) ∈ L → j < vals.length → (setScalars vals L)[j]? = some (dOfScalar v)
  | [], _, _, hmem, _ => absurd hmem (List.not_mem_nil _)
  | (i, w) :: rest, vals, hdist, hmem, hj => by
    simp only [List.map_cons, List.nodup_cons] at hdist
    rcases List.mem_cons.1 hmem with hq | hq
    · injection hq with h1 h2
      subst h1
      subst h2
      have hnot : j ∉ rest.map Prod.fst := hdist.1
      rw [setScalars, setScalars_getElem_not_mem rest _ hnot]
      exact List.getElem?_set_self hj
    · rw [setScalars]
      exact setScalars_getElem_mem rest _ hdist.2 hq (by simpa using hj)
/-! ## Groundwork: the field map and the struct line loop -/

theorem fieldIndex_none_of_not_mem :
    ∀ (fs : List (StructField × GoType)) (key : GoStr),
      key ∉ fs.map (fun p => getFieldName p.1) → fieldIndex fs key = none
  | [], _, _ => rfl
  | (f, t) :: rest, key, h => by
    rw [fieldIndex,
      fieldIndex_none_of_not_mem rest key (fun hc => h (List.mem_cons_of_mem _ hc))]
    rw [if_neg]
    rintro ⟨-, hh⟩
    exact h (by simp [hh])

/-- With no later duplicate, the field map sends a resolved name to the
position of its field. -/
theorem fieldIndex_at :
    ∀ (pre : List (StructField × GoType)) (f : StructField) (t : GoType)
      (post : List (StructField × GoType)),
      getFieldName f ≠ "-".toList →
      getFieldName f ∉ post.map (fun p => getFieldName p.1) →
      fieldIndex (pre ++ (f, t) :: post) (getFieldName f) = some pre.length
  | [], f, t, post, hdash, hnot => by
    rw [List.nil_append, fieldIndex, fieldIndex_none_of_not_mem post _ hnot,
      if_pos ⟨hdash, rfl⟩]
    rfl
  | (g, u) :: pre, f, t, post, hdash, hnot => by
    rw [List.cons_append, fieldIndex, fieldIndex_at pre f t post hdash hnot]
    rfl

theorem typeAt_at (pre : List (StructField × GoType)) (f : StructField) (t : GoType)
    (post : List (StructField × GoType)) :
    typeAt (pre ++ (f, t) :: post) pre.length = t := by
  rw [typeAt]
  have h : (pre ++ (f, t) :: post).get? pre.length = some (f, t) := by
    rw [List.get?_eq_getElem?, List.getElem?_append_right (le_refl _)]
    simp
  rw [h]

theorem indentOfG_zero {l : GoStr} {c : Char} (hl : l.head? = some c)
    (hc : isSpaceChar c = false) : indentOfG l = 0 := by
  have hcs : c ≠ ' ' := by
    intro hh
    rw [hh] at hc
    exact absurd hc (by decide)
  cases l with
  | nil => simp at hl
  | cons a t =>
    have ha : a = c := by simpa using hl
    subst ha
    simp [indentOfG, List.takeWhile_cons, hcs]

theorem parseArrayScan_none_of_no_bracket :
    ∀ (key : GoStr) (b : Bool), '[' ∉ key → parseArrayScan key b = none
  | [], _, _ => by rw [parseArrayScan]
  | c :: rest, b, h => by
    have hc : c ≠ '[' := fun hh => h (hh ▸ List.mem_cons_self c rest)
    rw [parseArrayScan, if_neg (fun hh => hc hh.1),
      parseArrayScan_none_of_no_bracket rest true (fun hh => h (List.mem_cons_of_mem _ hh))]

theorem parseArrayDeclaration_none_of_no_bracket {key : GoStr} (h : '[' ∉ key) :
    parseArrayDeclaration key = none := by
  rw [parseArrayDeclaration, parseArrayScan_none_of_no_bracket key false h]

/-- The line the encoder writes for a scalar field, as the decoder's line
grammar sees it: not skippable, trim-stable, splitting at its first colon
into the field name and the token. -/
theorem scalar_line_facts {name token : GoStr} (hname : fieldNameOK name)
    (htok : token ≠ []) (htrim : trimSpaceG token = token) :
    skippableLine (name ++ ':' :: ' ' :: token) = false
    ∧ trimSpaceG (name ++ ':' :: ' ' :: token) = name ++ ':' :: ' ' :: token
    ∧ splitFirstG ':' (name ++ ':' :: ' ' :: token) = some (name, ' ' :: token)
    ∧ trimSpaceG (' ' :: token) = token := by
  obtain ⟨hne, htr, hcolon, hbr, hnl, hhash, hdash⟩ := hname
  obtain ⟨c, name', hcn⟩ : ∃ c n', name = c :: n' := by
    cases name with
    | nil => exact absurd rfl hne
    | cons c n => exact ⟨c, n, rfl⟩
  obtain ⟨m, d, hmd⟩ : ∃ m d, token = m ++ [d] := by
    cases hs : token.reverse with
    | nil =>
      exact absurd (by simpa using congrArg List.reverse hs) htok
    | cons a t2 =>
      exact ⟨t2.reverse, a, by simpa using congrArg List.reverse hs⟩
  have hheadc : isSpaceChar c = false :=
    head_nonspace_of_trimSpaceG_eq htr c (by rw [hcn]; rfl)
  have hlastd : isSpaceChar d = false :=
    last_nonspace_of_trimSpaceG_eq htrim d (by rw [hmd]; exact getLast?_concat_one m d)
  have hlhead : (name ++ ':' :: ' ' :: token).head? = some c := by
    rw [hcn]; rfl
  have hllast : (name ++ ':' :: ' ' :: token).getLast? = some d := by
    rw [hmd, show name ++ ':' :: ' ' :: (m ++ [d]) = (name ++ ':' :: ' ' :: m) ++ [d] by simp]
    exact getLast?_concat_one _ d
  have hlinetrim : trimSpaceG (name ++ ':' :: ' ' :: token) = name ++ ':' :: ' ' :: token := by
    refine trimSpaceG_eq_self_of_safe (by rw [hcn]; simp) ?_ ?_
    · intro e he
      rw [hlhead] at he
      cases he
      exact hheadc
    · intro e he
      rw [hllast] at he
      cases he
      exact hlastd
  have hchash : c ≠ '#' := fun hcc => hhash (by rw [hcn, hcc]; rfl)
  have hskip : skippableLine (name ++ ':' :: ' ' :: token) = false := by
    refine skippable_false_of_trimmed (t := name' ++ ':' :: ' ' :: token) ?_ hchash
    rw [hlinetrim, hcn]
    rfl
  refine ⟨hskip, hlinetrim, splitFirstG_append name (' ' :: token) hcolon, ?_⟩
  rw [trimSpaceG_cons_space, htrim]

/-- The struct line loop stops, leaving the field values and cursor alone,
when nothing non-blank remains. -/
theorem decodeStructLoopD_stop (fuel : Nat) (fs : List (StructField × GoType))
    (vals : List DVal) (ei : Nat) (lines : List GoStr) (pos : Nat)
    (h : hasMoreD lines pos = false) :
    decodeStructLoopD (fuel + 1) fs vals ei lines pos = .ok (vals, pos) := by
  rw [decodeStructLoopD, if_pos (by simp [h])]

/-- Dispatch of decodeValue on a struct target when a non-blank line is at
the cursor. -/
theorem decodeValueD_struct (fuel : Nat) (fs : List (StructField × GoType))
    (vs0 : List DVal) (lines : List GoStr) (pos ei : Nat) (l : GoStr) (rest : List GoStr)
    (hdrop : lines.drop pos = l :: rest) (hskip : skippableLine l = false) :
    decodeValueD (fuel + 1) (.tstruct fs) (.dstruct vs0) lines pos ei
      = match decodeStructLoopD fuel fs vs0 ei lines pos with
        | .ok (vs, p) => .ok (.dstruct vs, p)
        | .error e => .error e := by
  have hpos1 := skipEmptyD_eq_self hdrop hskip
  have hmore := hasMoreD_true_of_current hdrop hskip
  rw [decodeValueD, hpos1, if_neg (by simp [hmore])]

/-- One iteration of the struct line loop on an encoder-produced scalar
field line: assign the token into the named field and advance one line. -/
theorem decodeStructLoopD_scalar_step
    (fuel : Nat) (fs : List (StructField × GoType)) (vals : List DVal)
    (ei pos : Nat) (lines : List GoStr) (name token : GoStr) (rest : List GoStr)
    (i : Nat) (w : DVal)
    (hdrop : lines.drop pos = (name ++ ':' :: ' ' :: token) :: rest)
    (hname : fieldNameOK name)
    (htok : token ≠ []) (htrim : trimSpaceG token = token)
    (hfield : fieldIndex fs name = some i)
    (hset : setPrimitiveValue (typeAt fs i) (vals.getD i (.dstr [])) token = .ok w)
    (hind : ei = 0 ∨ ei ≤ indentOfG (name ++ ':' :: ' ' :: token)) :
    decodeStructLoopD (fuel + 1) fs vals ei lines pos
      = decodeStructLoopD fuel fs (vals.set i w) ei lines (pos + 1) := by
  obtain ⟨hskip, hlinetrim, hsplit, hvtrim⟩ := scalar_line_facts hname htok htrim
  have hpos1 := skipEmptyD_eq_self hdrop hskip
  have hmore := hasMoreD_true_of_current hdrop hskip
  have hcur := currentLineD_of_drop hdrop
  obtain ⟨hkne, hktr, hcolon, hbr, hnl, hhash, hdash⟩ := hname
  have harr : parseArrayDeclaration name = none :=
    parseArrayDeclaration_none_of_no_bracket hbr
  rw [decodeStructLoopD]
  rw [if_neg (by simp [hmore]), hpos1]
  rw [if_neg (by simp [hmore]), hcur]
  rw [if_neg (by rintro ⟨h1, h2⟩; rcases hind with h | h; omega; omega)]
  rw [hlinetrim, hsplit]
  simp only [hktr, hvtrim, harr, Option.isSome_none, Bool.false_eq_true, if_false, hfield]
  rw [if_neg htok, hset]

/-- One iteration of the struct line loop on an encoder-produced array
header line: the declaration parses, the key before the bracket selects
the field, and decodeArrayField takes over past the header. -/
theorem decodeStructLoopD_array_step
    (fuel : Nat) (fs : List (StructField × GoType)) (vals : List DVal)
    (ei pos : Nat) (lines : List GoStr) (name bratail rawValue : GoStr)
    (rest : List GoStr) (len : Nat) (fns : List GoStr) (i : Nat)
    (hdrop : lines.drop pos = ((name ++ '[' :: bratail) ++ ':' :: rawValue) :: rest)
    (hline : trimSpaceG ((name ++ '[' :: bratail) ++ ':' :: rawValue)
      = (name ++ '[' :: bratail) ++ ':' :: rawValue)
    (hne : name ≠ []) (hnb : '[' ∉ name)
    (hcolon : ':' ∉ name ++ '[' :: bratail)
    (hkeytrim : trimSpaceG (name ++ '[' :: bratail) = name ++ '[' :: bratail)
    (hhash : name.head? ≠ some '#')
    (harr : parseArrayDeclaration (name ++ '[' :: bratail) = some (len, fns))
    (hfield : fieldIndex fs name = some i)
    (hind : ei = 0 ∨ ei ≤ indentOfG ((name ++ '[' :: bratail) ++ ':' :: rawValue)) :
    decodeStructLoopD (fuel + 1) fs vals ei lines pos
      = match decodeArrayFieldD fuel (typeAt fs i) (vals.getD i (.dstr []))
          len fns (trimSpaceG rawValue)
          (indentOfG ((name ++ '[' :: bratail) ++ ':' :: rawValue)) lines (pos + 1) with
        | .ok (v, p) => decodeStructLoopD fuel fs (vals.set i v) ei lines p
        | .error e => .error e := by
  obtain ⟨c, name', hcn⟩ : ∃ c n', name = c :: n' := by
    cases name with
    | nil => exact absurd rfl hne
    | cons c n => exact ⟨c, n, rfl⟩
  have hchash : c ≠ '#' := fun hcc => hhash (by rw [hcn, hcc]; rfl)
  have hskip : skippableLine ((name ++ '[' :: bratail) ++ ':' :: rawValue) = false := by
    refine skippable_false_of_trimmed
      (t := (name' ++ '[' :: bratail) ++ ':' :: rawValue) ?_ hchash
    rw [hline, hcn]
    rfl
  have hpos1 := skipEmptyD_eq_self hdrop hskip
  have hmore := hasMoreD_true_of_current hdrop hskip
  have hcur := currentLineD_of_drop hdrop
  have hextract : extractKeyFromArray (name ++ '[' :: bratail) = name :=
    extractKeyFromArray_header name bratail hnb hne
  rw [decodeStructLoopD]
  rw [if_neg (by simp [hmore]), hpos1]
  rw [if_neg (by simp [hmore]), hcur]
  rw [if_neg (by rintro ⟨h1, h2⟩; rcases hind with h | h; omega; omega)]
  rw [hline, splitFirstG_append (name ++ '[' :: bratail) rawValue hcolon]
  simp only [hkeytrim, harr, Option.isSome_some, if_true, hextract, hfield]

/-- decodeArrayField on a header with no declared columns and a non-empty
value text decodes the value inline. -/
theorem decodeArrayFieldD_inline (fuel : Nat) (et : GoType) (cur : DVal) (len : Nat)
    (value : GoStr) (indent : Nat) (lines : List GoStr) (pos : Nat) (hv : value ≠ []) :
    decodeArrayFieldD (fuel + 1) (.tslice et) cur len [] value indent lines pos
      = match decodeInlineD et value with
        | .ok xs => .ok (.dslice (some xs), pos)
        | .error e => .error e := by
  cases et <;> rw [decodeArrayFieldD, if_neg (by simp), if_pos hv] <;> simp

/-! ## Groundwork: the inline array round trip -/

theorem inlineParts_map (et : GoType) :
    ∀ xs : List EVal, (∀ v ∈ xs, scalarRT et v) →
      inlineParts et (xs.map writePrimitiveValue) = .ok (xs.map dOfScalar)
  | [], _ => rfl
  | v :: rest, h => by
    have hv := h v (List.mem_cons_self _ _)
    obtain ⟨hne, htrim, -⟩ := writePrim_token_props et v hv
    have ih := inlineParts_map et rest (fun x hx => h x (List.mem_cons_of_mem _ hx))
    rw [List.map_cons, inlineParts, htrim]
    rw [if_neg hne, setPrim_writePrim et v hv, ih]
    rfl

/-- Splitting with the inferred delimiter on a tab-free, pipe-free text is
the comma split. -/
theorem splitRowG_comma {s : GoStr} (ht : '\t' ∉ s) (hp : '|' ∉ s) :
    splitRowG s = splitOnCharG ',' s := by
  rw [splitRowG, if_neg (by simpa using ht), if_neg (by simpa using hp)]

/-- Decoding the encoder's comma-joined token list recovers the scalars in
order. -/
theorem decodeInlineD_join (et : GoType) (xs : List EVal) (hne : xs ≠ [])
    (hsafe : ∀ v ∈ xs, scalarRT et v) :
    decodeInlineD et (joinDelimG [','] (xs.map writePrimitiveValue))
      = .ok (xs.map dOfScalar) := by
  have htokfree : ∀ c, c ∈ [',', '|', '\t', '\n'] →
      ∀ t ∈ xs.map writePrimitiveValue, c ∉ t := by
    intro c hc t htm
    obtain ⟨v, hv, rfl⟩ := List.mem_map.1 htm
    obtain ⟨-, -, hfree⟩ := writePrim_token_props et v (hsafe v hv)
    intro habs
    have := not_mem_of_containsAnyG_false (c := c) hfree (by simpa using hc)
    exact this habs
  have hmapne : xs.map writePrimitiveValue ≠ [] := by
    cases xs with
    | nil => exact absurd rfl hne
    | cons a b => simp
  have hjt : '\t' ∉ joinDelimG [','] (xs.map writePrimitiveValue) :=
    not_mem_joinDelimG (by decide) (htokfree '\t' (by decide))
  have hjp : '|' ∉ joinDelimG [','] (xs.map writePrimitiveValue) :=
    not_mem_joinDelimG (by decide) (htokfree '|' (by decide))
  rw [decodeInlineD, splitRowG_comma hjt hjp,
    splitOnCharG_joinDelimG _ hmapne (htokfree ',' (by decide)),
    inlineParts_map et xs hsafe]

/-! ## Groundwork: the encoder on a single-field record and its inline slice -/

theorem marshal_single_field (opts : MarshalOptions) (f : StructField) (v : EVal)
    (hdash : getFieldName f ≠ "-".toList) :
    MarshalWithOptions (.estruct [(f, v)]) opts
      = match encodeValueE opts v 0 (getFieldName f) with
        | .ok s => .ok s
        | .error e => .error e := by
  rw [MarshalWithOptions]
  rw [show encodeValueE opts (.estruct [(f, v)]) 0 []
      = (match encodeStructFieldsE opts [(f, v)] 0 with
         | .ok body => .ok ((if ([] : GoStr) ≠ [] then
             spacesG (0 * opts.indent) ++ [] ++ ":\n".toList else []) ++ body)
         | .error e => .error e) from rfl]
  rw [encodeStructFieldsE]
  simp only [if_neg hdash]
  cases h : encodeValueE opts v 0 (getFieldName f) with
  | error e => rfl
  | ok s =>
    rw [show encodeStructFieldsE opts [] 0 = (.ok [] : Except GoErr GoStr) from rfl]
    simp

theorem encodeSliceE_prim (opts : MarshalOptions) (xs : List EVal) (key : GoStr)
    (hne : xs ≠ []) :
    encodeSliceE opts .kPrim xs 0 key
      = .ok (key ++ '[' :: natToDigitsG xs.length
          ++ ']' :: ':' :: ' ' :: joinDelimG opts.delimiter (xs.map writePrimitiveValue)
          ++ ['\n']) := by
  rw [encodeSliceE.eq_def]
  rw [if_neg (by simpa using hne)]
  rw [show encodePrimitiveSliceE opts xs 0 key
      = spacesG (0 * opts.indent) ++ key
          ++ ('[' :: natToDigitsG xs.length) ++ (']' :: ':' :: ' ' :: [])
          ++ joinDelimG opts.delimiter (xs.map writePrimitiveValue) ++ ['\n'] from rfl]
  simp [spacesG]

/-- Decoding the single header line the encoder writes for a non-empty
scalar slice field reconstructs every element in order. -/
theorem unmarshal_single_inline (f : StructField) (et : GoType) (xs : List EVal)
    (hname : fieldNameOK (getFieldName f)) (hne : xs ≠ [])
    (hsafe : ∀ v ∈ xs, scalarRT et v) :
    Unmarshal (getFieldName f ++ '[' :: natToDigitsG xs.length
        ++ ']' :: ':' :: ' ' :: joinDelimG [','] (xs.map writePrimitiveValue) ++ ['\n'])
      (.tstruct [(f, .tslice et)])
      = .ok (.dstruct [.dslice (some (xs.map dOfScalar))]) := by
  obtain ⟨hkne, hktr, hcolon, hbr, hnl, hhash, hdash⟩ := hname
  obtain ⟨v0, xs', hx0⟩ : ∃ v0 xs', xs = v0 :: xs' := by
    cases xs with
    | nil => exact absurd rfl hne
    | cons a b => exact ⟨a, b, rfl⟩
  obtain ⟨hdigval, hdigne, hdig⟩ := natToDigitsG_spec xs.length
  have htoks : ∀ t ∈ xs.map writePrimitiveValue,
      t ≠ [] ∧ trimSpaceG t = t ∧ containsAnyG t ",|\t\n".toList = false := by
    intro t ht
    obtain ⟨v, hv, rfl⟩ := List.mem_map.1 ht
    exact writePrim_token_props et v (hsafe v hv)
  have hmapne : xs.map writePrimitiveValue ≠ [] := by rw [hx0]; simp
  have ht0 : writePrimitiveValue v0 ≠ [] :=
    (htoks _ (by rw [hx0]; exact List.mem_map_of_mem _ (List.mem_cons_self _ _))).1
  have hjne : joinDelimG [','] (xs.map writePrimitiveValue) ≠ [] := by
    rw [hx0, List.map_cons]
    exact joinDelimG_ne_nil ht0
  have hjnl : '\n' ∉ joinDelimG [','] (xs.map writePrimitiveValue) :=
    not_mem_joinDelimG (by decide)
      (fun t ht => not_mem_of_containsAnyG_false (htoks t ht).2.2 (by decide))
  -- the joined token list is trim-stable
  have hjhead : ∀ c, (joinDelimG [','] (xs.map writePrimitiveValue)).head? = some c →
      isSpaceChar c = false := by
    intro c hc
    rw [hx0, List.map_cons, joinDelimG_head? ht0] at hc
    exact head_nonspace_of_trimSpaceG_eq
      (htoks _ (by rw [hx0]; exact List.mem_map_of_mem _ (List.mem_cons_self _ _))).2.1 c hc
  have hjlast : ∀ c, (joinDelimG [','] (xs.map writePrimitiveValue)).getLast? = some c →
      isSpaceChar c = false := by
    intro c hc
    obtain ⟨t, htm, hlast⟩ := @joinDelimG_getLast? [',']
      (xs.map writePrimitiveValue) hmapne (fun t htm => (htoks t htm).1)
    rw [hlast] at hc
    exact last_nonspace_of_trimSpaceG_eq (htoks t htm).2.1 c hc
  have htrimj : trimSpaceG (joinDelimG [','] (xs.map writePrimitiveValue))
      = joinDelimG [','] (xs.map writePrimitiveValue) :=
    trimSpaceG_eq_self_of_safe hjne hjhead hjlast
  -- the header key before the colon
  have hkeyne : getFieldName f ++ '[' :: (natToDigitsG xs.length ++ [']']) ≠ [] := by
    cases hgf : getFieldName f with
    | nil => exact absurd hgf hkne
    | cons c cs => simp
  have hkeyhead : ∀ c,
      (getFieldName f ++ '[' :: (natToDigitsG xs.length ++ [']'])).head? = some c →
      isSpaceChar c = false := by
    intro c hc
    cases hgf : getFieldName f with
    | nil => exact absurd hgf hkne
    | cons a cs =>
      rw [hgf] at hc
      have : a = c := by simpa using hc
      subst this
      exact head_nonspace_of_trimSpaceG_eq (hgf ▸ hktr) a List.head?_cons
  have hkeylast : ∀ c,
      (getFieldName f ++ '[' :: (natToDigitsG xs.length ++ [']'])).getLast? = some c →
      isSpaceChar c = false := by
    intro c hc
    rw [show getFieldName f ++ '[' :: (natToDigitsG xs.length ++ [']'])
        = (getFieldName f ++ '[' :: natToDigitsG xs.length) ++ [']'] by simp,
      getLast?_concat_one] at hc
    cases hc
    decide
  have hkeytrim : trimSpaceG (getFieldName f ++ '[' :: (natToDigitsG xs.length ++ [']']))
      = getFieldName f ++ '[' :: (natToDigitsG xs.length ++ [']']) :=
    trimSpaceG_eq_self_of_safe hkeyne hkeyhead hkeylast
  have hcolonkey : ':' ∉ getFieldName f ++ '[' :: (natToDigitsG xs.length ++ [']']) := by
    intro hmem
    simp only [List.mem_append, List.mem_cons] at hmem
    rcases hmem with h | h | h | h
    · exact hcolon h
    · exact absurd h.symm (by decide)
    · exact (digit_char_props (hdig _ h)).2.1 rfl
    · simp at h
  -- the full line
  have hline : trimSpaceG ((getFieldName f ++ '[' :: (natToDigitsG xs.length ++ [']']))
        ++ ':' :: (' ' :: joinDelimG [','] (xs.map writePrimitiveValue)))
      = (getFieldName f ++ '[' :: (natToDigitsG xs.length ++ [']']))
        ++ ':' :: (' ' :: joinDelimG [','] (xs.map writePrimitiveValue)) := by
    refine trimSpaceG_eq_self_of_safe (by simp) ?_ ?_
    · intro c hc
      refine hkeyhead c ?_
      obtain ⟨a, cs, hgf⟩ : ∃ a cs, getFieldName f = a :: cs := by
        cases hg : getFieldName f with
        | nil => exact absurd hg hkne
        | cons a cs => exact ⟨a, cs, rfl⟩
      rw [hgf] at hc ⊢
      simpa using hc
    · intro c hc
      refine hjlast c ?_
      rw [show (getFieldName f ++ '[' :: (natToDigitsG xs.length ++ [']']))
            ++ ':' :: (' ' :: joinDelimG [','] (xs.map writePrimitiveValue))
          = ((getFieldName f ++ '[' :: (natToDigitsG xs.length ++ [']'])) ++ [':', ' '])
            ++ joinDelimG [','] (xs.map writePrimitiveValue) by simp,
        getLast?_append_right hjne] at hc
      exact hc
  have hlinenl : '\n' ∉ (getFieldName f ++ '[' :: (natToDigitsG xs.length ++ [']']))
      ++ ':' :: (' ' :: joinDelimG [','] (xs.map writePrimitiveValue)) := by
    intro hmem
    simp only [List.mem_append, List.mem_cons] at hmem
    rcases hmem with (h | h | h | h) | h | h | h
    · exact hnl h
    · exact absurd h.symm (by decide)
    · exact (digit_char_props (hdig _ h)).2.2.2.2.2.2.1 rfl
    · simp at h
    · exact absurd h.symm (by decide)
    · exact absurd h.symm (by decide)
    · exact hjnl h
  have hsplitdoc : splitOnCharG '\n'
        (((getFieldName f ++ '[' :: (natToDigitsG xs.length ++ [']']))
          ++ ':' :: (' ' :: joinDelimG [','] (xs.map writePrimitiveValue))) ++ ['\n'])
      = [(getFieldName f ++ '[' :: (natToDigitsG xs.length ++ [']']))
          ++ ':' :: (' ' :: joinDelimG [','] (xs.map writePrimitiveValue)), []] := by
    have h := split_newline_doc [(getFieldName f ++ '[' :: (natToDigitsG xs.length ++ [']']))
        ++ ':' :: (' ' :: joinDelimG [','] (xs.map writePrimitiveValue))]
      (by
        intro l hl
        rw [List.mem_singleton] at hl
        subst hl
        exact hlinenl)
    simpa using h
  have hdoc : getFieldName f ++ '[' :: natToDigitsG xs.length
        ++ ']' :: ':' :: ' ' :: joinDelimG [','] (xs.map writePrimitiveValue) ++ ['\n']
      = ((getFieldName f ++ '[' :: (natToDigitsG xs.length ++ [']']))
          ++ ':' :: (' ' :: joinDelimG [','] (xs.map writePrimitiveValue))) ++ ['\n'] := by
    simp
  rw [hdoc, Unmarshal]
  simp only [hsplitdoc]
  have hskipline : skippableLine ((getFieldName f ++ '[' :: (natToDigitsG xs.length ++ [']'])) ++ ':' :: (' ' :: joinDelimG [','] (xs.map writePrimitiveValue))) = false := by
    obtain ⟨a, cs, hgf⟩ : ∃ a cs, getFieldName f = a :: cs := by
      cases hg : getFieldName f with
      | nil => exact absurd hg hkne
      | cons a cs => exact ⟨a, cs, rfl⟩
    have hahash : a ≠ '#' := fun hh => hhash (by rw [hgf, hh]; rfl)
    refine skippable_false_of_trimmed
      (t := cs ++ '[' :: (natToDigitsG xs.length ++ [']'])
        ++ ':' :: (' ' :: joinDelimG [','] (xs.map writePrimitiveValue))) ?_ hahash
    rw [hline, hgf]
    simp
  have hfield : fieldIndex [(f, GoType.tslice et)] (getFieldName f) = some 0 := by
    have h := fieldIndex_at [] f (GoType.tslice et) [] hdash (by simp)
    simpa using h
  have hdrop0 : ([(getFieldName f ++ '[' :: (natToDigitsG xs.length ++ [']'])) ++ ':' :: (' ' :: joinDelimG [','] (xs.map writePrimitiveValue)), []] : List GoStr).drop 0
      = ((getFieldName f ++ '[' :: (natToDigitsG xs.length ++ [']'])) ++ ':' :: (' ' :: joinDelimG [','] (xs.map writePrimitiveValue))) :: [[]] := rfl
  rw [show ([(getFieldName f ++ '[' :: (natToDigitsG xs.length ++ [']'])) ++ ':' :: (' ' :: joinDelimG [','] (xs.map writePrimitiveValue)), []] : List GoStr).length = 2 from rfl]
  rw [show (2 + 2) * (typeDepthG (GoType.tstruct [(f, GoType.tslice et)]) + 4)
      = 4 * typeDepthG (GoType.tstruct [(f, GoType.tslice et)]) + 13 + 1 + 1 + 1 from by ring]
  rw [show zeroVal (GoType.tstruct [(f, GoType.tslice et)])
      = DVal.dstruct (zeroFields [(f, GoType.tslice et)]) from rfl]
  rw [decodeValueD_struct _ _ _ _ _ _ _ _ hdrop0 hskipline]
  rw [decodeStructLoopD_array_step _ _ _ _ _ _ _ _ _ _ _ _ _ hdrop0 hline hkne hbr
    hcolonkey hkeytrim hhash (parseArrayDeclaration_inline (getFieldName f) xs.length hbr hkne)
    hfield (Or.inl rfl)]
  rw [show typeAt [(f, GoType.tslice et)] 0 = GoType.tslice et from rfl]
  rw [trimSpaceG_cons_space, htrimj]
  rw [decodeArrayFieldD_inline _ et _ _ _ _ _ _ hjne]
  rw [decodeInlineD_join et xs hne hsafe]
  rfl
/-! ## Groundwork: the quoted-token round trip of the flat-record path -/

theorem mem_escapeQuotesG {c : Char} :
    ∀ {s : GoStr}, c ∈ escapeQuotesG s → c = '\\' ∨ c = '"' ∨ c ∈ s
  | [], h => absurd h (List.not_mem_nil _)
  | a :: rest, h => by
    rw [escapeQuotesG] at h
    by_cases ha : a = '"'
    · rw [if_pos ha] at h
      rcases List.mem_cons.1 h with h2 | h2
      · exact Or.inl h2
      · rcases List.mem_cons.1 h2 with h3 | h3
        · exact Or.inr (Or.inl h3)
        · rcases mem_escapeQuotesG h3 with h4 | h4 | h4
          · exact Or.inl h4
          · exact Or.inr (Or.inl h4)
          · exact Or.inr (Or.inr (List.mem_cons_of_mem _ h4))
    · rw [if_neg ha] at h
      rcases List.mem_cons.1 h with h2 | h2
      · exact Or.inr (Or.inr (h2 ▸ List.mem_cons_self _ _))
      · rcases mem_escapeQuotesG h2 with h4 | h4 | h4
        · exact Or.inl h4
        · exact Or.inr (Or.inl h4)
        · exact Or.inr (Or.inr (List.mem_cons_of_mem _ h4))

theorem containsAnyG_mono_flat {s : GoStr}
    (h : containsAnyG s [',', '|', '\t'] = true) :
    containsAnyG s ",|\t\n".toList = true := by
  simp only [containsAnyG, List.any_eq_true] at h ⊢
  obtain ⟨c, hc, hmem⟩ := h
  refine ⟨c, hc, ?_⟩
  simp only [List.contains, List.elem_eq_true_of_mem, List.mem_cons] at hmem ⊢
  have : c = ',' ∨ c = '|' ∨ c = '\t' := by
    simpa using (List.mem_of_elem_eq_true hmem)
  refine List.elem_eq_true_of_mem ?_
  rcases this with h1 | h1 | h1 <;> simp [h1]

/-- The rendered token of a flat-round-trip-safe scalar: non-empty,
trim-stable, and free of newlines (it may contain the delimiters, inside
quotes). -/
theorem writePrim_token_props_flat (t : GoType) (v : EVal) (h : flatScalarRT t v) :
    writePrimitiveValue v ≠ [] ∧
      trimSpaceG (writePrimitiveValue v) = writePrimitiveValue v ∧
      '\n' ∉ writePrimitiveValue v := by
  cases t <;> cases v <;> try exact False.elim h
  case tstr.estr s =>
    obtain ⟨hnl, hrest⟩ := h
    by_cases hq : containsAnyG s ",|\t\n".toList = true
    · have hq2 : containsAnyG s [',', '|', '\t', '\n'] = true := by simpa using hq
      have hw : writePrimitiveValue (.estr s) = ('"' :: escapeQuotesG s) ++ ['"'] := by
        simp [writePrimitiveValue, hq2]
      rw [hw]
      refine ⟨by simp, ?_, ?_⟩
      · refine trimSpaceG_eq_self_of_safe (by simp) ?_ ?_
        · intro c hc
          have hcq : '"' = c := by simpa using hc
          rw [← hcq]
          decide
        · intro c hc
          rw [getLast?_concat_one] at hc
          have hcq : '"' = c := by simpa using hc
          rw [← hcq]
          decide
      · intro hmem
        simp only [List.cons_append, List.mem_cons, List.mem_append,
          List.mem_singleton] at hmem
        rcases hmem with h1 | h1 | h1
        · exact absurd h1.symm (by decide)
        · rcases mem_escapeQuotesG h1 with h2 | h2 | h2
          · exact absurd h2.symm (by decide)
          · exact absurd h2.symm (by decide)
          · exact hnl h2
        · exact absurd h1.symm (by decide)
    · have hfree2 : containsAnyG s [',', '|', '\t', '\n'] = false := by
        cases hx : containsAnyG s [',', '|', '\t', '\n']
        · rfl
        · exact absurd (by simpa using hx) hq
      have hw : writePrimitiveValue (.estr s) = s := by
        simp [writePrimitiveValue, hfree2]
      rcases hrest with hdel | ⟨hne, htr, -⟩
      · exact absurd (containsAnyG_mono_flat hdel) hq
      · rw [hw]
        exact ⟨hne, htr, fun hmem => hnl hmem⟩
  case tint.eint i =>
    obtain ⟨h1, h2, h3⟩ := writePrim_token_props .tint (.eint i) h
    refine ⟨h1, h2, fun hmem => ?_⟩
    exact not_mem_of_containsAnyG_false h3 (by decide) hmem
  case tuint.euint n =>
    obtain ⟨h1, h2, h3⟩ := writePrim_token_props .tuint (.euint n) h
    refine ⟨h1, h2, fun hmem => ?_⟩
    exact not_mem_of_containsAnyG_false h3 (by decide) hmem
  case tbool.ebool b =>
    cases b <;> exact ⟨by decide, by decide, by decide⟩

/-- The token of a flat-round-trip-safe scalar decodes back to exactly the
value it was rendered from: a quoted token through the quote-strip and
unescape of normalizeToken, a plain token unchanged. -/
theorem setPrim_writePrim_flat (t : GoType) (v : EVal) (h : flatScalarRT t v) (cur : DVal) :
    setPrimitiveValue t cur (writePrimitiveValue v) = .ok (dOfScalar v) := by
  cases t <;> cases v <;> try exact False.elim h
  case tstr.estr s =>
    by_cases hq : containsAnyG s ",|\t\n".toList = true
    · have hq2 : containsAnyG s [',', '|', '\t', '\n'] = true := by simpa using hq
      have hw : writePrimitiveValue (.estr s) = ('"' :: escapeQuotesG s) ++ ['"'] := by
        simp [writePrimitiveValue, hq2]
      rw [hw, setPrimitiveValue_tstr, normalizeToken_quoted]
      rfl
    · have hfree2 : containsAnyG s [',', '|', '\t', '\n'] = false := by
        cases hx : containsAnyG s [',', '|', '\t', '\n']
        · rfl
        · exact absurd (by simpa using hx) hq
      have hw : writePrimitiveValue (.estr s) = s := by
        simp [writePrimitiveValue, hfree2]
      rcases h.2 with hdel | ⟨hne, htr, hnq⟩
      · exact absurd (containsAnyG_mono_flat hdel) hq
      · rw [hw, setPrimitiveValue_tstr, normalizeToken_plain htr hnq]
        rfl
  case tint.eint i => exact setPrim_writePrim .tint (.eint i) h cur
  case tuint.euint n => exact setPrim_writePrim .tuint (.euint n) h cur
  case tbool.ebool b => exact setPrim_writePrim .tbool (.ebool b) h cur

theorem isScalarE_of_flatScalarRT {t : GoType} {v : EVal} (h : flatScalarRT t v) :
    isScalarE v := by
  cases t <;> cases v <;> first | exact False.elim h | trivial

/-! ## Groundwork: the flat-record line loop -/

theorem zeroFields_length : ∀ fs : List (StructField × GoType), (zeroFields fs).length = fs.length
  | [] => rfl
  | (f, t) :: rest => by rw [zeroFields, List.length_cons, List.length_cons, zeroFields_length rest]

theorem enumQuads_length (k : Nat) :
    ∀ l : List (StructField × GoType × EVal), (enumQuads k l).length = l.length := by
  intro l
  induction l generalizing k with
  | nil => rfl
  | cons p rest ih => rw [enumQuads, List.length_cons, List.length_cons, ih]

theorem enumQuads_map_snd {α : Type} (f : StructField × GoType × EVal → α) :
    ∀ (k : Nat) (l : List (StructField × GoType × EVal)),
      (enumQuads k l).map (fun q => f q.2) = l.map f
  | _, [] => rfl
  | k, p :: rest => by
    rw [enumQuads, List.map_cons, List.map_cons, enumQuads_map_snd f (k + 1) rest]

theorem enumQuads_mem :
    ∀ {k : Nat} {l : List (StructField × GoType × EVal)}
      {q : Nat × StructField × GoType × EVal}, q ∈ enumQuads k l →
      ∃ pre post, l = pre ++ q.2 :: post ∧ q.1 = k + pre.length := by
  intro k l
  induction l generalizing k with
  | nil => intro q hq; exact absurd hq (List.not_mem_nil _)
  | cons p rest ih =>
    intro q hq
    rw [enumQuads] at hq
    rcases List.mem_cons.1 hq with hq | hq
    · exact ⟨[], rest, by simp [hq], by simp [hq]⟩
    · obtain ⟨pre, post, h1, h2⟩ := ih hq
      exact ⟨p :: pre, post, by rw [List.cons_append, h1], by rw [h2, List.length_cons]; omega⟩

theorem enumQuads_fst_bounds :
    ∀ {k : Nat} {l : List (StructField × GoType × EVal)}
      {q : Nat × StructField × GoType × EVal}, q ∈ enumQuads k l →
      k ≤ q.1 ∧ q.1 < k + l.length := by
  intro k l
  induction l generalizing k with
  | nil => intro q hq; exact absurd hq (List.not_mem_nil _)
  | cons p rest ih =>
    intro q hq
    rw [enumQuads] at hq
    rcases List.mem_cons.1 hq with hq | hq
    · rw [hq]
      simp
    · obtain ⟨h1, h2⟩ := ih hq
      rw [List.length_cons]
      omega

theorem enumQuads_fst_nodup :
    ∀ (k : Nat) (l : List (StructField × GoType × EVal)),
      ((enumQuads k l).map (fun q => q.1)).Nodup
  | _, [] => List.nodup_nil
  | k, p :: rest => by
    rw [enumQuads, List.map_cons, List.nodup_cons]
    refine ⟨?_, enumQuads_fst_nodup (k + 1) rest⟩
    intro hmem
    obtain ⟨q, hq, hq1⟩ := List.mem_map.1 hmem
    have := (enumQuads_fst_bounds hq).1
    omega

theorem enumQuads_get :
    ∀ (k : Nat) (l : List (StructField × GoType × EVal)) (j : Nat) (h : j < l.length),
      (k + j, l[j]) ∈ enumQuads k l
  | k, p :: rest, 0, h => by
    rw [enumQuads]
    simp
  | k, p :: rest, j + 1, h => by
    have hj : j < rest.length := by simpa using h
    rw [enumQuads]
    refine List.mem_cons_of_mem _ ?_
    have ih := enumQuads_get (k + 1) rest j hj
    have heq : (k + 1 + j, rest[j]) = (k + (j + 1), (p :: rest)[j + 1]) := by
      refine Prod.ext ?_ ?_
      · simp
        omega
      · simp
    rw [heq] at ih
    exact ih

/-- The sequential assignment over the enumerated record: starting from the
zero fields, exactly the decoded scalars remain. -/
theorem setScalars_enum (fields : List (StructField × GoType × EVal)) :
    setScalars (zeroFields (fields.map fun p => (p.1, p.2.1)))
        ((enumQuads 0 fields).map fun q => (q.1, q.2.2.2))
      = fields.map fun p => dOfScalar p.2.2 := by
  have hnodup : (((enumQuads 0 fields).map fun q => (q.1, q.2.2.2)).map Prod.fst).Nodup := by
    rw [List.map_map]
    exact enumQuads_fst_nodup 0 fields
  have hlen0 : (zeroFields (fields.map fun p => (p.1, p.2.1))).length = fields.length := by
    rw [zeroFields_length, List.length_map]
  refine List.ext_getElem? ?_
  intro j
  by_cases hj : j < fields.length
  · have hmem : (j, fields[j].2.2) ∈ (enumQuads 0 fields).map fun q => (q.1, q.2.2.2) := by
      have h := enumQuads_get 0 fields j hj
      refine List.mem_map.2 ⟨(0 + j, fields[j]), h, ?_⟩
      simp
    rw [setScalars_getElem_mem _ _ hnodup hmem (by omega)]
    rw [List.getElem?_map, List.getElem?_eq_getElem hj]
    rfl
  · have hnot : j ∉ (((enumQuads 0 fields).map fun q => (q.1, q.2.2.2)).map Prod.fst) := by
      intro hmem
      rw [List.map_map] at hmem
      obtain ⟨q, hq, hq1⟩ := List.mem_map.1 hmem
      have := (enumQuads_fst_bounds hq).2
      simp only [Function.comp] at hq1
      omega
    rw [setScalars_getElem_not_mem _ _ hnot, List.getElem?_eq_none (by omega),
      List.getElem?_eq_none (by rw [List.length_map]; omega)]

/-- The struct line loop on the remaining encoder-written scalar lines of a
flat record: each line assigns its field, and the loop stops at the blank
tail line, having advanced past every consumed line. -/
theorem decodeStructLoopD_scalars (fsAll : List (StructField × GoType)) :
    ∀ (rem : List (Nat × StructField × GoType × EVal)) (vals : List DVal)
      (fuel pos : Nat) (lines : List GoStr),
      lines.drop pos
        = (rem.map fun q => getFieldName q.2.1 ++ ':' :: ' ' :: writePrimitiveValue q.2.2.2)
            ++ [[]] →
      (∀ q ∈ rem, fieldIndex fsAll (getFieldName q.2.1) = some q.1
        ∧ typeAt fsAll q.1 = q.2.2.1
        ∧ fieldNameOK (getFieldName q.2.1)
        ∧ flatScalarRT q.2.2.1 q.2.2.2) →
      decodeStructLoopD (fuel + rem.length + 1) fsAll vals 0 lines pos
        = .ok (setScalars vals (rem.map fun q => (q.1, q.2.2.2)), pos + rem.length)
  | [], vals, fuel, pos, lines, hdrop, _ => by
    have hmore : hasMoreD lines pos = false := by
      refine hasMoreD_false_of_all ?_
      intro l hl
      rw [hdrop] at hl
      simp only [List.map_nil, List.nil_append, List.mem_singleton] at hl
      rw [hl]
      exact skippableLine_nil
    rw [show ([] : List (Nat × StructField × GoType × EVal)).length = 0 from rfl]
    rw [decodeStructLoopD_stop (fuel + 0) fsAll vals 0 lines pos hmore]
    rfl
  | q :: rem2, vals, fuel, pos, lines, hdrop, hfacts => by
    obtain ⟨hfi, hty, hok, hsafe⟩ := hfacts q (List.mem_cons_self _ _)
    obtain ⟨htne, httr, -⟩ := writePrim_token_props_flat q.2.2.1 q.2.2.2 hsafe
    rw [List.map_cons, List.cons_append] at hdrop
    have hset : setPrimitiveValue (typeAt fsAll q.1) (vals.getD q.1 (.dstr []))
        (writePrimitiveValue q.2.2.2) = .ok (dOfScalar q.2.2.2) := by
      rw [hty]
      exact setPrim_writePrim_flat q.2.2.1 q.2.2.2 hsafe _
    rw [show (q :: rem2).length = rem2.length + 1 from rfl]
    rw [show fuel + (rem2.length + 1) + 1 = (fuel + rem2.length + 1) + 1 from rfl]
    rw [decodeStructLoopD_scalar_step (fuel + rem2.length + 1) fsAll vals 0 pos lines
      (getFieldName q.2.1) (writePrimitiveValue q.2.2.2) _ q.1 (dOfScalar q.2.2.2)
      hdrop hok htne httr hfi hset (Or.inl rfl)]
    rw [decodeStructLoopD_scalars fsAll rem2 (vals.set q.1 (dOfScalar q.2.2.2)) fuel (pos + 1)
      lines (drop_succ_of_drop hdrop)
      (fun q2 hq2 => hfacts q2 (List.mem_cons_of_mem _ hq2))]
    rw [show pos + 1 + rem2.length = pos + (rem2.length + 1) from by omega]
    rfl

/-! ## Groundwork: the tabular header and rows -/

theorem trimSpaceG_spaces_append (m : Nat) (s : GoStr) :
    trimSpaceG (spacesG m ++ s) = trimSpaceG s := by
  induction m with
  | zero => rfl
  | succ k ih =>
    rw [show spacesG (k + 1) = ' ' :: spacesG k from List.replicate_succ ' ' k]
    rw [List.cons_append, trimSpaceG_cons_space, ih]

/-- A delimiter-joined list of non-empty trim-stable tokens is itself
trim-stable. -/
theorem joinDelimG_trim_stable {sep : GoStr} (toks : List GoStr) (hne : toks ≠ [])
    (htoks : ∀ t ∈ toks, t ≠ [] ∧ trimSpaceG t = t) :
    trimSpaceG (joinDelimG sep toks) = joinDelimG sep toks := by
  obtain ⟨t0, ts, rfl⟩ : ∃ t0 ts, toks = t0 :: ts := by
    cases toks with
    | nil => exact absurd rfl hne
    | cons a b => exact ⟨a, b, rfl⟩
  refine trimSpaceG_eq_self_of_safe (joinDelimG_ne_nil (htoks t0 (by simp)).1) ?_ ?_
  · intro c hc
    rw [joinDelimG_head? (htoks t0 (by simp)).1] at hc
    exact head_nonspace_of_trimSpaceG_eq (htoks t0 (by simp)).2 c hc
  · intro c hc
    obtain ⟨t, htm, hlast⟩ := joinDelimG_getLast? (by simp) (fun t htm => (htoks t htm).1)
    rw [hlast] at hc
    exact last_nonspace_of_trimSpaceG_eq (htoks t htm).2 c hc

theorem structFieldNamesOf_zip :
    ∀ (fs : List StructField) (vs : List EVal), fs.length = vs.length →
      (∀ f ∈ fs, getFieldName f ≠ "-".toList) →
      structFieldNamesOf (fs.zip vs) = fs.map getFieldName
  | [], [], _, _ => rfl
  | [], v :: vs, h, _ => by simp at h
  | f :: fs, [], h, _ => by simp at h
  | f :: fs, v :: vs, h, hd => by
    rw [List.zip_cons_cons]
    simp only [structFieldNamesOf]
    rw [if_neg (hd f (List.mem_cons_self _ _))]
    rw [structFieldNamesOf_zip fs vs (by simpa using h)
      (fun g hg => hd g (List.mem_cons_of_mem _ hg))]
    rfl

theorem rowFieldsE_rest (opts : MarshalOptions) :
    ∀ (pairs : List (StructField × EVal)), pairs ≠ [] →
      (∀ p ∈ pairs, getFieldName p.1 ≠ "-".toList) →
      rowFieldsE opts pairs false
        = opts.delimiter ++ joinDelimG opts.delimiter (pairs.map fun p => writePrimitiveValue p.2)
  | [], hne, _ => absurd rfl hne
  | (f, v) :: rest, _, hd => by
    rw [rowFieldsE, if_neg (hd (f, v) (List.mem_cons_self _ _))]
    cases rest with
    | nil => simp [rowFieldsE, joinDelimG]
    | cons u us =>
      rw [rowFieldsE_rest opts (u :: us) (by simp)
        (fun p hp => hd p (List.mem_cons_of_mem _ hp))]
      simp only [List.map_cons]
      rw [joinDelimG_cons_cons]
      simp [List.append_assoc]

/-- writeStructAsRow on a dash-free scalar record is the delimiter join of
its rendered field values. -/
theorem rowFieldsE_first (opts : MarshalOptions) :
    ∀ (pairs : List (StructField × EVal)), (∀ p ∈ pairs, getFieldName p.1 ≠ "-".toList) →
      rowFieldsE opts pairs true
        = joinDelimG opts.delimiter (pairs.map fun p => writePrimitiveValue p.2)
  | [], _ => rfl
  | (f, v) :: rest, hd => by
    rw [rowFieldsE, if_neg (hd (f, v) (List.mem_cons_self _ _))]
    cases rest with
    | nil => simp [rowFieldsE, joinDelimG]
    | cons u us =>
      rw [rowFieldsE_rest opts (u :: us) (by simp)
        (fun p hp => hd p (List.mem_cons_of_mem _ hp))]
      simp only [List.map_cons]
      rw [joinDelimG_cons_cons]
      simp [List.append_assoc]

theorem isUniformStructSlice_scalar {pairs : List (StructField × EVal)} (xs2 : List EVal)
    (hsc : ∀ p ∈ pairs, isScalarE p.2) :
    isUniformStructSlice (.estruct pairs :: xs2) = true := by
  simp only [isUniformStructSlice, List.all_eq_true]
  intro p hp
  have h := hsc p hp
  cases hv : p.2 <;> rw [hv] at h <;> first
    | exact False.elim h
    | simp [isCompositeKind]

theorem fieldIndexTab_none_of_not_mem :
    ∀ (fs : List (StructField × GoType)) (key : GoStr),
      key ∉ fs.map (fun p => getFieldName p.1) → fieldIndexTab fs key = none
  | [], _, _ => rfl
  | (f, t) :: rest, key, h => by
    rw [fieldIndexTab,
      fieldIndexTab_none_of_not_mem rest key (fun hc => h (List.mem_cons_of_mem _ hc))]
    rw [if_neg]
    intro hh
    exact h (by simp [hh])

theorem fieldIndexTab_at :
    ∀ (pre : List (StructField × GoType)) (f : StructField) (t : GoType)
      (post : List (StructField × GoType)),
      getFieldName f ∉ post.map (fun p => getFieldName p.1) →
      fieldIndexTab (pre ++ (f, t) :: post) (getFieldName f) = some pre.length
  | [], f, t, post, hnot => by
    rw [List.nil_append, fieldIndexTab, fieldIndexTab_none_of_not_mem post _ hnot,
      if_pos rfl]
    rfl
  | (g, u) :: pre, f, t, post, hnot => by
    rw [List.cons_append, fieldIndexTab, fieldIndexTab_at pre f t post hnot]
    rfl

/-- The bracket tail of an encoder-produced tabular header: digits, the
closing bracket, then the brace-wrapped column text. -/
theorem bracketTail_braced (N : Nat) (cs : GoStr) (hne : cs ≠ []) (hnb : '\x7d' ∉ cs) :
    bracketTail (natToDigitsG N ++ ']' :: '\x7b' :: (cs ++ ['\x7d']))
      = some (N, some cs) := by
  obtain ⟨hval, hdne, hdig⟩ := natToDigitsG_spec N
  obtain ⟨htake, hdrop⟩ := takeWhile_append_stop ('\x7b' :: (cs ++ ['\x7d']))
    (fun c hc => hdig c hc) (show isDigitG ']' = false by decide)
  rw [bracketTail]
  simp only [htake, hdrop]
  rw [if_neg (by simpa using hdne)]
  obtain ⟨htake2, hdrop2⟩ := takeWhile_append_stop ([] : GoStr)
    (show ∀ c ∈ cs, (decide ¬ c = '\x7d') = true from by
      intro c hc
      simp only [decide_eq_true_eq]
      exact fun hh => hnb (hh ▸ hc))
    (show (decide ¬ ('\x7d' : Char) = '\x7d') = false from by decide)
  simp only [htake2, hdrop2]
  rw [if_pos ⟨hne, by simp⟩]
  simp [hval]

/-- The array declaration of an encoder-produced tabular header: the
declared length and the column names. -/
theorem parseArrayDeclaration_braced (name : GoStr) (N : Nat) (ns : List GoStr)
    (hnb : '[' ∉ name) (hne : name ≠ [])
    (hns : ns ≠ [])
    (hnames : ∀ n ∈ ns, n ≠ [] ∧ trimSpaceG n = n ∧ ',' ∉ n ∧ '\x7d' ∉ n) :
    parseArrayDeclaration (name ++ '[' :: (natToDigitsG N
        ++ ']' :: '\x7b' :: (joinDelimG [','] ns ++ ['\x7d'])))
      = some (N, ns) := by
  have hjne : joinDelimG [','] ns ≠ [] := by
    obtain ⟨n0, ns2, rfl⟩ : ∃ n0 ns2, ns = n0 :: ns2 := by
      cases ns with
      | nil => exact absurd rfl hns
      | cons a b => exact ⟨a, b, rfl⟩
    exact joinDelimG_ne_nil (hnames n0 (by simp)).1
  have hjnb : '\x7d' ∉ joinDelimG [','] ns :=
    not_mem_joinDelimG (by decide) (fun n hn => (hnames n hn).2.2.2)
  rw [parseArrayDeclaration,
    parseArrayScan_header (bracketTail_braced N (joinDelimG [','] ns) hjne hjnb)
      name false hnb (Or.inl hne)]
  show some (N, (splitOnCharG ',' (joinDelimG [','] ns)).map trimSpaceG) = some (N, ns)
  rw [splitOnCharG_joinDelimG ns hns (fun n hn => (hnames n hn).2.2.1)]
  have hmapid : ns.map trimSpaceG = ns := by
    conv_rhs => rw [← List.map_id ns]
    exact List.map_congr_left (fun n hn => (hnames n hn).2.1)
  rw [hmapid]

/-- decodeArrayField with declared column names on a struct-slice target
runs the tabular row reader. -/
theorem decodeArrayFieldD_tabular (fuel : Nat) (efs : List (StructField × GoType))
    (cur : DVal) (len : Nat) (ns : List GoStr) (value : GoStr) (indent : Nat)
    (lines : List GoStr) (pos : Nat) (hns : ns ≠ []) :
    decodeArrayFieldD (fuel + 1) (.tslice (.tstruct efs)) cur len ns value indent lines pos
      = match decodeTabularRows efs ns indent lines len pos with
        | .ok (rows, p) => .ok (.dslice (some rows), p)
        | .error e => .error e := by
  rw [decodeArrayFieldD, if_pos hns]

/-- The column-assignment loop on a row whose tokens are rendered scalars for
the declared columns: each column sets its field. -/
theorem tabularAssign_cols (efs : List (StructField × GoType)) :
    ∀ (colspec : List ((Nat × GoStr × GoType) × EVal)) (vals : List DVal) (j : Nat)
      (values : List GoStr),
      values.drop j = colspec.map (fun c => writePrimitiveValue c.2) →
      (∀ c ∈ colspec, fieldIndexTab efs c.1.2.1 = some c.1.1
        ∧ typeAt efs c.1.1 = c.1.2.2 ∧ scalarRT c.1.2.2 c.2) →
      tabularAssign efs vals values j (colspec.map fun c => c.1.2.1)
        = .ok (setScalars vals (colspec.map fun c => (c.1.1, c.2)))
  | [], vals, j, values, _, _ => rfl
  | c :: rest, vals, j, values, hdropv, hfacts => by
    obtain ⟨hfi, hty, hsc⟩ := hfacts c (List.mem_cons_self _ _)
    obtain ⟨htne, httr, -⟩ := writePrim_token_props c.1.2.2 c.2 hsc
    have hget : values.get? j = some (writePrimitiveValue c.2) := by
      rw [List.get?_eq_getElem?, ← List.head?_drop, hdropv]
      rfl
    have hdropv2 : values.drop (j + 1) = rest.map (fun c => writePrimitiveValue c.2) := by
      rw [← List.drop_drop, hdropv]
      rfl
    rw [List.map_cons, tabularAssign]
    simp only [hget, hfi]
    rw [httr, hty, setPrim_writePrim c.1.2.2 c.2 hsc _]
    simp only [tabularAssign_cols efs rest (vals.set c.1.1 (dOfScalar c.2)) (j + 1) values hdropv2
      (fun c2 hc2 => hfacts c2 (List.mem_cons_of_mem _ hc2))]
    rfl

/-- The row loop on encoder-shaped row lines: each line builds one record
by name-directed column assignment, and the loop consumes exactly the
declared number of lines. -/
theorem decodeTabularRows_build (efs : List (StructField × GoType))
    (cols : List (Nat × GoStr × GoType))
    (hfacts : ∀ c ∈ cols, fieldIndexTab efs c.2.1 = some c.1 ∧ typeAt efs c.1 = c.2.2)
    (indent : Nat) (hcols : cols ≠ []) :
    ∀ (rows : List (List EVal)) (lines : List GoStr) (pos : Nat),
      lines.drop pos = (rows.map fun r =>
          spacesG 2 ++ joinDelimG [','] (r.map writePrimitiveValue)) ++ [[]] →
      (∀ r ∈ rows, r.length = cols.length
        ∧ (∀ cv ∈ cols.zip r, scalarRT cv.1.2.2 cv.2)
        ∧ (∀ ch, (joinDelimG [','] (r.map writePrimitiveValue)).head? = some ch → ch ≠ '#')) →
      decodeTabularRows efs (cols.map fun c => c.2.1) indent lines rows.length pos
        = .ok (rows.map fun r =>
            .dstruct (setScalars (zeroFields efs) ((cols.zip r).map fun cv => (cv.1.1, cv.2))),
          pos + rows.length)
  | [], lines, pos, _, _ => rfl
  | r :: rows2, lines, pos, hdrop, hrowfacts => by
    obtain ⟨hrlen, hsafe, hhash⟩ := hrowfacts r (List.mem_cons_self _ _)
    have hrne : r ≠ [] := by
      intro hh
      rw [hh] at hrlen
      exact hcols (List.length_eq_zero.1 hrlen.symm)
    have hmapne : r.map writePrimitiveValue ≠ [] := by
      cases r with
      | nil => exact absurd rfl hrne
      | cons a b => simp
    have htokprops : ∀ t ∈ r.map writePrimitiveValue,
        t ≠ [] ∧ trimSpaceG t = t ∧ containsAnyG t ",|\t\n".toList = false := by
      intro t ht
      obtain ⟨v, hv, rfl⟩ := List.mem_map.1 ht
      have hv2 : v ∈ (cols.zip r).map Prod.snd := by
        rw [List.map_snd_zip cols r (le_of_eq hrlen)]
        exact hv
      obtain ⟨cv, hcv, hcv2⟩ := List.mem_map.1 hv2
      rw [← hcv2]
      exact writePrim_token_props cv.1.2.2 cv.2 (hsafe cv hcv)
    have htrimj : trimSpaceG (joinDelimG [','] (r.map writePrimitiveValue))
        = joinDelimG [','] (r.map writePrimitiveValue) :=
      joinDelimG_trim_stable _ hmapne
        (fun t ht => ⟨(htokprops t ht).1, (htokprops t ht).2.1⟩)
    have hjoinne : joinDelimG [','] (r.map writePrimitiveValue) ≠ [] := by
      obtain ⟨t0, ts, hts⟩ : ∃ t0 ts, r.map writePrimitiveValue = t0 :: ts := by
        cases hx : r.map writePrimitiveValue with
        | nil => exact absurd hx hmapne
        | cons a b => exact ⟨a, b, rfl⟩
      rw [hts]
      exact joinDelimG_ne_nil (htokprops t0 (by rw [hts]; exact List.mem_cons_self _ _)).1
    have hlinetrim : trimSpaceG (spacesG 2 ++ joinDelimG [','] (r.map writePrimitiveValue))
        = joinDelimG [','] (r.map writePrimitiveValue) := by
      rw [trimSpaceG_spaces_append, htrimj]
    obtain ⟨ch, tail, hchj⟩ : ∃ ch tail,
        joinDelimG [','] (r.map writePrimitiveValue) = ch :: tail := by
      cases hx : joinDelimG [','] (r.map writePrimitiveValue) with
      | nil => exact absurd hx hjoinne
      | cons a b => exact ⟨a, b, rfl⟩
    have hch : ch ≠ '#' := hhash ch (by rw [hchj]; rfl)
    have hskip : skippableLine (spacesG 2 ++ joinDelimG [','] (r.map writePrimitiveValue))
        = false :=
      skippable_false_of_trimmed (by rw [hlinetrim, hchj]) hch
    rw [List.map_cons, List.cons_append] at hdrop
    have hpos1 := skipEmptyD_eq_self hdrop hskip
    have hmore := hasMoreD_true_of_current hdrop hskip
    have hcur := currentLineD_of_drop hdrop
    have hjt : '\t' ∉ joinDelimG [','] (r.map writePrimitiveValue) :=
      not_mem_joinDelimG (by decide)
        (fun t ht => not_mem_of_containsAnyG_false (htokprops t ht).2.2 (by decide))
    have hjp : '|' ∉ joinDelimG [','] (r.map writePrimitiveValue) :=
      not_mem_joinDelimG (by decide)
        (fun t ht => not_mem_of_containsAnyG_false (htokprops t ht).2.2 (by decide))
    have hsplitrow : splitRowG (joinDelimG [','] (r.map writePrimitiveValue))
        = r.map writePrimitiveValue := by
      rw [splitRowG_comma hjt hjp, splitOnCharG_joinDelimG _ hmapne
        (fun t ht => not_mem_of_containsAnyG_false (htokprops t ht).2.2 (by decide))]
    have hassign := tabularAssign_cols efs (cols.zip r) (zeroFields efs) 0
      (r.map writePrimitiveValue)
      (by
        rw [List.drop_zero,
          show (fun (c : (Nat × GoStr × GoType) × EVal) => writePrimitiveValue c.2)
            = writePrimitiveValue ∘ Prod.snd from rfl,
          ← List.map_map, List.map_snd_zip cols r (le_of_eq hrlen)])
      (by
        intro cv hcv
        obtain ⟨col, v⟩ := cv
        obtain ⟨hc1, -⟩ := List.of_mem_zip hcv
        exact ⟨(hfacts col hc1).1, (hfacts col hc1).2, hsafe (col, v) hcv⟩)
    rw [show ((cols.zip r).map fun c => c.1.2.1) = cols.map (fun c => c.2.1) from by
      rw [show (fun (c : (Nat × GoStr × GoType) × EVal) => c.1.2.1)
          = ((fun (c : Nat × GoStr × GoType) => c.2.1) ∘ Prod.fst) from rfl,
        ← List.map_map, List.map_fst_zip cols r (le_of_eq hrlen.symm)]] at hassign
    rw [show (r :: rows2).length = rows2.length + 1 from rfl]
    rw [decodeTabularRows]
    rw [if_neg (by simp [hmore]), hpos1, if_neg (by simp [hmore]), hcur]
    rw [if_neg (by
      rintro ⟨-, h2⟩
      rw [hlinetrim] at h2
      exact hjoinne h2)]
    rw [hlinetrim, hsplitrow]
    simp only [hassign]
    rw [decodeTabularRows_build efs cols hfacts indent hcols rows2 lines (pos + 1)
      (drop_succ_of_drop hdrop)
      (fun r2 hr2 => hrowfacts r2 (List.mem_cons_of_mem _ hr2))]
    rw [show pos + 1 + rows2.length = pos + (rows2.length + 1) from by omega]
    rfl

/-- Sequential assignment by a family of pairs covering every field index
exactly once: the record holds exactly the decoded scalars, whatever the
assignment order. -/
theorem setScalars_cover (efs : List (StructField × GoType)) (r : List EVal)
    (pairs : List (Nat × EVal))
    (hlen : r.length = efs.length)
    (hnodup : (pairs.map Prod.fst).Nodup)
    (hmem : ∀ j, j < efs.length → (j, r.getD j (.estr [])) ∈ pairs)
    (hbound : ∀ q ∈ pairs, q.1 < efs.length) :
    setScalars (zeroFields efs) pairs = r.map dOfScalar := by
  refine List.ext_getElem? ?_
  intro j
  by_cases hj : j < efs.length
  · rw [setScalars_getElem_mem pairs _ hnodup (hmem j hj)
      (by rw [zeroFields_length]; exact hj)]
    rw [List.getElem?_map, List.getElem?_eq_getElem (show j < r.length from by omega)]
    rw [show r.getD j (.estr []) = r.get ⟨j, by omega⟩ from by
      rw [List.getD_eq_getElem r (.estr []) (by omega)]
      rfl]
    rfl
  · rw [setScalars_getElem_not_mem pairs _ (by
      intro hm
      obtain ⟨q, hq, hq1⟩ := List.mem_map.1 hm
      have := hbound q hq
      omega)]
    rw [List.getElem?_eq_none (by rw [zeroFields_length]; omega),
      List.getElem?_eq_none (by rw [List.length_map]; omega)]

/-- The tabular encoder on a uniform scalar-record slice: the braced header
followed by one indented delimiter-joined row per element. -/
theorem encodeTabularSliceE_eval (opts : MarshalOptions) (key : GoStr)
    (colsf : List StructField) (r0 : List EVal) (rows2 : List (List EVal))
    (hnodash : ∀ g ∈ colsf, getFieldName g ≠ "-".toList)
    (hlen0 : colsf.length = r0.length)
    (hlen2 : ∀ r ∈ rows2, colsf.length = r.length) :
    encodeTabularSliceE opts ((r0 :: rows2).map fun r => .estruct (colsf.zip r)) 0 key
      = spacesG 0 ++ key ++ ('[' :: natToDigitsG (r0 :: rows2).length)
        ++ (']' :: '\x7b' :: []) ++ joinDelimG ",".toList (colsf.map getFieldName)
        ++ ('\x7d' :: ':' :: '\n' :: [])
        ++ ((r0 :: rows2).map fun r =>
            spacesG ((0 + 1) * opts.indent)
              ++ joinDelimG opts.delimiter (r.map writePrimitiveValue) ++ ['\n']).flatten := by
  have hrow : ∀ r : List EVal, colsf.length = r.length →
      writeStructAsRow opts (.estruct (colsf.zip r))
        = joinDelimG opts.delimiter (r.map writePrimitiveValue) := by
    intro r hl
    show rowFieldsE opts (colsf.zip r) true = _
    rw [rowFieldsE_first opts (colsf.zip r) (fun p hp => by
      obtain ⟨g, v⟩ := p
      exact hnodash g (List.of_mem_zip hp).1)]
    rw [show (fun (p : StructField × EVal) => writePrimitiveValue p.2)
        = writePrimitiveValue ∘ Prod.snd from rfl, ← List.map_map,
      List.map_snd_zip colsf r (le_of_eq hl.symm)]
  rw [List.map_cons, encodeTabularSliceE]
  simp only [structFieldNamesOf_zip colsf r0 hlen0 hnodash]
  simp only [List.map_cons, List.map_map, List.length_cons, List.length_map]
  rw [hrow r0 hlen0]
  have hmaps : List.map ((fun e => spacesG ((0 + 1) * opts.indent)
        ++ writeStructAsRow opts e ++ ['\n']) ∘ fun r => EVal.estruct (colsf.zip r)) rows2
      = rows2.map fun r => spacesG ((0 + 1) * opts.indent)
          ++ joinDelimG opts.delimiter (r.map writePrimitiveValue) ++ ['\n'] := by
    refine List.map_congr_left ?_
    intro r hr
    show spacesG ((0 + 1) * opts.indent)
        ++ writeStructAsRow opts (.estruct (colsf.zip r)) ++ ['\n']
      = spacesG ((0 + 1) * opts.indent)
        ++ joinDelimG opts.delimiter (r.map writePrimitiveValue) ++ ['\n']
    rw [hrow r (hlen2 r hr)]
  rw [hmaps]
  simp [List.append_assoc]

/-- Decoding a tabular document whose header lists the columns in an
arbitrary permutation of the element type's fields, with each row's cells
in header order, reconstructs every record with each field matching its
column by name. -/
theorem unmarshal_tabular_perm (f : StructField) (cols : List (StructField × GoType))
    (rows : List (List EVal)) (sel : List Nat)
    (hfname : fieldNameOK (getFieldName f))
    (hcols : cols ≠ [])
    (hcolnames : ∀ c ∈ cols, tabularNameOK (getFieldName c.1))
    (hnodup : (cols.map fun c => getFieldName c.1).Nodup)
    (hsel : sel.Nodup)
    (hselb : ∀ i ∈ sel, i < cols.length)
    (hsellen : sel.length = cols.length)
    (hrlen : ∀ r ∈ rows, r.length = cols.length)
    (hsafe : ∀ r ∈ rows, ∀ i, i < cols.length →
      scalarRT (cols.getD i (sfT "" "", GoType.tstr)).2 (r.getD i (.estr [])))
    (hhash : ∀ r ∈ rows, ∀ ch,
      (joinDelimG [','] ((sel.map fun i => r.getD i (EVal.estr [])).map writePrimitiveValue)).head? = some ch → ch ≠ '#') :
    Unmarshal (getFieldName f ++ '[' :: natToDigitsG rows.length ++ ']' :: '\x7b' :: joinDelimG [','] (sel.map fun i => getFieldName (cols.getD i (sfT "" "", GoType.tstr)).1) ++ '\x7d' :: ':' :: '\n' :: (rows.map fun r => spacesG 2 ++ joinDelimG [','] ((sel.map fun i => r.getD i (EVal.estr [])).map writePrimitiveValue) ++ ['\n']).flatten)
      (.tstruct [(f, .tslice (.tstruct cols))])
      = .ok (.dstruct [.dslice (some (rows.map fun r => .dstruct (r.map dOfScalar)))]) := by
  obtain ⟨hkne, hktr, hcolon, hbr, hnl, hhash_f, hdash⟩ := hfname
  have hselne : sel ≠ [] := by
    intro hh
    rw [hh] at hsellen
    exact hcols (List.length_eq_zero.1 hsellen.symm)
  have hnsne : (sel.map fun i => getFieldName (cols.getD i (sfT "" "", GoType.tstr)).1) ≠ [] := by
    cases sel with
    | nil => exact absurd rfl hselne
    | cons a b => simp
  have hnprops : ∀ n ∈ (sel.map fun i => getFieldName (cols.getD i (sfT "" "", GoType.tstr)).1), tabularNameOK n := by
    intro n hn
    obtain ⟨i, hi, rfl⟩ := List.mem_map.1 hn
    have hik := hselb i hi
    have hmem : cols.getD i (sfT "" "", GoType.tstr) ∈ cols := by
      rw [List.getD_eq_getElem cols (sfT "" "", GoType.tstr) hik]
      exact List.getElem_mem hik
    exact hcolnames _ hmem
  have hnames4 : ∀ n ∈ (sel.map fun i => getFieldName (cols.getD i (sfT "" "", GoType.tstr)).1),
      n ≠ [] ∧ trimSpaceG n = n ∧ ',' ∉ n ∧ '\x7d' ∉ n := by
    intro n hn
    obtain ⟨⟨h1, h2, -, -, -, -, -⟩, h3, h4⟩ := hnprops n hn
    exact ⟨h1, h2, h3, h4⟩
  obtain ⟨hdigval, hdigne, hdig⟩ := natToDigitsG_spec rows.length
  have hjnsne : (joinDelimG [','] (sel.map fun i => getFieldName (cols.getD i (sfT "" "", GoType.tstr)).1)) ≠ [] := by
    obtain ⟨n0, ns2, hns0⟩ : ∃ n0 ns2, (sel.map fun i => getFieldName (cols.getD i (sfT "" "", GoType.tstr)).1) = n0 :: ns2 := by
      cases hx : (sel.map fun i => getFieldName (cols.getD i (sfT "" "", GoType.tstr)).1) with
      | nil => exact absurd hx hnsne
      | cons a b => exact ⟨a, b, rfl⟩
    rw [hns0]
    exact joinDelimG_ne_nil (hnames4 n0 (by rw [hns0]; exact List.mem_cons_self _ _)).1
  have hjnscolon : ':' ∉ (joinDelimG [','] (sel.map fun i => getFieldName (cols.getD i (sfT "" "", GoType.tstr)).1)) :=
    not_mem_joinDelimG (by decide)
      (fun n hn => (hnprops n hn).1.2.2.1)
  have hjnsnl : '\n' ∉ (joinDelimG [','] (sel.map fun i => getFieldName (cols.getD i (sfT "" "", GoType.tstr)).1)) :=
    not_mem_joinDelimG (by decide)
      (fun n hn => (hnprops n hn).1.2.2.2.2.1)
  have hjnstrim : trimSpaceG (joinDelimG [','] (sel.map fun i => getFieldName (cols.getD i (sfT "" "", GoType.tstr)).1)) = joinDelimG [','] (sel.map fun i => getFieldName (cols.getD i (sfT "" "", GoType.tstr)).1) :=
    joinDelimG_trim_stable _ hnsne
      (fun n hn => ⟨(hnames4 n hn).1, (hnames4 n hn).2.1⟩)
  have hrowtoks : ∀ r ∈ rows,
      ∀ t ∈ (sel.map fun i => r.getD i (EVal.estr [])).map writePrimitiveValue,
      t ≠ [] ∧ trimSpaceG t = t ∧ containsAnyG t ",|\t\n".toList = false := by
    intro r hr t ht
    obtain ⟨v, hv, rfl⟩ := List.mem_map.1 ht
    obtain ⟨i, hi, rfl⟩ := List.mem_map.1 hv
    exact writePrim_token_props _ _ (hsafe r hr i (hselb i hi))
  -- the header key before the colon
  have hkeyne : (getFieldName f ++ '[' :: (natToDigitsG rows.length ++ ']' :: '\x7b' :: (joinDelimG [','] (sel.map fun i => getFieldName (cols.getD i (sfT "" "", GoType.tstr)).1) ++ ['\x7d']))) ≠ [] := by
    cases hgf : getFieldName f with
    | nil => exact absurd hgf hkne
    | cons c cs => simp
  have hkeyhead : ∀ c, (getFieldName f ++ '[' :: (natToDigitsG rows.length ++ ']' :: '\x7b' :: (joinDelimG [','] (sel.map fun i => getFieldName (cols.getD i (sfT "" "", GoType.tstr)).1) ++ ['\x7d']))).head? = some c → isSpaceChar c = false := by
    intro c hc
    obtain ⟨a, cs, hgf⟩ : ∃ a cs, getFieldName f = a :: cs := by
      cases hg : getFieldName f with
      | nil => exact absurd hg hkne
      | cons a cs => exact ⟨a, cs, rfl⟩
    rw [hgf] at hc
    have hac : a = c := by simpa using hc
    subst hac
    exact head_nonspace_of_trimSpaceG_eq (hgf ▸ hktr) a List.head?_cons
  have hkeylast : ∀ c, (getFieldName f ++ '[' :: (natToDigitsG rows.length ++ ']' :: '\x7b' :: (joinDelimG [','] (sel.map fun i => getFieldName (cols.getD i (sfT "" "", GoType.tstr)).1) ++ ['\x7d']))).getLast? = some c → isSpaceChar c = false := by
    intro c hc
    rw [show (getFieldName f ++ '[' :: (natToDigitsG rows.length ++ ']' :: '\x7b' :: (joinDelimG [','] (sel.map fun i => getFieldName (cols.getD i (sfT "" "", GoType.tstr)).1) ++ ['\x7d'])))
        = (getFieldName f ++ '[' :: natToDigitsG rows.length ++ ']' :: '\x7b'
            :: joinDelimG [','] (sel.map fun i => getFieldName (cols.getD i (sfT "" "", GoType.tstr)).1)) ++ ['\x7d'] by simp,
      getLast?_concat_one] at hc
    cases hc
    decide
  have hkeytrim : trimSpaceG (getFieldName f ++ '[' :: (natToDigitsG rows.length ++ ']' :: '\x7b' :: (joinDelimG [','] (sel.map fun i => getFieldName (cols.getD i (sfT "" "", GoType.tstr)).1) ++ ['\x7d']))) = getFieldName f ++ '[' :: (natToDigitsG rows.length ++ ']' :: '\x7b' :: (joinDelimG [','] (sel.map fun i => getFieldName (cols.getD i (sfT "" "", GoType.tstr)).1) ++ ['\x7d'])) :=
    trimSpaceG_eq_self_of_safe hkeyne hkeyhead hkeylast
  have hcolonkey : ':' ∉ (getFieldName f ++ '[' :: (natToDigitsG rows.length ++ ']' :: '\x7b' :: (joinDelimG [','] (sel.map fun i => getFieldName (cols.getD i (sfT "" "", GoType.tstr)).1) ++ ['\x7d']))) := by
    intro hmem
    simp only [List.mem_append, List.mem_cons] at hmem
    rcases hmem with h | h | h | h | h | h | h
    · exact hcolon h
    · exact absurd h.symm (by decide)
    · exact (digit_char_props (hdig _ h)).2.1 rfl
    · exact absurd h.symm (by decide)
    · exact absurd h.symm (by decide)
    · exact hjnscolon h
    · simp at h
  have hline : trimSpaceG ((getFieldName f ++ '[' :: (natToDigitsG rows.length ++ ']' :: '\x7b' :: (joinDelimG [','] (sel.map fun i => getFieldName (cols.getD i (sfT "" "", GoType.tstr)).1) ++ ['\x7d']))) ++ ':' :: []) = (getFieldName f ++ '[' :: (natToDigitsG rows.length ++ ']' :: '\x7b' :: (joinDelimG [','] (sel.map fun i => getFieldName (cols.getD i (sfT "" "", GoType.tstr)).1) ++ ['\x7d']))) ++ ':' :: [] := by
    refine trimSpaceG_eq_self_of_safe (by simp) ?_ ?_
    · intro c hc
      refine hkeyhead c ?_
      obtain ⟨a, cs, hgf⟩ : ∃ a cs, getFieldName f = a :: cs := by
        cases hg : getFieldName f with
        | nil => exact absurd hg hkne
        | cons a cs => exact ⟨a, cs, rfl⟩
      rw [hgf] at hc ⊢
      simpa using hc
    · intro c hc
      rw [getLast?_append_right (by simp)] at hc
      have h2 : (':' : Char) = c := by simpa using hc
      cases h2
      decide
  have hlinenl : '\n' ∉ ((getFieldName f ++ '[' :: (natToDigitsG rows.length ++ ']' :: '\x7b' :: (joinDelimG [','] (sel.map fun i => getFieldName (cols.getD i (sfT "" "", GoType.tstr)).1) ++ ['\x7d']))) ++ ':' :: []) := by
    intro hmem
    simp only [List.mem_append, List.mem_cons] at hmem
    rcases hmem with (h | h | h | h | h | h | h) | h | h
    · exact hnl h
    · exact absurd h.symm (by decide)
    · exact (digit_char_props (hdig _ h)).2.2.2.2.2.2.1 rfl
    · exact absurd h.symm (by decide)
    · exact absurd h.symm (by decide)
    · exact hjnsnl h
    · exact absurd h.symm (by decide)
    · exact absurd h.symm (by decide)
    · simp at h
  have hrowlinenl : ∀ l ∈ (rows.map fun r => spacesG 2 ++ joinDelimG [','] ((sel.map fun i => r.getD i (EVal.estr [])).map writePrimitiveValue)), '\n' ∉ l := by
    intro l hl
    obtain ⟨r, hr, rfl⟩ := List.mem_map.1 hl
    intro hmem
    rcases List.mem_append.1 hmem with h | h
    · have : ('\n' : Char) = ' ' := by
        have h2 := List.eq_of_mem_replicate h
        exact h2
      exact absurd this (by decide)
    · exact not_mem_joinDelimG (by decide)
        (fun t ht => not_mem_of_containsAnyG_false (hrowtoks r hr t ht).2.2 (by decide)) h
  have hsplitdoc : splitOnCharG '\n' (getFieldName f ++ '[' :: natToDigitsG rows.length ++ ']' :: '\x7b' :: joinDelimG [','] (sel.map fun i => getFieldName (cols.getD i (sfT "" "", GoType.tstr)).1) ++ '\x7d' :: ':' :: '\n' :: (rows.map fun r => spacesG 2 ++ joinDelimG [','] ((sel.map fun i => r.getD i (EVal.estr [])).map writePrimitiveValue) ++ ['\n']).flatten)
      = (((getFieldName f ++ '[' :: (natToDigitsG rows.length ++ ']' :: '\x7b' :: (joinDelimG [','] (sel.map fun i => getFieldName (cols.getD i (sfT "" "", GoType.tstr)).1) ++ ['\x7d']))) ++ ':' :: []) :: (rows.map fun r => spacesG 2 ++ joinDelimG [','] ((sel.map fun i => r.getD i (EVal.estr [])).map writePrimitiveValue))) ++ [[]] := by
    have h := split_newline_doc (((getFieldName f ++ '[' :: (natToDigitsG rows.length ++ ']' :: '\x7b' :: (joinDelimG [','] (sel.map fun i => getFieldName (cols.getD i (sfT "" "", GoType.tstr)).1) ++ ['\x7d']))) ++ ':' :: []) :: (rows.map fun r => spacesG 2 ++ joinDelimG [','] ((sel.map fun i => r.getD i (EVal.estr [])).map writePrimitiveValue)))
      (by
        intro l hl
        rcases List.mem_cons.1 hl with h | h
        · rw [h]
          exact hlinenl
        · exact hrowlinenl l h)
    have hflat : (((rows.map fun r => spacesG 2 ++ joinDelimG [','] ((sel.map fun i => r.getD i (EVal.estr [])).map writePrimitiveValue)).map fun l => l ++ ['\n']).flatten)
        = ((rows.map fun r => spacesG 2 ++ joinDelimG [','] ((sel.map fun i => r.getD i (EVal.estr [])).map writePrimitiveValue) ++ ['\n']).flatten) := by
      rw [List.map_map]
      refine congrArg List.flatten (List.map_congr_left ?_)
      intro r hr
      show (spacesG 2 ++ joinDelimG [','] ((sel.map fun i => r.getD i (EVal.estr [])).map writePrimitiveValue)) ++ ['\n']
        = spacesG 2 ++ joinDelimG [','] ((sel.map fun i => r.getD i (EVal.estr [])).map writePrimitiveValue) ++ ['\n']
      rw [List.append_assoc]
    rw [show (((((getFieldName f ++ '[' :: (natToDigitsG rows.length ++ ']' :: '\x7b' :: (joinDelimG [','] (sel.map fun i => getFieldName (cols.getD i (sfT "" "", GoType.tstr)).1) ++ ['\x7d']))) ++ ':' :: []) :: (rows.map fun r => spacesG 2 ++ joinDelimG [','] ((sel.map fun i => r.getD i (EVal.estr [])).map writePrimitiveValue))).map fun l => l ++ ['\n']).flatten)
        = (getFieldName f ++ '[' :: natToDigitsG rows.length ++ ']' :: '\x7b' :: joinDelimG [','] (sel.map fun i => getFieldName (cols.getD i (sfT "" "", GoType.tstr)).1) ++ '\x7d' :: ':' :: '\n' :: (rows.map fun r => spacesG 2 ++ joinDelimG [','] ((sel.map fun i => r.getD i (EVal.estr [])).map writePrimitiveValue) ++ ['\n']).flatten) from by
      rw [List.map_cons, List.flatten_cons, hflat]
      simp [List.append_assoc]] at h
    exact h
  have hskipline : skippableLine ((getFieldName f ++ '[' :: (natToDigitsG rows.length ++ ']' :: '\x7b' :: (joinDelimG [','] (sel.map fun i => getFieldName (cols.getD i (sfT "" "", GoType.tstr)).1) ++ ['\x7d']))) ++ ':' :: []) = false := by
    obtain ⟨a, cs, hgf⟩ : ∃ a cs, getFieldName f = a :: cs := by
      cases hg : getFieldName f with
      | nil => exact absurd hg hkne
      | cons a cs => exact ⟨a, cs, rfl⟩
    have hahash : a ≠ '#' := fun hh => hhash_f (by rw [hgf, hh]; rfl)
    refine skippable_false_of_trimmed
      (t := (cs ++ '[' :: (natToDigitsG rows.length ++ ']' :: '\x7b' :: (joinDelimG [','] (sel.map fun i => getFieldName (cols.getD i (sfT "" "", GoType.tstr)).1) ++ ['\x7d']))) ++ ':' :: []) ?_ hahash
    rw [hline, hgf]
    simp
  have hfield : fieldIndex [(f, GoType.tslice (GoType.tstruct cols))] (getFieldName f)
      = some 0 := by
    have h := fieldIndex_at [] f (GoType.tslice (GoType.tstruct cols)) [] hdash (by simp)
    simpa using h
  have harr : parseArrayDeclaration (getFieldName f ++ '[' :: (natToDigitsG rows.length ++ ']' :: '\x7b' :: (joinDelimG [','] (sel.map fun i => getFieldName (cols.getD i (sfT "" "", GoType.tstr)).1) ++ ['\x7d'])))
      = some (rows.length, (sel.map fun i => getFieldName (cols.getD i (sfT "" "", GoType.tstr)).1)) :=
    parseArrayDeclaration_braced (getFieldName f) rows.length _ hbr hkne hnsne hnames4
  have hcover : ∀ j, j < cols.length → j ∈ sel := by
    intro j hj
    have h1 : sel.toFinset = Finset.range cols.length := by
      apply Finset.eq_of_subset_of_card_le
      · intro x hx
        rw [Finset.mem_range]
        exact hselb x (List.mem_toFinset.1 hx)
      · rw [Finset.card_range, List.toFinset_card_of_nodup hsel, hsellen]
    have h2 : j ∈ sel.toFinset := by
      rw [h1]
      exact Finset.mem_range.2 hj
    exact List.mem_toFinset.1 h2
  rw [Unmarshal]
  simp only [hsplitdoc]
  rw [show ((((getFieldName f ++ '[' :: (natToDigitsG rows.length ++ ']' :: '\x7b' :: (joinDelimG [','] (sel.map fun i => getFieldName (cols.getD i (sfT "" "", GoType.tstr)).1) ++ ['\x7d']))) ++ ':' :: []) :: (rows.map fun r => spacesG 2 ++ joinDelimG [','] ((sel.map fun i => r.getD i (EVal.estr [])).map writePrimitiveValue))) ++ ([[]] : List GoStr)).length
      = rows.length + 2 from by simp]
  rw [show (rows.length + 2 + 2) * (typeDepthG (GoType.tstruct [(f, GoType.tslice (GoType.tstruct cols))]) + 4)
      = (rows.length * typeDepthG (GoType.tstruct [(f, GoType.tslice (GoType.tstruct cols))])
          + 4 * rows.length + 4 * typeDepthG (GoType.tstruct [(f, GoType.tslice (GoType.tstruct cols))]) + 13) + 1 + 1 + 1 from by ring]
  rw [show zeroVal (GoType.tstruct [(f, GoType.tslice (GoType.tstruct cols))])
      = DVal.dstruct (zeroFields [(f, GoType.tslice (GoType.tstruct cols))]) from rfl]
  have hdrop0 : (((((getFieldName f ++ '[' :: (natToDigitsG rows.length ++ ']' :: '\x7b' :: (joinDelimG [','] (sel.map fun i => getFieldName (cols.getD i (sfT "" "", GoType.tstr)).1) ++ ['\x7d']))) ++ ':' :: []) :: (rows.map fun r => spacesG 2 ++ joinDelimG [','] ((sel.map fun i => r.getD i (EVal.estr [])).map writePrimitiveValue))) ++ ([[]] : List GoStr)).drop 0)
      = ((getFieldName f ++ '[' :: (natToDigitsG rows.length ++ ']' :: '\x7b' :: (joinDelimG [','] (sel.map fun i => getFieldName (cols.getD i (sfT "" "", GoType.tstr)).1) ++ ['\x7d']))) ++ ':' :: []) :: ((rows.map fun r => spacesG 2 ++ joinDelimG [','] ((sel.map fun i => r.getD i (EVal.estr [])).map writePrimitiveValue)) ++ [[]]) := by
    simp
  rw [decodeValueD_struct _ _ _ _ _ _ _ _ hdrop0 hskipline]
  rw [decodeStructLoopD_array_step _ _ _ _ _ _ _ _ _ _ _ _ _ hdrop0 hline hkne hbr
    hcolonkey hkeytrim hhash_f harr hfield (Or.inl rfl)]
  rw [show typeAt [(f, GoType.tslice (GoType.tstruct cols))] 0
      = GoType.tslice (GoType.tstruct cols) from rfl]
  rw [decodeArrayFieldD_tabular _ cols _ rows.length _ _ _ _ 1 hnsne]
  have hfactsB : ∀ c ∈ (sel.map (fun i => (i, getFieldName (cols.getD i (sfT "" "", GoType.tstr)).1, (cols.getD i (sfT "" "", GoType.tstr)).2))),
      fieldIndexTab cols c.2.1 = some c.1 ∧ typeAt cols c.1 = c.2.2 := by
    intro c hc
    obtain ⟨i, hi, rfl⟩ := List.mem_map.1 hc
    have hik := hselb i hi
    have hgd : cols.getD i (sfT "" "", GoType.tstr) = cols[i] :=
      List.getD_eq_getElem cols (sfT "" "", GoType.tstr) hik
    have hdecomp : cols.take i ++ cols[i] :: cols.drop (i + 1) = cols := by
      rw [List.getElem_cons_drop, List.take_append_drop]
    have hlen_take : (cols.take i).length = i := by
      rw [List.length_take]
      omega
    have hnodup2 := hnodup
    rw [← hdecomp, List.map_append, List.map_cons] at hnodup2
    have hne_post : getFieldName (cols[i]).1
        ∉ (cols.drop (i + 1)).map (fun p => getFieldName p.1) :=
      (List.nodup_cons.1 hnodup2.of_append_right).1
    constructor
    · have hfi := fieldIndexTab_at (cols.take i) (cols[i]).1 (cols[i]).2
        (cols.drop (i + 1)) hne_post
      rw [show ((cols[i]).1, (cols[i]).2) = cols[i] from rfl, hdecomp, hlen_take] at hfi
      show fieldIndexTab cols (getFieldName (cols.getD i (sfT "" "", GoType.tstr)).1) = some i
      rw [hgd]
      exact hfi
    · have hty := typeAt_at (cols.take i) (cols[i]).1 (cols[i]).2 (cols.drop (i + 1))
      rw [show ((cols[i]).1, (cols[i]).2) = cols[i] from rfl, hdecomp, hlen_take] at hty
      show typeAt cols i = (cols.getD i (sfT "" "", GoType.tstr)).2
      rw [hgd]
      exact hty
  have hcolsne2 : (sel.map (fun i => (i, getFieldName (cols.getD i (sfT "" "", GoType.tstr)).1, (cols.getD i (sfT "" "", GoType.tstr)).2))) ≠ [] := by
    cases sel with
    | nil => exact absurd rfl hselne
    | cons a b => simp
  have hbuild := decodeTabularRows_build cols (sel.map (fun i => (i, getFieldName (cols.getD i (sfT "" "", GoType.tstr)).1, (cols.getD i (sfT "" "", GoType.tstr)).2))) hfactsB
    (indentOfG ((getFieldName f ++ '[' :: (natToDigitsG rows.length ++ ']' :: '\x7b' :: (joinDelimG [','] (sel.map fun i => getFieldName (cols.getD i (sfT "" "", GoType.tstr)).1) ++ ['\x7d']))) ++ ':' :: [])) hcolsne2
    (rows.map fun r => sel.map fun i => r.getD i (EVal.estr [])) ((((getFieldName f ++ '[' :: (natToDigitsG rows.length ++ ']' :: '\x7b' :: (joinDelimG [','] (sel.map fun i => getFieldName (cols.getD i (sfT "" "", GoType.tstr)).1) ++ ['\x7d']))) ++ ':' :: []) :: (rows.map fun r => spacesG 2 ++ joinDelimG [','] ((sel.map fun i => r.getD i (EVal.estr [])).map writePrimitiveValue))) ++ [[]]) 1
    (by
      show List.drop 1 ((((getFieldName f ++ '[' :: (natToDigitsG rows.length ++ ']' :: '\x7b' :: (joinDelimG [','] (sel.map fun i => getFieldName (cols.getD i (sfT "" "", GoType.tstr)).1) ++ ['\x7d']))) ++ ':' :: []) :: (rows.map fun r => spacesG 2 ++ joinDelimG [','] ((sel.map fun i => r.getD i (EVal.estr [])).map writePrimitiveValue))) ++ [[]])
        = ((rows.map fun r => sel.map fun i => r.getD i (EVal.estr [])).map fun r2 =>
            spacesG 2 ++ joinDelimG [','] (r2.map writePrimitiveValue)) ++ [[]]
      rw [List.map_map]
      rfl)
    (by
      intro r2 hr2
      obtain ⟨r, hr, rfl⟩ := List.mem_map.1 hr2
      refine ⟨by simp, ?_, ?_⟩
      · intro cv hcv
        rw [List.zip_map'] at hcv
        obtain ⟨i, hi, rfl⟩ := List.mem_map.1 hcv
        exact hsafe r hr i (hselb i hi)
      · intro ch hch
        exact hhash r hr ch hch)
  rw [show ((sel.map (fun i => (i, getFieldName (cols.getD i (sfT "" "", GoType.tstr)).1, (cols.getD i (sfT "" "", GoType.tstr)).2))).map fun c => c.2.1) = (sel.map fun i => getFieldName (cols.getD i (sfT "" "", GoType.tstr)).1) from by
    rw [List.map_map]
    rfl] at hbuild
  rw [show (rows.map fun r => sel.map fun i => r.getD i (EVal.estr [])).length = rows.length from by simp] at hbuild
  simp only [hbuild]
  rw [show ((rows.map fun r => sel.map fun i => r.getD i (EVal.estr [])).map fun r2 =>
      DVal.dstruct (setScalars (zeroFields cols)
        (((sel.map (fun i => (i, getFieldName (cols.getD i (sfT "" "", GoType.tstr)).1, (cols.getD i (sfT "" "", GoType.tstr)).2))).zip r2).map fun cv => (cv.1.1, cv.2))))
      = rows.map (fun r => DVal.dstruct (r.map dOfScalar)) from by
    rw [List.map_map]
    refine List.map_congr_left ?_
    intro r hr
    show DVal.dstruct (setScalars (zeroFields cols)
        (((sel.map (fun i => (i, getFieldName (cols.getD i (sfT "" "", GoType.tstr)).1, (cols.getD i (sfT "" "", GoType.tstr)).2))).zip (sel.map fun i => r.getD i (EVal.estr []))).map
          fun cv => (cv.1.1, cv.2)))
      = DVal.dstruct (r.map dOfScalar)
    congr 1
    rw [show (((sel.map (fun i => (i, getFieldName (cols.getD i (sfT "" "", GoType.tstr)).1, (cols.getD i (sfT "" "", GoType.tstr)).2))).zip (sel.map fun i => r.getD i (EVal.estr []))).map
        fun cv => (cv.1.1, cv.2))
        = sel.map (fun i => (i, r.getD i (EVal.estr []))) from by
      rw [List.zip_map', List.map_map]
      rfl]
    refine setScalars_cover cols r _ (hrlen r hr) ?_ ?_ ?_
    · rw [show (sel.map fun i => (i, r.getD i (EVal.estr []))).map Prod.fst = sel from by
        rw [List.map_map]
        exact List.map_id sel]
      exact hsel
    · intro j hj
      exact List.mem_map.2 ⟨j, hcover j hj, rfl⟩
    · intro q hq
      obtain ⟨i, hi, rfl⟩ := List.mem_map.1 hq
      exact hselb i hi]
  have hRLlen : (rows.map fun r => spacesG 2 ++ joinDelimG [','] ((sel.map fun i => r.getD i (EVal.estr [])).map writePrimitiveValue)).length = rows.length := by simp
  have hdropend : (((((getFieldName f ++ '[' :: (natToDigitsG rows.length ++ ']' :: '\x7b' :: (joinDelimG [','] (sel.map fun i => getFieldName (cols.getD i (sfT "" "", GoType.tstr)).1) ++ ['\x7d']))) ++ ':' :: []) :: (rows.map fun r => spacesG 2 ++ joinDelimG [','] ((sel.map fun i => r.getD i (EVal.estr [])).map writePrimitiveValue))) ++ ([[]] : List GoStr)).drop
      (1 + rows.length)) = [[]] := by
    rw [show (1 : Nat) + rows.length = rows.length + 1 from by omega]
    rw [show (((((getFieldName f ++ '[' :: (natToDigitsG rows.length ++ ']' :: '\x7b' :: (joinDelimG [','] (sel.map fun i => getFieldName (cols.getD i (sfT "" "", GoType.tstr)).1) ++ ['\x7d']))) ++ ':' :: []) :: (rows.map fun r => spacesG 2 ++ joinDelimG [','] ((sel.map fun i => r.getD i (EVal.estr [])).map writePrimitiveValue))) ++ ([[]] : List GoStr))
        = ((getFieldName f ++ '[' :: (natToDigitsG rows.length ++ ']' :: '\x7b' :: (joinDelimG [','] (sel.map fun i => getFieldName (cols.getD i (sfT "" "", GoType.tstr)).1) ++ ['\x7d']))) ++ ':' :: []) :: ((rows.map fun r => spacesG 2 ++ joinDelimG [','] ((sel.map fun i => r.getD i (EVal.estr [])).map writePrimitiveValue)) ++ [[]])) from by simp]
    rw [List.drop_succ_cons]
    rw [← hRLlen, List.drop_left]
  have hmoreend : hasMoreD ((((getFieldName f ++ '[' :: (natToDigitsG rows.length ++ ']' :: '\x7b' :: (joinDelimG [','] (sel.map fun i => getFieldName (cols.getD i (sfT "" "", GoType.tstr)).1) ++ ['\x7d']))) ++ ':' :: []) :: (rows.map fun r => spacesG 2 ++ joinDelimG [','] ((sel.map fun i => r.getD i (EVal.estr [])).map writePrimitiveValue))) ++ [[]])
      (1 + rows.length) = false := by
    refine hasMoreD_false_of_all ?_
    intro l hl
    rw [hdropend] at hl
    rw [List.mem_singleton.1 hl]
    exact skippableLine_nil
  rw [decodeStructLoopD_stop _ _ _ _ _ _ hmoreend]
  rfl

/-! ## Validation of the model on the repository's own test inputs
(TestMarshalSimple, TestMarshalNestedStruct, TestMarshalPrimitiveArray,
TestMarshalTabularArray, TestUnmarshalSimple, TestUnmarshalNested,
TestUnmarshalPrimitiveArray, TestUnmarshalTabularArray of toon_test.go,
plus the model's own corner cases). -/

example : trimSpaceG "  ab c\t\n".toList = "ab c".toList := by decide

example : splitOnCharG ',' "a,b,,c".toList = ["a".toList, "b".toList, [], "c".toList] := by decide

example : splitFirstG ':' "k: v:w".toList = some ("k".toList, " v:w".toList) := by decide

example : parseIntG "-30".toList = some (-30) := by decide

example : parseIntG "3.5".toList = none := by decide

example : parseBoolG "t".toList = some true := by decide

example : parseFloatG "7.5".toList = some (.finite 75 (-1)) := by decide

example : parseFloatG "2e1".toList = some (.finite 2 1) := by decide

example : parseFloatG "-1.25e-2".toList = some (.finite (-125) (-4)) := by decide

example : parseFloatG "x".toList = none := by decide

example : unescapeQuotesG (escapeQuotesG "a\"b\\".toList) = "a\"b\\".toList := by decide

example : parseArrayDeclaration "friends[3]".toList = some (3, []) := by decide

example : parseArrayDeclaration "hikes[2]\x7bid,name\x7d".toList
    = some (2, ["id".toList, "name".toList]) := by decide

example : parseArrayDeclaration "k[3,]".toList = some (3, []) := by decide

example : parseArrayDeclaration "k[x]".toList = none := by decide

example : parseArrayDeclaration "k[3".toList = none := by decide

example : parseArrayDeclaration "[3]".toList = none := by decide

example : parseArrayDeclaration "a[b[3]".toList = some (3, []) := by decide

example : extractKeyFromArray "a[b[3]".toList = "a".toList := by decide

example : extractKeyFromArray "friends[3]".toList = "friends".toList := by decide

example :
    Marshal (.estruct [(sfT "Name" "name", .estr "Alice".toList),
                       (sfT "Age" "age", .eint 30),
                       (sfT "Email" "email", .estr "alice@example.com".toList)])
      = .ok "name: Alice\nage: 30\nemail: alice@example.com\n".toList := by decide

example :
    Marshal (.estruct [(sfT "Context" "context",
      .estruct [(sfT "Task" "task", .estr "hikes".toList),
                (sfT "Location" "location", .estr "Boulder".toList)])])
      = .ok "context:\n  task: hikes\n  location: Boulder\n".toList := by decide

example :
    Marshal (.estruct [(sfT "Friends" "friends",
      .eslice .kPrim [.estr "ana".toList, .estr "luis".toList, .estr "sam".toList])])
      = .ok "friends[3]: ana,luis,sam\n".toList := by decide

example :
    Marshal (.estruct [(sfT "Hikes" "hikes",
      .eslice .kStruct
        [.estruct [(sfT "ID" "id", .eint 1), (sfT "Name" "name", .estr "Blue".toList)],
         .estruct [(sfT "ID" "id", .eint 2), (sfT "Name" "name", .estr "Ridge".toList)]])])
      = .ok "hikes[2]\x7bid,name\x7d:\n  1,Blue\n  2,Ridge\n".toList := by decide

example : Unmarshal "name: Alice\nage: 30\nemail: alice@example.com\n".toList personT
    = .ok (.dstruct [.dstr "Alice".toList, .dint 30, .dstr "alice@example.com".toList]) := by rfl

example : Unmarshal "context:\n  task: Our favorite hikes\n  location: Boulder\n".toList
      (.tstruct [(sfT "Context" "context",
        .tstruct [(sfT "Task" "task", .tstr), (sfT "Location" "location", .tstr)])])
    = .ok (.dstruct [.dstruct [.dstr "Our favorite hikes".toList, .dstr "Boulder".toList]]) := by rfl

example : Unmarshal "friends[3]: ana,luis,sam\n".toList
      (.tstruct [(sfT "Friends" "friends", .tslice .tstr)])
    = .ok (.dstruct [.dslice (some [.dstr "ana".toList, .dstr "luis".toList, .dstr "sam".toList])]) := by rfl

example : Unmarshal "hikes[2]\x7bid,name\x7d:\n  1,Blue\n  2,Ridge\n".toList
      (.tstruct [(sfT "Hikes" "hikes", .tslice hikeT)])
    = .ok (.dstruct [.dslice (some [.dstruct [.dint 1, .dstr "Blue".toList],
                                    .dstruct [.dint 2, .dstr "Ridge".toList]])]) := by rfl

example : Unmarshal "hikes[2]\x7bname,id\x7d:\n  Blue,1\n  Ridge,2\n".toList
      (.tstruct [(sfT "Hikes" "hikes", .tslice hikeT)])
    = .ok (.dstruct [.dslice (some [.dstruct [.dint 1, .dstr "Blue".toList],
                                    .dstruct [.dint 2, .dstr "Ridge".toList]])]) := by rfl

example : Unmarshal "items[2]:\n  - id: 1\n    name: One\n  - id: 2\n    name: Two\n".toList
      (.tstruct [(sfT "Items" "items", .tslice hikeT)])
    = .ok (.dstruct [.dslice (some [.dstruct [.dint 1, .dstr "One".toList],
                                    .dstruct [.dint 2, .dstr "Two".toList]])]) := by rfl


/-! ## The claims -/

/-- Helper for C10: when nothing non-blank remains, decodeValue returns its
target untouched. -/
theorem decodeValueD_noMore (fuel : Nat) (t : GoType) (cur : DVal) (lines : List GoStr)
    (pos ei : Nat) (h0 : 0 < fuel)
    (h : hasMoreD lines (skipEmptyD lines pos) = false) :
    decodeValueD fuel t cur lines pos ei = .ok (cur, skipEmptyD lines pos) := by
  cases fuel with
  | zero => omega
  | succ f =>
    simp [decodeValueD, h]

/-- C10: an input of only blank and comment lines (including the empty
input) decodes into any target with no error and leaves the target at its
zero value: no field assigned, no nested structure allocated. -/
theorem c10_blank_or_comment_input_noop (data : GoStr) (t : GoType)
    (h : ∀ l ∈ splitOnCharG '\n' data, skippableLine l = true) :
    Unmarshal data t = .ok (zeroVal t) := by
  rw [Unmarshal]
  have hfalse : hasMoreD (splitOnCharG '\n' data)
      (skipEmptyD (splitOnCharG '\n' data) 0) = false :=
    hasMoreD_false_of_all (fun l hl => h l (List.drop_subset _ _ hl))
  rw [decodeValueD_noMore _ _ _ _ _ _ (Nat.mul_pos (by omega) (by omega)) hfalse]

/-- C10 witness: a comment line and a blank line leave a person record at
its zero value. -/
theorem c10_witness :
    Unmarshal "# only a comment\n\n".toList personT = .ok (zeroVal personT) :=
  c10_blank_or_comment_input_noop _ personT (by decide)

/-- C8 counterexample: encoding a value of an unclassifiable kind (the
carried text is the fmt %v rendering Go produces for a channel value) does
not fail with UnsupportedTypeError; it succeeds. -/
theorem c8_counterexample :
    Marshal (.eother "0x1400010c0c0".toList) = .ok "0x1400010c0c0\n".toList := by rfl

/-- C8 amended: encoding a value of a category the codec cannot classify
raises no error at all: writePrimitiveValue falls through to the default
fmt %v formatting and the encoder returns the rendering followed by a
newline, under every option set.  (ErrUnsupportedType is declared in
toon.go but never raised by the encoder.) -/
theorem c8_amended_unclassifiable_no_error (r : GoStr) (opts : MarshalOptions) :
    MarshalWithOptions (.eother r) opts = .ok (r ++ ['\n']) := by
  rw [MarshalWithOptions]
  simp [encodeValueE, encodePrimitiveE, writePrimitiveValue, spacesG]

/-- C6: the encoder's output on a mapping depends on the iteration order of
reflect MapKeys, which Go randomizes: the two-entry map a to 1, b to 2
encodes to different texts under its two iteration orders, so encoding a
mapping is not deterministic. -/
theorem c6_map_encoding_order_dependent :
    Marshal (.emap [("a".toList, .eint 1), ("b".toList, .eint 2)])
      ≠ Marshal (.emap [("b".toList, .eint 2), ("a".toList, .eint 1)]) := by decide

/-- C5: decoding a scalar token into an untyped (interface) target follows
exactly the ordered inference of setPrimitiveValue: the normalized token
is inferred with the literal null first, then integer, then float, then
boolean, else kept as a string. -/
theorem c5_untyped_inference_order (s : GoStr) :
    (∀ cur, setPrimitiveValue .tiface cur s = .ok (inferAny (normalizeToken s)))
    ∧ (s = "null".toList → inferAny s = .dnull)
    ∧ (s ≠ "null".toList → ∀ i, parseIntG s = some i → inferAny s = .dint i)
    ∧ (s ≠ "null".toList → parseIntG s = none →
        ∀ f, parseFloatG s = some f → inferAny s = .dfloat f)
    ∧ (s ≠ "null".toList → parseIntG s = none → parseFloatG s = none →
        ∀ b, parseBoolG s = some b → inferAny s = .dbool b)
    ∧ (s ≠ "null".toList → parseIntG s = none → parseFloatG s = none →
        parseBoolG s = none → inferAny s = .dstr s) := by
  refine ⟨fun cur => setPrimitiveValue_tiface cur s, ?_, ?_, ?_, ?_, ?_⟩
  · intro h
    rw [inferAny, if_pos h]
  · intro hns i hi
    rw [inferAny, if_neg hns, hi]
  · intro hns hi f hf
    rw [inferAny, if_neg hns, hi, hf]
  · intro hns hi hf b hb
    rw [inferAny, if_neg hns, hi, hf, hb]
  · intro hns hi hf hb
    rw [inferAny, if_neg hns, hi, hf, hb]

/-- C5 witness: each stage of the inference order fires on a concrete token
(and 1 is an integer although it would also parse as a boolean). -/
theorem c5_witness :
    inferAny "null".toList = .dnull
    ∧ inferAny "30".toList = .dint 30
    ∧ inferAny "1".toList = .dint 1
    ∧ inferAny "7.5".toList = .dfloat (.finite 75 (-1))
    ∧ inferAny "t".toList = .dbool true
    ∧ inferAny "ana".toList = .dstr "ana".toList :=
  ⟨(c5_untyped_inference_order _).2.1 rfl,
   (c5_untyped_inference_order _).2.2.1 (by decide) 30 (by decide),
   (c5_untyped_inference_order _).2.2.1 (by decide) 1 (by decide),
   (c5_untyped_inference_order _).2.2.2.1 (by decide) (by decide) _ (by decide),
   (c5_untyped_inference_order _).2.2.2.2.1 (by decide) (by decide) (by decide) true (by decide),
   (c5_untyped_inference_order _).2.2.2.2.2 (by decide) (by decide) (by decide) (by decide)⟩


/-- C4 counterexample: the string quote-hi-quote contains a double quote but
no delimiter; the encoder emits it verbatim instead of wrapping it (so the
emitted token is not the quoted-escaped form), and decoding the emitted
token strips the quotes, yielding a different string. -/
theorem c4_counterexample :
    writePrimitiveValue (.estr "\"hi\"".toList) = "\"hi\"".toList
    ∧ writePrimitiveValue (.estr "\"hi\"".toList)
        ≠ ('"' :: escapeQuotesG "\"hi\"".toList) ++ ['"']
    ∧ setPrimitiveValue .tstr (.dstr []) (writePrimitiveValue (.estr "\"hi\"".toList))
        = .ok (.dstr "hi".toList)
    ∧ "hi".toList ≠ "\"hi\"".toList :=
  ⟨by rfl, by decide, by rfl, by decide⟩

/-- C4 amended: the encoder wraps a string in double quotes (with internal
double quotes backslash-escaped) when it contains a comma, pipe, tab or
newline - the delimiter set checked is fixed, independent of the active
delimiter, and a double quote alone does not trigger wrapping - and
decoding such a produced quoted token reproduces the original string
exactly, including the delimiter character. -/
theorem c4_amended_quoting (s : GoStr)
    (h : containsAnyG s ",|\t\n".toList = true) :
    writePrimitiveValue (.estr s) = ('"' :: escapeQuotesG s) ++ ['"']
    ∧ ∀ cur, setPrimitiveValue .tstr cur (writePrimitiveValue (.estr s)) = .ok (.dstr s) := by
  have hw : writePrimitiveValue (.estr s) = ('"' :: escapeQuotesG s) ++ ['"'] := by
    simp only [writePrimitiveValue]
    rw [if_pos h]
  refine ⟨hw, fun cur => ?_⟩
  rw [hw, setPrimitiveValue_tstr, normalizeToken_quoted]

/-- C4 witness: the comma-holding string a,b is emitted quoted and decodes
back to itself. -/
theorem c4_witness :
    writePrimitiveValue (.estr "a,b".toList) = ('"' :: escapeQuotesG "a,b".toList) ++ ['"']
    ∧ setPrimitiveValue .tstr (.dstr [])
        (writePrimitiveValue (.estr "a,b".toList)) = .ok (.dstr "a,b".toList) :=
  ⟨(c4_amended_quoting "a,b".toList (by decide)).1,
   (c4_amended_quoting "a,b".toList (by decide)).2 (.dstr [])⟩

/-- C9: a keyed line whose key fails to parse as an array declaration is no
error: the whole key text is treated as a literal field name, and when no
field bears that name the line is skipped and decoding continues on the
next line with the field values unchanged. -/
theorem c9_malformed_header_literal_skip
    (fuel : Nat) (fs : List (StructField × GoType)) (vals : List DVal)
    (ei pos : Nat) (lines : List GoStr) (key rawValue : GoStr) (rest : List GoStr)
    (hdrop : lines.drop pos = (key ++ ':' :: rawValue) :: rest)
    (hkeyne : key ≠ [])
    (hhash : key.head? ≠ some '#')
    (hcolon : ':' ∉ key)
    (hline : trimSpaceG (key ++ ':' :: rawValue) = key ++ ':' :: rawValue)
    (hkeytrim : trimSpaceG key = key)
    (harr : parseArrayDeclaration key = none)
    (hfield : fieldIndex fs key = none)
    (hind : ei = 0 ∨ ei ≤ indentOfG (key ++ ':' :: rawValue)) :
    decodeStructLoopD (fuel + 1) fs vals ei lines pos
      = decodeStructLoopD fuel fs vals ei lines (pos + 1) := by
  obtain ⟨c, key', hck⟩ : ∃ c key', key = c :: key' := by
    cases key with
    | nil => exact absurd rfl hkeyne
    | cons c k => exact ⟨c, k, rfl⟩
  have hchash : c ≠ '#' := fun hcc => hhash (by rw [hck, hcc]; rfl)
  have hskip : skippableLine (key ++ ':' :: rawValue) = false := by
    refine skippable_false_of_trimmed (t := key' ++ ':' :: rawValue) ?_ hchash
    rw [hline, hck]
    rfl
  have hpos1 : skipEmptyD lines pos = pos := skipEmptyD_eq_self hdrop hskip
  have hmore : hasMoreD lines pos = true := hasMoreD_true_of_current hdrop hskip
  have hcur : currentLineD lines pos = key ++ ':' :: rawValue := currentLineD_of_drop hdrop
  rw [decodeStructLoopD]
  rw [if_neg (by simp [hmore]), hpos1]
  rw [if_neg (by simp [hmore]), hcur]
  rw [if_neg (by rintro ⟨h1, h2⟩; rcases hind with h | h; omega; omega)]
  rw [hline, splitFirstG_append key rawValue hcolon]
  simp only [hkeytrim, harr, Option.isSome_none, Bool.false_eq_true, if_false, hfield]

/-- C9 witness: the malformed array key a-bracket-x-bracket names no field
of the person record; its line is skipped without error. -/
theorem c9_witness :
    decodeStructLoopD 3 [(sfT "Name" "name", .tstr)] [.dstr []] 0 ["a[x]: v".toList] 0
      = decodeStructLoopD 2 [(sfT "Name" "name", .tstr)] [.dstr []] 0 ["a[x]: v".toList] 1 :=
  c9_malformed_header_literal_skip 2 _ _ 0 0 _ "a[x]".toList " v".toList []
    (by rfl) (by decide) (by decide) (by decide) (by decide) (by decide)
    (by decide) (by decide) (Or.inl rfl)


/-- C7 counterexample: when the zero-length header is the last non-blank
line of the document, the slice field is left as a null (nil) slice, not a
zero-length one: decodeValue returns before decodeSlice ever runs. -/
theorem c7_counterexample :
    Unmarshal "e[0]:\n".toList (.tstruct [(sfT "E" "e", .tslice .tstr)])
      = .ok (.dstruct [.dslice none])
    ∧ DVal.dslice none ≠ DVal.dslice (some []) :=
  ⟨by rfl, by intro h; injection h with h1; exact Option.noConfusion h1⟩

/-- C7 amended: encoding an empty sequence field yields the bare
zero-length header line, and decoding that field yields a zero-length,
non-null sequence whenever a further non-blank, non-comment line follows
whose indentation is below the expected indent or which is not a dash
item; when the header is the last non-blank line, the field stays null
(the counterexample). -/
theorem c7_amended_empty_sequence :
    (∀ (opts : MarshalOptions) (k : EKind) (depth : Nat) (key : GoStr), key ≠ [] →
      encodeSliceE opts k [] depth key
        = .ok (spacesG (depth * opts.indent) ++ key ++ "[0]:\n".toList))
    ∧ ∀ (fuel : Nat) (et : GoType) (cur : DVal) (lines : List GoStr) (pos ei : Nat)
        (l : GoStr) (rest : List GoStr),
        lines.drop (skipEmptyD lines pos) = l :: rest →
        skippableLine l = false →
        0 < ei →
        (indentOfG l < ei ∨ startsDashSpace (trimSpaceG l) = false) →
        decodeValueD (fuel + 2) (.tslice et) cur lines pos ei
          = .ok (.dslice (some []), skipEmptyD lines pos) := by
  constructor
  · intro opts k depth key hk
    rw [encodeSliceE.eq_def]
    simp only [List.length_nil, if_pos rfl, if_true, if_pos hk]
  · intro fuel et cur lines pos ei l rest hdrop hskip hei hbrk
    have hmore : hasMoreD lines (skipEmptyD lines pos) = true :=
      hasMoreD_true_of_current hdrop hskip
    have hself : skipEmptyD lines (skipEmptyD lines pos) = skipEmptyD lines pos :=
      skipEmptyD_eq_self hdrop hskip
    have hcur : currentLineD lines (skipEmptyD lines pos) = l := currentLineD_of_drop hdrop
    rw [show fuel + 2 = (fuel + 1) + 1 from rfl, decodeValueD]
    rw [if_neg (by simp [hmore])]
    have hloop : decodeSliceLoopD (fuel + 1) et [] ei lines (skipEmptyD lines pos)
        = .ok ([], skipEmptyD lines pos) := by
      rw [decodeSliceLoopD]
      rw [if_neg (by simp [hmore]), hself, if_neg (by simp [hmore]), hcur]
      by_cases hi : indentOfG l < ei
      · rw [if_pos ⟨hei, hi⟩]
      · rw [if_neg (by rintro ⟨-, h2⟩; exact hi h2)]
        rcases hbrk with h | h
        · exact absurd h hi
        · rw [if_pos (by simp [h])]
    rw [hloop]

/-- C7 witness: with a following sibling line at indentation zero, the
zero-length header decodes the slice field to a zero-length non-null
sequence (and the encoder emits exactly that header for an empty slice). -/
theorem c7_witness :
    encodeSliceE DefaultMarshalOptions .kPrim [] 0 "e".toList = .ok "e[0]:\n".toList
    ∧ decodeValueD 2 (.tslice .tstr) (.dslice none) ["other: 5".toList] 0 2
        = .ok (.dslice (some []), 0) := by
  constructor
  · exact c7_amended_empty_sequence.1 DefaultMarshalOptions .kPrim 0 "e".toList (by decide)
  · have h := c7_amended_empty_sequence.2 0 .tstr (.dslice none) ["other: 5".toList] 0 2
      "other: 5".toList [] (by decide) (by decide) (by decide) (Or.inr (by decide))
    simpa using h

/-- C3 counterexample: inline encoding does not preserve element count for
every sequence of scalars.  The one-element slice holding the string
comma-b is quoted by the encoder (it contains the delimiter), but the
decoder splits the inline value on commas without regard to quotes, so
decoding returns two elements. -/
theorem c3_counterexample :
    Marshal (.estruct [(sfT "Friends" "friends",
        .eslice .kPrim [.estr "a,b".toList])])
      = .ok "friends[1]: \"a,b\"\n".toList
    ∧ Unmarshal "friends[1]: \"a,b\"\n".toList
        (.tstruct [(sfT "Friends" "friends", .tslice .tstr)])
      = .ok (.dstruct [.dslice (some [.dstr "\"a".toList, .dstr "b\"".toList])])
    ∧ ([DVal.dstr "\"a".toList, DVal.dstr "b\"".toList] : List DVal).length ≠ 1 := by
  refine ⟨by decide, by rfl, by decide⟩

/-- C3 (amended): encoding the friends example yields exactly the line
friends bracket-3 colon ana,luis,sam and decoding it recovers the three
strings in order; in general, for every non-empty sequence of
round-trip-safe scalars under a well-formed field name, the encoder emits
the single inline header line and decoding it recovers every element, in
order and count. -/
theorem c3_amended_inline_roundtrip (f : StructField) (et : GoType) (xs : List EVal)
    (hname : fieldNameOK (getFieldName f)) (hne : xs ≠ [])
    (hsafe : ∀ v ∈ xs, scalarRT et v) :
    (Marshal (.estruct [(sfT "Friends" "friends",
        .eslice .kPrim [.estr "ana".toList, .estr "luis".toList, .estr "sam".toList])])
      = .ok "friends[3]: ana,luis,sam\n".toList
     ∧ Unmarshal "friends[3]: ana,luis,sam\n".toList
        (.tstruct [(sfT "Friends" "friends", .tslice .tstr)])
      = .ok (.dstruct [.dslice (some
          [.dstr "ana".toList, .dstr "luis".toList, .dstr "sam".toList])]))
    ∧ Marshal (.estruct [(f, .eslice .kPrim xs)])
      = .ok (getFieldName f ++ '[' :: natToDigitsG xs.length
          ++ ']' :: ':' :: ' ' :: joinDelimG [','] (xs.map writePrimitiveValue) ++ ['\n'])
    ∧ Unmarshal (getFieldName f ++ '[' :: natToDigitsG xs.length
          ++ ']' :: ':' :: ' ' :: joinDelimG [','] (xs.map writePrimitiveValue) ++ ['\n'])
        (.tstruct [(f, .tslice et)])
      = .ok (.dstruct [.dslice (some (xs.map dOfScalar))]) := by
  refine ⟨⟨by decide, by rfl⟩, ?_, unmarshal_single_inline f et xs hname hne hsafe⟩
  have hdash : getFieldName f ≠ "-".toList := hname.2.2.2.2.2.2
  rw [Marshal, marshal_single_field DefaultMarshalOptions f (.eslice .kPrim xs) hdash]
  rw [show encodeValueE DefaultMarshalOptions (.eslice .kPrim xs) 0 (getFieldName f)
      = encodeSliceE DefaultMarshalOptions .kPrim xs 0 (getFieldName f) from rfl]
  rw [encodeSliceE_prim DefaultMarshalOptions xs (getFieldName f) hne]
  rfl

/-- C3 witness: the amended theorem applied to the friends example. -/
theorem c3_witness :
    Marshal (.estruct [(sfT "Friends" "friends",
        .eslice .kPrim [.estr "ana".toList, .estr "luis".toList, .estr "sam".toList])])
      = .ok "friends[3]: ana,luis,sam\n".toList
    ∧ Unmarshal "friends[3]: ana,luis,sam\n".toList
        (.tstruct [(sfT "Friends" "friends", .tslice .tstr)])
      = .ok (.dstruct [.dslice (some
          [.dstr "ana".toList, .dstr "luis".toList, .dstr "sam".toList])]) :=
  (c3_amended_inline_roundtrip (sfT "Friends" "friends") .tstr
    [.estr "ana".toList, .estr "luis".toList, .estr "sam".toList]
    (by refine ⟨by decide, by decide, by decide, by decide, by decide, by decide, by decide⟩)
    (by simp)
    (by
      intro v hv
      simp only [List.mem_cons, List.not_mem_nil, or_false] at hv
      rcases hv with rfl | rfl | rfl <;>
        exact ⟨by decide, by decide, by decide, by decide⟩)).1

/-- C1 counterexample: a scalar string field whose value is wrapped in
double quotes does not survive the round trip: the decoder strips the
outer quotes, which the encoder never added. -/
theorem c1_counterexample :
    Marshal (.estruct [(sfT "S" "s", .estr "\"hi\"".toList)])
      = .ok "s: \"hi\"\n".toList
    ∧ Unmarshal "s: \"hi\"\n".toList (.tstruct [(sfT "S" "s", .tstr)])
      = .ok (.dstruct [.dstr "hi".toList])
    ∧ DVal.dstr "hi".toList ≠ DVal.dstr "\"hi\"".toList := by
  refine ⟨by decide, by rfl, ?_⟩
  intro h
  injection h with h2
  exact absurd h2 (by decide)

/-- C1 (amended): for every flat record of flat-round-trip-safe scalar
fields - strings free of newlines that either contain a delimiter (the
encoder quote-wraps them and the decoder strips the quotes back off, so
they round-trip exactly, white space and embedded quotes included) or are
non-empty, trim-stable and not quote-wrapped; int64/uint64-range integers;
booleans; floats are not modelled by this embedding - with distinct
well-formed resolved names, encoding with default options yields one keyed
line per field and decoding that text into the zero record of the same
type restores every field value, field by field. -/
theorem c1_amended_flat_roundtrip (fields : List (StructField × GoType × EVal))
    (hnodup : (fields.map fun p => getFieldName p.1).Nodup)
    (hok : ∀ p ∈ fields, fieldNameOK (getFieldName p.1))
    (hsafe : ∀ p ∈ fields, flatScalarRT p.2.1 p.2.2) :
    Marshal (.estruct (fields.map fun p => (p.1, p.2.2)))
      = .ok ((fields.map fun p =>
          getFieldName p.1 ++ ':' :: ' ' :: (writePrimitiveValue p.2.2 ++ ['\n'])).flatten)
    ∧ Unmarshal ((fields.map fun p =>
          getFieldName p.1 ++ ':' :: ' ' :: (writePrimitiveValue p.2.2 ++ ['\n'])).flatten)
        (.tstruct (fields.map fun p => (p.1, p.2.1)))
      = .ok (.dstruct (fields.map fun p => dOfScalar p.2.2)) := by
  constructor
  · rw [Marshal]
    rw [marshal_flat DefaultMarshalOptions (fields.map fun p => (p.1, p.2.2)) ?_]
    · rw [List.map_map]
      rfl
    · intro pr hpr
      obtain ⟨p, hp, rfl⟩ := List.mem_map.1 hpr
      obtain ⟨hne, -, -, -, -, -, hdash⟩ := hok p hp
      exact ⟨hdash, hne, isScalarE_of_flatScalarRT (hsafe p hp)⟩
  · cases fields with
    | nil => rfl
    | cons p fields2 =>
      have hlinenl : ∀ l ∈ (p :: fields2).map
          (fun p => getFieldName p.1 ++ ':' :: ' ' :: writePrimitiveValue p.2.2), '\n' ∉ l := by
        intro l hl
        obtain ⟨q, hq, rfl⟩ := List.mem_map.1 hl
        obtain ⟨-, -, -, -, hnl, -, -⟩ := hok q hq
        obtain ⟨-, -, hnl2⟩ := writePrim_token_props_flat q.2.1 q.2.2 (hsafe q hq)
        intro hmem
        simp only [List.mem_append, List.mem_cons] at hmem
        rcases hmem with h | h | h | h
        · exact hnl h
        · exact absurd h.symm (by decide)
        · exact absurd h.symm (by decide)
        · exact hnl2 h
      have hdocsplit : splitOnCharG '\n' (((p :: fields2).map fun q =>
            getFieldName q.1 ++ ':' :: ' ' :: (writePrimitiveValue q.2.2 ++ ['\n'])).flatten)
          = ((p :: fields2).map
              (fun q => getFieldName q.1 ++ ':' :: ' ' :: writePrimitiveValue q.2.2)) ++ [[]] := by
        have h := split_newline_doc ((p :: fields2).map
          (fun q => getFieldName q.1 ++ ':' :: ' ' :: writePrimitiveValue q.2.2)) hlinenl
        rw [List.map_map] at h
        rw [show (((p :: fields2).map fun q =>
              getFieldName q.1 ++ ':' :: ' ' :: (writePrimitiveValue q.2.2 ++ ['\n'])).flatten)
            = (((p :: fields2).map
                ((fun l => l ++ ['\n']) ∘
                  fun q => getFieldName q.1 ++ ':' :: ' ' :: writePrimitiveValue q.2.2)).flatten)
          from by
            refine congrArg List.flatten (List.map_congr_left ?_)
            intro q hq
            simp [Function.comp]]
        exact h
      have hfacts : ∀ q ∈ enumQuads 0 (p :: fields2),
          fieldIndex ((p :: fields2).map fun r => (r.1, r.2.1)) (getFieldName q.2.1) = some q.1
          ∧ typeAt ((p :: fields2).map fun r => (r.1, r.2.1)) q.1 = q.2.2.1
          ∧ fieldNameOK (getFieldName q.2.1)
          ∧ flatScalarRT q.2.2.1 q.2.2.2 := by
        intro q hq
        obtain ⟨pre, post, hl, hk⟩ := enumQuads_mem hq
        have hqmem : q.2 ∈ p :: fields2 := by
          rw [hl]
          exact List.mem_append_right _ (List.mem_cons_self _ _)
        have hokq := hok q.2 hqmem
        have hsafeq := hsafe q.2 hqmem
        have hfsall : (p :: fields2).map (fun r => (r.1, r.2.1))
            = (pre.map fun r => (r.1, r.2.1))
              ++ (q.2.1, q.2.2.1) :: (post.map fun r => (r.1, r.2.1)) := by
          rw [hl, List.map_append, List.map_cons]
        rw [hl, List.map_append, List.map_cons] at hnodup
        have hnotpost : getFieldName q.2.1
            ∉ (post.map fun r => (r.1, r.2.1)).map (fun pr => getFieldName pr.1) := by
          rw [List.map_map]
          have h2 := (hnodup.of_append_right)
          exact (List.nodup_cons.1 h2).1
        have hidx : q.1 = (pre.map fun r => (r.1, r.2.1)).length := by
          rw [List.length_map]
          omega
        refine ⟨?_, ?_, hokq, hsafeq⟩
        · rw [hfsall, hidx]
          exact fieldIndex_at _ q.2.1 q.2.2.1 _ hokq.2.2.2.2.2.2 hnotpost
        · rw [hfsall, hidx]
          exact typeAt_at _ q.2.1 q.2.2.1 _
      obtain ⟨hskip0, -, -, -⟩ :=
        scalar_line_facts (hok p (List.mem_cons_self _ _))
          (writePrim_token_props_flat p.2.1 p.2.2 (hsafe p (List.mem_cons_self _ _))).1
          (writePrim_token_props_flat p.2.1 p.2.2 (hsafe p (List.mem_cons_self _ _))).2.1
      rw [Unmarshal]
      simp only [hdocsplit]
      rw [show (((p :: fields2).map
            (fun q => getFieldName q.1 ++ ':' :: ' ' :: writePrimitiveValue q.2.2)
              ++ ([[]] : List GoStr)).length)
          = (p :: fields2).length + 1 from by simp]
      rw [show ((p :: fields2).length + 1 + 2)
            * (typeDepthG (.tstruct ((p :: fields2).map fun r => (r.1, r.2.1))) + 4)
          = ((p :: fields2).length * typeDepthG (.tstruct ((p :: fields2).map fun r => (r.1, r.2.1)))
              + 3 * typeDepthG (.tstruct ((p :: fields2).map fun r => (r.1, r.2.1)))
              + 3 * (p :: fields2).length + 10) + (p :: fields2).length + 1 + 1 from by ring]
      rw [show zeroVal (.tstruct ((p :: fields2).map fun r => (r.1, r.2.1)))
          = DVal.dstruct (zeroFields ((p :: fields2).map fun r => (r.1, r.2.1))) from rfl]
      rw [decodeValueD_struct _ _ _ _ _ _ _ _ (by rfl) hskip0]
      rw [show ((p :: fields2).length * typeDepthG (.tstruct ((p :: fields2).map fun r => (r.1, r.2.1)))
              + 3 * typeDepthG (.tstruct ((p :: fields2).map fun r => (r.1, r.2.1)))
              + 3 * (p :: fields2).length + 10) + (p :: fields2).length + 1
          = ((p :: fields2).length * typeDepthG (.tstruct ((p :: fields2).map fun r => (r.1, r.2.1)))
              + 3 * typeDepthG (.tstruct ((p :: fields2).map fun r => (r.1, r.2.1)))
              + 3 * (p :: fields2).length + 10) + (enumQuads 0 (p :: fields2)).length + 1
        from by rw [enumQuads_length]]
      rw [decodeStructLoopD_scalars ((p :: fields2).map fun r => (r.1, r.2.1))
        (enumQuads 0 (p :: fields2)) (zeroFields ((p :: fields2).map fun r => (r.1, r.2.1)))
        _ 0 _ (by rw [List.drop_zero, enumQuads_map_snd
          (fun r => getFieldName r.1 ++ ':' :: ' ' :: writePrimitiveValue r.2.2) 0 (p :: fields2)])
        hfacts]
      rw [setScalars_enum (p :: fields2)]

/-- C1 witness: the amended theorem applied to the repository's person
record with the values of TestMarshalSimple, extended with a fourth field
whose string value contains the delimiter: the encoder quote-wraps it and
the decoder strips the quotes, restoring the comma-containing string
exactly. -/
theorem c1_witness :
    Marshal (.estruct [(sfT "Name" "name", .estr "Alice".toList),
        (sfT "Age" "age", .eint 30), (sfT "Email" "email", .estr "alice@example.com".toList),
        (sfT "Note" "note", .estr "a,b".toList)])
      = .ok "name: Alice\nage: 30\nemail: alice@example.com\nnote: \"a,b\"\n".toList
    ∧ Unmarshal "name: Alice\nage: 30\nemail: alice@example.com\nnote: \"a,b\"\n".toList
        (.tstruct [(sfT "Name" "name", .tstr), (sfT "Age" "age", .tint),
          (sfT "Email" "email", .tstr), (sfT "Note" "note", .tstr)])
      = .ok (.dstruct [.dstr "Alice".toList, .dint 30, .dstr "alice@example.com".toList,
          .dstr "a,b".toList]) :=
  c1_amended_flat_roundtrip
    [(sfT "Name" "name", GoType.tstr, EVal.estr "Alice".toList),
     (sfT "Age" "age", GoType.tint, EVal.eint 30),
     (sfT "Email" "email", GoType.tstr, EVal.estr "alice@example.com".toList),
     (sfT "Note" "note", GoType.tstr, EVal.estr "a,b".toList)]
    (by decide)
    (by
      intro p hp
      simp only [List.mem_cons, List.not_mem_nil, or_false] at hp
      rcases hp with rfl | rfl | rfl | rfl <;>
        exact ⟨by decide, by decide, by decide, by decide, by decide, by decide, by decide⟩)
    (by
      intro p hp
      simp only [List.mem_cons, List.not_mem_nil, or_false] at hp
      rcases hp with rfl | rfl | rfl | rfl
      · exact ⟨by decide, Or.inr ⟨by decide, by decide, by decide⟩⟩
      · exact ⟨by decide, by decide⟩
      · exact ⟨by decide, Or.inr ⟨by decide, by decide, by decide⟩⟩
      · exact ⟨by decide, Or.inl (by decide)⟩)

/-- C2 counterexample: with a string cell containing the delimiter, the
encoder emits a perfectly well-formed header and row (the cell quoted),
but decoding splits the row on the delimiter without regard to quotes and
the reconstructed field does not equal the original cell. -/
theorem c2_counterexample :
    Marshal (.estruct [(sfT "Items" "items", .eslice .kStruct
        [.estruct [(sfT "V" "v", .estr "a,b".toList)]])])
      = .ok "items[1]\x7bv\x7d:\n  \"a,b\"\n".toList
    ∧ Unmarshal "items[1]\x7bv\x7d:\n  \"a,b\"\n".toList
        (.tstruct [(sfT "Items" "items", .tslice (.tstruct [(sfT "V" "v", .tstr)]))])
      = .ok (.dstruct [.dslice (some [.dstruct [.dstr "\"a".toList]])])
    ∧ DVal.dstr "\"a".toList ≠ DVal.dstr "a,b".toList := by
  refine ⟨by decide, by rfl, ?_⟩
  intro h
  injection h with h2
  exact absurd h2 (by decide)

/-- C2 (amended): for every non-empty sequence of uniform records of
round-trip-safe scalar fields with distinct tabular-safe column names
(and no cell whose token opens a comment), encoding with default options
(tabular mode on) emits exactly the header line key bracket-N
brace-columns-brace colon followed by one indented row per record; and
decoding a tabular document whose header lists those columns in any
permutation, with each row's cells in header order, reconstructs every
record with each field value equal to the row value of the column bearing
its resolved name. -/
theorem c2_amended_tabular_roundtrip (f : StructField)
    (cols : List (StructField × GoType)) (rows : List (List EVal))
    (hfname : fieldNameOK (getFieldName f))
    (hcols : cols ≠ []) (hrows : rows ≠ [])
    (hcolnames : ∀ c ∈ cols, tabularNameOK (getFieldName c.1))
    (hnodup : (cols.map fun c => getFieldName c.1).Nodup)
    (hrlen : ∀ r ∈ rows, r.length = cols.length)
    (hsafe : ∀ r ∈ rows, ∀ i, i < cols.length →
      scalarRT (cols.getD i (sfT "" "", GoType.tstr)).2 (r.getD i (.estr [])))
    (hhash0 : ∀ r ∈ rows, ∀ i, i < cols.length →
      (writePrimitiveValue (r.getD i (.estr []))).head? ≠ some '#') :
    Marshal (.estruct [(f, .eslice .kStruct
        (rows.map fun r => .estruct ((cols.map Prod.fst).zip r)))])
      = .ok (getFieldName f ++ '[' :: natToDigitsG rows.length ++ ']' :: '\x7b' :: joinDelimG [','] (cols.map fun c => getFieldName c.1) ++ '\x7d' :: ':' :: '\n' :: (rows.map fun r => spacesG 2 ++ joinDelimG [','] (r.map writePrimitiveValue) ++ ['\n']).flatten)
    ∧ ∀ sel : List Nat, sel.Nodup → (∀ i ∈ sel, i < cols.length) →
        sel.length = cols.length →
        Unmarshal (getFieldName f ++ '[' :: natToDigitsG rows.length ++ ']' :: '\x7b' :: joinDelimG [','] (sel.map fun i => getFieldName (cols.getD i (sfT "" "", GoType.tstr)).1) ++ '\x7d' :: ':' :: '\n' :: (rows.map fun r => spacesG 2 ++ joinDelimG [','] ((sel.map fun i => r.getD i (EVal.estr [])).map writePrimitiveValue) ++ ['\n']).flatten)
          (.tstruct [(f, .tslice (.tstruct cols))])
        = .ok (.dstruct [.dslice (some (rows.map fun r => .dstruct (r.map dOfScalar)))]) := by
  constructor
  · obtain ⟨r0, rows2, rfl⟩ : ∃ r0 rows2, rows = r0 :: rows2 := by
      cases rows with
      | nil => exact absurd rfl hrows
      | cons a b => exact ⟨a, b, rfl⟩
    have hdash : getFieldName f ≠ "-".toList := hfname.2.2.2.2.2.2
    have hnodash : ∀ g ∈ cols.map Prod.fst, getFieldName g ≠ "-".toList := by
      intro g hg
      obtain ⟨c, hc, rfl⟩ := List.mem_map.1 hg
      exact (hcolnames c hc).1.2.2.2.2.2.2
    have hlen0 : (cols.map Prod.fst).length = r0.length := by
      rw [List.length_map, (hrlen r0 (List.mem_cons_self _ _))]
    have hlen2 : ∀ r ∈ rows2, (cols.map Prod.fst).length = r.length := by
      intro r hr
      rw [List.length_map, hrlen r (List.mem_cons_of_mem _ hr)]
    have huni : isUniformStructSlice
        ((r0 :: rows2).map fun r => EVal.estruct ((cols.map Prod.fst).zip r)) = true := by
      rw [List.map_cons]
      refine isUniformStructSlice_scalar _ ?_
      intro p hp
      obtain ⟨g, v⟩ := p
      have hv : v ∈ r0 := (List.of_mem_zip hp).2
      obtain ⟨j, hj, rfl⟩ := List.mem_iff_getElem.1 hv
      have hjk : j < cols.length := by
        rw [← hrlen r0 (List.mem_cons_self _ _)]
        exact hj
      have := hsafe r0 (List.mem_cons_self _ _) j hjk
      rw [List.getD_eq_getElem r0 (EVal.estr []) hj] at this
      exact isScalarE_of_scalarRT this
    rw [Marshal, marshal_single_field DefaultMarshalOptions f _ hdash]
    rw [show encodeValueE DefaultMarshalOptions
        (.eslice .kStruct ((r0 :: rows2).map fun r => .estruct ((cols.map Prod.fst).zip r)))
        0 (getFieldName f)
      = encodeSliceE DefaultMarshalOptions .kStruct
          ((r0 :: rows2).map fun r => .estruct ((cols.map Prod.fst).zip r))
          0 (getFieldName f) from rfl]
    rw [encodeSliceE.eq_def]
    rw [if_neg (by simp)]
    rw [if_pos (by rw [huni]; rfl)]
    rw [encodeTabularSliceE_eval DefaultMarshalOptions (getFieldName f)
      (cols.map Prod.fst) r0 rows2 hnodash hlen0 hlen2]
    rw [show ((cols.map Prod.fst).map getFieldName) = cols.map (fun c => getFieldName c.1)
      from by rw [List.map_map]; rfl]
    show Except.ok _ = Except.ok _
    congr 1
    rw [show DefaultMarshalOptions.delimiter = [','] from rfl,
      show DefaultMarshalOptions.indent = 2 from rfl,
      show spacesG 0 = [] from rfl]
    simp [List.append_assoc]
  · intro sel hsel hselb hsellen
    refine unmarshal_tabular_perm f cols rows sel hfname hcols hcolnames hnodup
      hsel hselb hsellen hrlen hsafe ?_
    intro r hr ch hch
    intro hcheq
    subst hcheq
    obtain ⟨i0, sel2, rfl⟩ : ∃ i0 sel2, sel = i0 :: sel2 := by
      cases hx : sel with
      | nil =>
        rw [hx] at hsellen
        exact absurd (List.length_eq_zero.1 hsellen.symm) hcols
      | cons a b => exact ⟨a, b, rfl⟩
    have hi0 : i0 < cols.length := hselb i0 (List.mem_cons_self _ _)
    have htok0ne : writePrimitiveValue (r.getD i0 (EVal.estr [])) ≠ [] :=
      (writePrim_token_props _ _ (hsafe r hr i0 hi0)).1
    rw [List.map_cons, List.map_cons, joinDelimG_head? htok0ne] at hch
    exact hhash0 r hr i0 hi0 hch

/-- C2 witness: the hikes example of the repository's tests - two records,
two columns - encoded in schema order and decoded from the permuted
header name,id with each row's cells permuted accordingly. -/
theorem c2_witness :
    Marshal (.estruct [(sfT "Hikes" "hikes", .eslice .kStruct
        [.estruct [(sfT "ID" "id", .eint 1), (sfT "Name" "name", .estr "Blue".toList)],
         .estruct [(sfT "ID" "id", .eint 2), (sfT "Name" "name", .estr "Ridge".toList)]])])
      = .ok "hikes[2]\x7bid,name\x7d:\n  1,Blue\n  2,Ridge\n".toList
    ∧ Unmarshal "hikes[2]\x7bname,id\x7d:\n  Blue,1\n  Ridge,2\n".toList
        (.tstruct [(sfT "Hikes" "hikes", .tslice hikeT)])
      = .ok (.dstruct [.dslice (some [.dstruct [.dint 1, .dstr "Blue".toList],
                                      .dstruct [.dint 2, .dstr "Ridge".toList]])]) := by
  have h := c2_amended_tabular_roundtrip (sfT "Hikes" "hikes")
    [(sfT "ID" "id", .tint), (sfT "Name" "name", .tstr)]
    [[.eint 1, .estr "Blue".toList], [.eint 2, .estr "Ridge".toList]]
    (by exact ⟨by decide, by decide, by decide, by decide, by decide, by decide, by decide⟩)
    (by simp) (by simp)
    (by
      intro c hc
      simp only [List.mem_cons, List.not_mem_nil, or_false] at hc
      rcases hc with rfl | rfl <;>
        exact ⟨⟨by decide, by decide, by decide, by decide, by decide, by decide, by decide⟩,
          by decide, by decide⟩)
    (by decide) (by decide)
    (by
      intro r hr i hi
      simp only [List.mem_cons, List.not_mem_nil, or_false] at hr
      have hi2 : i < 2 := by simpa using hi
      interval_cases i <;> rcases hr with rfl | rfl
      · exact ⟨by decide, by decide⟩
      · exact ⟨by decide, by decide⟩
      · exact ⟨by decide, by decide, by decide, by decide⟩
      · exact ⟨by decide, by decide, by decide, by decide⟩)
    (by
      intro r hr i hi
      simp only [List.mem_cons, List.not_mem_nil, or_false] at hr
      have hi2 : i < 2 := by simpa using hi
      interval_cases i <;> rcases hr with rfl | rfl <;> decide)
  exact ⟨h.1, h.2 [1, 0] (by decide) (by decide) (by decide)⟩

end GoToon
